import Mathlib

/-!
# Storage-server tokenizer and write sessions

A shallow embedding of `src/ss/ss_tokenize.c` and of the write-session part of
`src/ss/ss_main.c`.

Conventions of the embedding.

* A C string (`const char *`, a token of a document, a file name) is the list
  of its characters before the terminating NUL.  A byte buffer read from a
  file is turned into the C string the code sees with `c_str`.
* `ss_doc_tokens_t` is the list of its sentences, a sentence the list of its
  tokens; `num_sentences` and `word_counts[i]` are the lengths of these lists.
* Allocation is taken to succeed.  Every result of `fopen` or `rename` the
  source branches on is an explicit input of the handler that runs it.
* `ss_tokenize` reads elements of `word_counts` that it never set (those of the
  ninth sentence on).  What the memory holds there is an explicit input, `junk`, of
  the tokenizer and of the two handlers that call it.
-/

namespace SS

/-! ## ss_tokenize.c -/

/-- The `isspace` of `<ctype.h>` in the "C" locale: space, `\t`, `\n`, `\v`, `\f`, `\r`. -/
def isspace (c : Char) : Bool :=
  c == ' ' || c == '\t' || c == '\n' || c == '\x0b' || c == '\x0c' || c == '\r'

/-- The source's `is_sentence_end`. -/
def is_sentence_end (c : Char) : Bool :=
  c == '.' || c == '!' || c == '?'

/-- A document: sentences of tokens (`ss_doc_tokens_t`). -/
abbrev ss_doc_tokens := List (List (List Char))

/-- What the memory holds where `ss_tokenize` reads a word count it did not set: for
the sentence of each index, the words that the count found there makes the sentence
have, as many as the count (none when the memory holds 0).  The code stored none of
them; what they are is left open. -/
abbrev junk_words := Nat → List (List Char)

/-- The words sentence `cur_s` has when the loop opens it.  `word_counts` starts as
eight elements zeroed by `calloc`, so each of the sentences 0 to 7 opens without words.
The arrays grow by `realloc`, which sets nothing in the elements it adds, and for a new
sentence the loop sets `word_caps[cur_s]` and `sent_words[cur_s]` only: from sentence 8
on, `word_counts[cur_s]` is what the memory holds, and the sentence opens with the
words that count gives it, which the code never stored. -/
def fresh_words (junk : junk_words) (cur_s : Nat) : List (List Char) :=
  if cur_s < 8 then [] else junk cur_s

/-- The main loop of `ss_tokenize`.  `done` holds the sentences before `cur_s`,
`cur` the tokens of sentence `cur_s`, and `tok` the characters from `tok_start`
to `p` (`tok = []` stands for `tok_start == NULL`: an open token has at least
one character).  A delimiter closes sentence `cur_s` and opens the sentence of index
`num_sent`, the number of sentences so far.  At the end of the text the open token is
flushed. -/
def tok_loop (junk : junk_words) :
    List Char → ss_doc_tokens → List (List Char) → List Char → ss_doc_tokens
  | [], done, cur, tok => done ++ [if tok = [] then cur else cur ++ [tok]]
  | c :: p, done, cur, tok =>
    if isspace c then
      if tok = [] then tok_loop junk p done cur []
      else tok_loop junk p done (cur ++ [tok]) []
    else if is_sentence_end c then
      if tok ≠ [] then
        tok_loop junk p (done ++ [cur ++ [tok ++ [c]]]) (fresh_words junk (done.length + 1)) []
      else if cur ≠ [] then
        tok_loop junk p (done ++ [cur.dropLast ++ [cur.getLastD [] ++ [c]]])
          (fresh_words junk (done.length + 1)) []
      else tok_loop junk p (done ++ [[[c]]]) (fresh_words junk (done.length + 1)) []
    else tok_loop junk p done cur (tok ++ [c])

/-- The source's `ss_tokenize`: starts with one empty sentence and no open token. -/
def ss_tokenize (junk : junk_words) (text : List Char) : ss_doc_tokens :=
  tok_loop junk text [] [] []

/-- A memory that holds 0 wherever the tokenizer reads a count it did not set. -/
def no_junk : junk_words :=
  fun _ => []

/-- The inner loop of `ss_tokens_compose`: the tokens of one sentence, a
space after each but the last. -/
def compose_words : List (List Char) → List Char
  | [] => []
  | [w] => w
  | w :: ws => w ++ ' ' :: compose_words ws

/-- The source's `ss_tokens_compose`: the sentences, a space after each but the last. -/
def ss_tokens_compose : ss_doc_tokens → List Char
  | [] => []
  | [s] => compose_words s
  | s :: ss => compose_words s ++ ' ' :: ss_tokens_compose ss

/-- Is the character one of the four the token splitter of
`ss_tokens_replace_or_append` skips: space, `\t`, `\n`, `\r`. -/
def is_blank (c : Char) : Bool :=
  c == ' ' || c == '\t' || c == '\n' || c == '\r'

/-- The scan both loops of `ss_tokens_replace_or_append` make over `new_word`:
the maximal runs of non-blank characters, in order.  `cur` is the run being
read (from `start` to `p`). -/
def split_go : List Char → List Char → List (List Char)
  | [], cur => if cur = [] then [] else [cur]
  | c :: p, cur =>
    if is_blank c then
      if cur = [] then split_go p [] else cur :: split_go p []
    else split_go p (cur ++ [c])

/-- The tokens of an APPLY content; `ntok` is the length of this list. -/
def split_tokens (new_word : List Char) : List (List Char) :=
  split_go new_word []

/-- The source's `ss_tokens_replace_or_append`: the return code and the document
afterwards. -/
def ss_tokens_replace_or_append (doc : ss_doc_tokens) (sidx widx : Int)
    (new_word : List Char) : Int × ss_doc_tokens :=
  if sidx < 0 ∨ sidx ≥ doc.length then (-1, doc) else
  let row := doc.getD sidx.toNat []
  let wc := row.length
  if widx < 0 then (-1, doc) else
  let ins := split_tokens new_word
  let ntok := ins.length
  if ntok = 0 then (-1, doc) else
  if widx ≥ wc ∧ ntok = 1 ∧ new_word.length = 1 ∧
      is_sentence_end (new_word.headD ' ') = true ∧ wc > 0 then
    (0, doc.set sidx.toNat (row.dropLast ++ [row.getLastD [] ++ [new_word.headD ' ']]))
  else if widx > wc then (-1, doc) else
  let last := row.getLastD []
  let move_delimiter : Bool :=
    decide (widx = wc) && decide (wc > 0) && decide (last ≠ []) &&
      is_sentence_end (last.getLastD ' ')
  let row1 := if move_delimiter then row.dropLast ++ [last.dropLast] else row
  let ins1 :=
    if move_delimiter then ins.dropLast ++ [ins.getLastD [] ++ [last.getLastD ' ']] else ins
  (0, doc.set sidx.toNat (row1.take widx.toNat ++ ins1 ++ row1.drop widx.toNat))

/-! ## ss_main.c: lock table, store and write sessions -/

/-- The statuses the storage server answers with. -/
inductive ss_status where
  | OK
  | ERR_BADREQ
  | ERR_NOAUTH
  | ERR_LOCKED
  | ERR_INTERNAL
  | ERR_NOTFOUND
  deriving DecidableEq, Repr

/-- A response frame: its `status` and its `msg` field, when it has one. -/
structure ss_response where
  status : ss_status
  msg : Option String
  deriving DecidableEq, Repr

/-- The lock table `g_locks`: the nodes of the linked list, head first. -/
abbrev lock_table := List (List Char × Int)

/-- The source's `lock_acquire`: `-1` and the table as it was when a node has
the sentence index and the file name; otherwise `0` and a new node at the head,
its name copied by `snprintf` into `char file[128]`. -/
def lock_acquire (g_locks : lock_table) (file : List Char) (sidx : Int) : Int × lock_table :=
  if g_locks.any (fun n => decide (n.2 = sidx) && decide (n.1 = file)) then (-1, g_locks)
  else (0, (file.take 127, sidx) :: g_locks)

/-- The source's `lock_release`: unlinks the first node with the sentence index
and the file name. -/
def lock_release : lock_table → List Char → Int → lock_table
  | [], _, _ => []
  | n :: rest, file, sidx =>
    if n.2 = sidx ∧ n.1 = file then rest else n :: lock_release rest file sidx

/-- What `json_get_string_field` copies into a buffer of `out_sz` bytes: the
value of the field when the message has it and it fits with its NUL. -/
def get_string_field (value : Option (List Char)) (out_sz : Nat) : Option (List Char) :=
  match value with
  | none => none
  | some v => if v.length + 1 > out_sz then none else some v

/-- The files of the store: the bytes under `files/` and the snapshots under
`undo/`, by file name (`undo/<file>.undo` is under `<file>`), and the lock table. -/
structure ss_store where
  files : List Char → Option (List Char)
  undo : List Char → Option (List Char)
  locks : lock_table

/-- Writing or removing one entry of a directory. -/
def fs_set (fs : List Char → Option (List Char)) (name : List Char)
    (v : Option (List Char)) : List Char → Option (List Char) :=
  fun n => if n = name then v else fs n

/-- The source's `read_file_into`: fails on a missing file and on one of more
than 10 MiB. -/
def read_file_into (fs : List Char → Option (List Char)) (name : List Char) :
    Option (List Char) :=
  match fs name with
  | none => none
  | some buf => if buf.length > 10 * 1024 * 1024 then none else some buf

/-- The C string at the start of a buffer: its bytes before the first NUL. -/
def c_str (buf : List Char) : List Char :=
  buf.takeWhile (fun c => c != Char.ofNat 0)

/-- The source's `conn_write_session_t`.  `pre_image` is `none` for `NULL`;
`pre_image_len` is the length of the bytes. -/
structure conn_write_session where
  active : Bool
  file : List Char
  sentence_idx : Int
  doc : ss_doc_tokens
  pre_image : Option (List Char)
  deriving DecidableEq, Repr

/-- The session after `memset(&ws, 0, sizeof(ws))`. -/
def ws_zero : conn_write_session :=
  { active := false, file := [], sentence_idx := 0, doc := [], pre_image := none }

/-- The BEGIN_WRITE branch of `ss_conn_handler`.  `file` is the value of the
`file` field of the message, `ticket_ok` says that the ticket field is there and
`ticket_validate` accepts it, `sidx` is the `sentenceIndex` read (0 when absent),
`create_ok` is the result of the `fopen` that creates a missing file, `junk` what
the memory holds for the tokenizer. -/
def handle_begin_write (junk : junk_words) (st : ss_store) (ws : conn_write_session)
    (file : Option (List Char)) (ticket_ok : Bool) (sidx : Int) (create_ok : Bool) :
    ss_store × conn_write_session × ss_response :=
  match get_string_field file 128 with
  | none => (st, ws, ⟨ss_status.ERR_BADREQ, none⟩)
  | some file =>
    if !ticket_ok then (st, ws, ⟨ss_status.ERR_NOAUTH, none⟩)
    else if ws.active then (st, ws, ⟨ss_status.ERR_BADREQ, some "session-active"⟩)
    else
      let lk := lock_acquire st.locks file sidx
      if lk.1 ≠ 0 then (st, ws, ⟨ss_status.ERR_LOCKED, none⟩)
      else
        let ws1 : conn_write_session :=
          { active := true, file := file.take 127, sentence_idx := sidx, doc := [],
            pre_image := none }
        let ok : ss_response := ⟨ss_status.OK, none⟩
        match read_file_into st.files file with
        | none =>
          let files1 := if create_ok then fs_set st.files file (some []) else st.files
          if sidx < 0 ∨ sidx ≥ 1 then
            ({ st with files := files1, locks := lock_release lk.2 file sidx },
              { ws1 with active := false }, ok)
          else
            ({ st with files := files1, locks := lk.2 }, { ws1 with doc := [[]] }, ok)
        | some content =>
          let pre : Option (List Char) := if content.length > 0 then some content else none
          let doc0 := ss_tokenize junk (c_str content)
          let doc := if doc0.length = 0 ∧ sidx = 0 then [[]] else doc0
          if sidx < 0 ∨ sidx > doc.length then
            ({ st with locks := lock_release lk.2 file sidx }, { ws1 with active := false }, ok)
          else if sidx = doc.length then
            ({ st with locks := lk.2 }, { ws1 with doc := doc ++ [[]], pre_image := pre }, ok)
          else
            ({ st with locks := lk.2 }, { ws1 with doc := doc, pre_image := pre }, ok)

/-- The APPLY branch of `ss_conn_handler`.  `widx` and `content` are the values
of the fields `wordIndex` and `content` of the message, `none` when the field
cannot be read (`content` goes into a buffer of 512 bytes). -/
def handle_apply (ws : conn_write_session) (widx : Option Int)
    (content : Option (List Char)) : conn_write_session × ss_response :=
  if !ws.active then (ws, ⟨ss_status.ERR_BADREQ, none⟩)
  else
    match widx, get_string_field content 512 with
    | some widx, some content =>
      let r := ss_tokens_replace_or_append ws.doc ws.sentence_idx widx content
      if r.1 ≠ 0 then
        ({ ws with doc := r.2 }, ⟨ss_status.ERR_BADREQ, some "invalid-index-or-content"⟩)
      else ({ ws with doc := r.2 }, ⟨ss_status.OK, none⟩)
    | _, _ => (ws, ⟨ss_status.ERR_BADREQ, some "missing-fields"⟩)

/-- The merge of END_WRITE (the `do { ... } while (0)` block): the text to
commit, `none` for `new_text == NULL`.  The file is read again and tokenized,
its sentence list is grown with empty sentences up to the session's index, and
the sentence at that index is replaced by the session's; when the file cannot
be read the session's whole document is composed. -/
def merge_on_commit (junk : junk_words) (fs : List Char → Option (List Char))
    (ws : conn_write_session) : Option (List Char) :=
  match read_file_into fs ws.file with
  | none => some (ss_tokens_compose ws.doc)
  | some cur_content =>
    let cur_doc := ss_tokenize junk (c_str cur_content)
    let sidx := ws.sentence_idx
    if sidx < 0 then none
    else
      let cur_doc1 :=
        if sidx ≥ cur_doc.length then
          cur_doc ++ List.replicate (sidx.toNat + 1 - cur_doc.length) []
        else cur_doc
      let row := if sidx < ws.doc.length then ws.doc.getD sidx.toNat [] else []
      some (ss_tokens_compose (cur_doc1.set sidx.toNat row))

/-- The results of the system calls END_WRITE branches on: the `fopen` of the
temporary file, the `fopen` of the undo snapshot, the `rename` over the file. -/
structure end_write_io where
  tmp_open_ok : Bool
  undo_open_ok : Bool
  rename_ok : Bool
  deriving DecidableEq, Repr

/-- The END_WRITE branch of `ss_conn_handler`.  The temporary file is
`files/<file>.tmp`; the undo snapshot is written before the rename; `junk` is what the
memory holds for the tokenizer. -/
def handle_end_write (junk : junk_words) (st : ss_store) (ws : conn_write_session)
    (io : end_write_io) : ss_store × conn_write_session × ss_response :=
  if !ws.active then (st, ws, ⟨ss_status.ERR_BADREQ, none⟩)
  else
    let tmp := ws.file ++ ".tmp".toList
    let r : ss_store × ss_response :=
      match merge_on_commit junk st.files ws with
      | none => (st, ⟨ss_status.ERR_INTERNAL, none⟩)
      | some new_text =>
        if !io.tmp_open_ok then (st, ⟨ss_status.ERR_INTERNAL, none⟩)
        else
          let files1 := fs_set st.files tmp (some new_text)
          let undo1 :=
            if io.undo_open_ok then fs_set st.undo ws.file (some (ws.pre_image.getD []))
            else st.undo
          if !io.rename_ok then
            ({ st with files := fs_set files1 tmp none, undo := undo1 },
              ⟨ss_status.ERR_INTERNAL, none⟩)
          else
            ({ st with files := fs_set (fs_set files1 tmp none) ws.file (some new_text),
                       undo := undo1 },
              ⟨ss_status.OK, none⟩)
    ({ r.1 with locks := lock_release r.1.locks ws.file ws.sentence_idx }, ws_zero, r.2)

/-- A call on the lock table as the handlers make it: BEGIN_WRITE acquires
with the `file` field it could copy into its `char file[128]`, and a release
may come with any name and index. -/
inductive lock_op where
  | begin_write (file : List Char) (sidx : Int)
  | release (file : List Char) (sidx : Int)
  deriving DecidableEq, Repr

/-- The lock table after one call. -/
def lock_step (g_locks : lock_table) : lock_op → lock_table
  | lock_op.begin_write file sidx =>
    match get_string_field (some file) 128 with
    | none => g_locks
    | some f => (lock_acquire g_locks f sidx).2
  | lock_op.release file sidx => lock_release g_locks file sidx

/-- The lock table after a sequence of calls, from the empty table. -/
def lock_run (ops : List lock_op) : lock_table :=
  ops.foldl lock_step []

/-- A session after a sequence of APPLY messages, each given by its
`wordIndex` and `content` fields. -/
def apply_all (ws : conn_write_session) (msgs : List (Option Int × Option (List Char))) :
    conn_write_session :=
  msgs.foldl (fun w m => (handle_apply w m.1 m.2).1) ws

/-! ## Scenarios -/

/-- Every system call of END_WRITE succeeds. -/
def io_ok : end_write_io :=
  { tmp_open_ok := true, undo_open_ok := true, rename_ok := true }

/-- A store with one file, its undo snapshot when it has one, and no lock held. -/
def store_one (name content : List Char) (snapshot : Option (List Char)) : ss_store :=
  { files := fun n => if n = name then some content else none,
    undo := fun n => if n = name then snapshot else none,
    locks := [] }

/-- The session of scenario S2 on a file `f`: BEGIN_WRITE on sentence 0 with a valid
ticket, APPLY of `Hello` at word 0, END_WRITE.  The three responses and the store
at the end.  `jb` and `je` are what the memory holds for the tokenizer at BEGIN_WRITE
and at END_WRITE. -/
def s2_session (jb je : junk_words) (st : ss_store) (ws : conn_write_session) (f : List Char)
    (create_ok : Bool) (io : end_write_io) :
    ss_response × ss_response × ss_response × ss_store :=
  let b := handle_begin_write jb st ws (some f) true 0 create_ok
  let a := handle_apply b.2.1 (some 0) (some "Hello".toList)
  let e := handle_end_write je b.1 a.1 io
  (b.2.2, a.2, e.2.2, e.1)

/-- Two connections on the file `f` whose content is `a`: the first begins a write on
sentence 0.  (In this scenario and the next the memory holds 0 for the tokenizer, which
does not read it: the texts have fewer than eight delimiters.) -/
def lost_begin1 : ss_store × conn_write_session × ss_response :=
  handle_begin_write no_junk (store_one "f".toList "a".toList none) ws_zero
    (some "f".toList) true 0 true

/-- The second connection begins a write on sentence 1 of the same content. -/
def lost_begin2 : ss_store × conn_write_session × ss_response :=
  handle_begin_write no_junk lost_begin1.1 ws_zero (some "f".toList) true 1 true

/-- The first session applies `b` at word 1. -/
def lost_apply1 : conn_write_session × ss_response :=
  handle_apply lost_begin1.2.1 (some 1) (some "b".toList)

/-- The second session applies `c` at word 0. -/
def lost_apply2 : conn_write_session × ss_response :=
  handle_apply lost_begin2.2.1 (some 0) (some "c".toList)

/-- The second session ends its write first. -/
def lost_end2 : ss_store × conn_write_session × ss_response :=
  handle_end_write no_junk lost_begin2.1 lost_apply2.1 io_ok

/-- The first session ends its write after it. -/
def lost_end1 : ss_store × conn_write_session × ss_response :=
  handle_end_write no_junk lost_end2.1 lost_apply1.1 io_ok

/-- A session on the file `f`, content `hi`, earlier undo snapshot `old`: BEGIN_WRITE
on sentence 0. -/
def stale_begin : ss_store × conn_write_session × ss_response :=
  handle_begin_write no_junk (store_one "f".toList "hi".toList (some "old".toList)) ws_zero
    (some "f".toList) true 0 true

/-- The session applies `x` at word 0. -/
def stale_apply : conn_write_session × ss_response :=
  handle_apply stale_begin.2.1 (some 0) (some "x".toList)

/-- The session ends its write; the undo snapshot file cannot be opened. -/
def stale_end : ss_store × conn_write_session × ss_response :=
  handle_end_write no_junk stale_begin.1 stale_apply.1
    { tmp_open_ok := true, undo_open_ok := false, rename_ok := true }

/-- A text of eight one-word sentences: it has eight delimiters and ends with one. -/
def eight_delims : List Char :=
  "a. b. c. d. e. f. g. h.".toList

/-- The eight sentences of `eight_delims`. -/
def eight_sentences : ss_doc_tokens :=
  [["a.".toList], ["b.".toList], ["c.".toList], ["d.".toList], ["e.".toList],
   ["f.".toList], ["g.".toList], ["h.".toList]]

/-- A memory that holds the count 1, over the word `w`, for every sentence. -/
def junk_w : junk_words :=
  fun _ => ["w".toList]

/-! ## Whitespace normal forms -/

/-- Where the reader of a text stands: at the start of a sentence (no token of
it read yet), inside a token, or after a token of the sentence. -/
inductive ws_pos where
  | sentence_start
  | in_token
  | after_token
  deriving DecidableEq, Repr

/-- The normal form the tokenizer and composer produce: whitespace is dropped
at the start of a sentence (so at the start of the text and after a
terminator) and in front of a terminator; a run of whitespace between two
tokens becomes one space; one space is written after every terminator. -/
def code_normalize_go : ws_pos → List Char → List Char
  | _, [] => []
  | st, c :: p =>
    if isspace c then
      code_normalize_go (if st = ws_pos.sentence_start then ws_pos.sentence_start
        else ws_pos.after_token) p
    else if is_sentence_end c then c :: ' ' :: code_normalize_go ws_pos.sentence_start p
    else if st = ws_pos.after_token then ' ' :: c :: code_normalize_go ws_pos.in_token p
    else c :: code_normalize_go ws_pos.in_token p

/-- The normal form of the code. -/
def code_normalize (x : List Char) : List Char :=
  code_normalize_go ws_pos.sentence_start x

/-! ## Composition of a document under construction -/

/-- The tokens of a sentence, a space after each. -/
def words_text : List (List Char) → List Char
  | [] => []
  | w :: ws => w ++ ' ' :: words_text ws

/-- The sentences of a document, a space after each. -/
def closed_text : ss_doc_tokens → List Char
  | [] => []
  | s :: ss => compose_words s ++ ' ' :: closed_text ss

/-! ## ss_main.c: UNDO -/

/-- The results of the system calls UNDO branches on: the `fopen` of the temporary
file and the `rename` over the file. -/
structure undo_io where
  tmp_open_ok : Bool
  rename_ok : Bool
  deriving DecidableEq, Repr

/-- The UNDO branch of `ss_conn_handler`.  `file` and `ticket` are the values of the
fields of the message (`ticket` goes into a buffer of 256 bytes), `valid` says that
`ticket_validate` accepts the ticket for the file, the op UNDO and this server.  The
temporary file is `files/<file>.udtmp`; the snapshot is unlinked after the rename. -/
def handle_undo (st : ss_store) (file ticket : Option (List Char)) (valid : Bool)
    (io : undo_io) : ss_store × ss_response :=
  match get_string_field file 128, get_string_field ticket 256 with
  | some file, some _ =>
    if !valid then (st, ⟨ss_status.ERR_NOAUTH, none⟩)
    else
      match read_file_into st.undo file with
      | none => (st, ⟨ss_status.ERR_NOTFOUND, none⟩)
      | some undo_content =>
        if !io.tmp_open_ok then (st, ⟨ss_status.ERR_INTERNAL, none⟩)
        else
          let tmp := file ++ ".udtmp".toList
          let files1 := fs_set st.files tmp (some undo_content)
          if !io.rename_ok then
            ({ st with files := fs_set files1 tmp none }, ⟨ss_status.ERR_INTERNAL, none⟩)
          else
            ({ st with files := fs_set (fs_set files1 tmp none) file (some undo_content),
                       undo := fs_set st.undo file none },
              ⟨ss_status.OK, none⟩)
  | _, _ => (st, ⟨ss_status.ERR_BADREQ, none⟩)

/-! ## ss_main.c: connections -/

/-- The storage server with its connections: the store and, for each connection, the
write session `ws` of its handler thread. -/
structure ss_system where
  store : ss_store
  conns : Nat → conn_write_session

/-- A request of a connection `c`, or its end.  BEGIN_WRITE, APPLY and END_WRITE come with
the inputs of their handlers (for the two that tokenize, what the memory holds then);
`other` is a request of any other type: these branches of `ss_conn_handler` use
neither `ws` nor the lock table, and leave the files `files` and the snapshots `undo`;
`close` is the end of the connection (`recv_msg` fails). -/
inductive conn_event where
  | begin_write (c : Nat) (file : Option (List Char)) (ticket_ok : Bool) (sidx : Int)
      (create_ok : Bool) (junk : junk_words)
  | apply (c : Nat) (widx : Option Int) (content : Option (List Char))
  | end_write (c : Nat) (io : end_write_io) (junk : junk_words)
  | other (c : Nat) (files undo : List Char → Option (List Char))
  | close (c : Nat)

/-- The sessions with that of connection `c` replaced. -/
def set_conn (conns : Nat → conn_write_session) (c : Nat) (ws : conn_write_session) :
    Nat → conn_write_session :=
  fun k => if k = c then ws else conns k

/-- The end of `ss_conn_handler`, after its loop: an active session releases its lock. -/
def conn_close (st : ss_store) (ws : conn_write_session) : ss_store :=
  if ws.active then { st with locks := lock_release st.locks ws.file ws.sentence_idx }
  else st

/-- The system after one event.  A connection that ended starts again, when its number
is used again, with `memset(&ws, 0, sizeof(ws))`. -/
def conn_step (s : ss_system) : conn_event → ss_system
  | conn_event.begin_write c file ticket_ok sidx create_ok junk =>
    let r := handle_begin_write junk s.store (s.conns c) file ticket_ok sidx create_ok
    { store := r.1, conns := set_conn s.conns c r.2.1 }
  | conn_event.apply c widx content =>
    { store := s.store, conns := set_conn s.conns c (handle_apply (s.conns c) widx content).1 }
  | conn_event.end_write c io junk =>
    let r := handle_end_write junk s.store (s.conns c) io
    { store := r.1, conns := set_conn s.conns c r.2.1 }
  | conn_event.other _ files undo =>
    { store := { s.store with files := files, undo := undo }, conns := s.conns }
  | conn_event.close c =>
    { store := conn_close s.store (s.conns c), conns := set_conn s.conns c ws_zero }

/-- The system at its start, with the files and snapshots of the store: no lock is held
and no connection has a session. -/
def ss_start (files undo : List Char → Option (List Char)) : ss_system :=
  { store := { files := files, undo := undo, locks := [] }, conns := fun _ => ws_zero }

/-- The system after a sequence of events. -/
def ss_run (files undo : List Char → Option (List Char)) (evs : List conn_event) :
    ss_system :=
  evs.foldl conn_step (ss_start files undo)

/-- What holds of the lock table and the sessions at every point: no lock is held
twice; every lock is that of an active session; every active session holds its lock;
two active sessions are not on the same sentence of the same file; and the sentence of
an active session is one of its document. -/
def conn_inv (s : ss_system) : Prop :=
  s.store.locks.Nodup ∧
  (∀ n ∈ s.store.locks, ∃ c, (s.conns c).active = true ∧
    ((s.conns c).file, (s.conns c).sentence_idx) = n) ∧
  (∀ c, (s.conns c).active = true →
    ((s.conns c).file, (s.conns c).sentence_idx) ∈ s.store.locks) ∧
  (∀ c k, (s.conns c).active = true → (s.conns k).active = true →
    ((s.conns c).file, (s.conns c).sentence_idx) =
      ((s.conns k).file, (s.conns k).sentence_idx) → c = k) ∧
  (∀ c, (s.conns c).active = true →
    0 ≤ (s.conns c).sentence_idx ∧ (s.conns c).sentence_idx < (s.conns c).doc.length)

/-- The requests of scenario S2 before its END_WRITE, on connection 0: BEGIN_WRITE on
sentence 0 of `f` with a valid ticket, APPLY of `Hello` at word 0. -/
def s2_events : List conn_event :=
  [conn_event.begin_write 0 (some "f".toList) true 0 true no_junk,
   conn_event.apply 0 (some 0) (some "Hello".toList)]

/-! ## Sentences and delimiters -/

/-- A token without a sentence delimiter. -/
def no_delimiter (t : List Char) : Prop :=
  ∀ c ∈ t, is_sentence_end c = false

/-- A sentence that a delimiter closed: it is not empty, and its only delimiter is the
last character of its last token. -/
def closed_sentence (s : List (List Char)) : Prop :=
  ∃ (init : List (List Char)) (t : List Char) (d : Char),
    s = init ++ [t ++ [d]] ∧ is_sentence_end d = true ∧
    (∀ w ∈ init, no_delimiter w) ∧ no_delimiter t

end SS

/-! # tickets.c -/

namespace Tickets

/-- The salt `kSalt`. -/
def kSalt : List Char := "DOCSPLUS-SALT-2025".toList

/-- The number of values of an `unsigned long` (64 bits). -/
def two64 : Nat := 2 ^ 64

/-- One step of `checksum`: `sum = ((sum << 5) + sum) + v` in `unsigned long`. -/
def checksum_step (sum v : Nat) : Nat :=
  ((sum <<< 5) + sum + v) % two64

/-- The loop of `checksum` over a string, each character as `unsigned char`. -/
def checksum_str (s : List Char) (sum : Nat) : Nat :=
  s.foldl (fun acc c => checksum_step acc (c.toNat % 256)) sum

/-- The conversion of an `int` or a `long` to `unsigned long`. -/
def to_ulong (v : Int) : Nat := (v % (two64 : Int)).toNat

/-- The source's `checksum`: over the file, the op, the salt, the ssid and the expiry. -/
def checksum (file op : List Char) (ssid exp : Int) : Nat :=
  checksum_step
    (checksum_step (checksum_str kSalt (checksum_str op (checksum_str file 5381)))
      (to_ulong ssid))
    (to_ulong exp)

/-- The character of a decimal digit. -/
def digit_char (d : Nat) : Char := Char.ofNat (48 + d)

/-- The decimal digits of `n` in front of `acc`; `fuel` bounds the recursion
(`n ≤ fuel` is enough). -/
def dec_go : Nat → Nat → List Char → List Char
  | 0, n, acc => digit_char (n % 10) :: acc
  | fuel + 1, n, acc =>
    if n < 10 then digit_char n :: acc
    else dec_go fuel (n / 10) (digit_char (n % 10) :: acc)

/-- What `%lu` prints. -/
def fmt_unsigned (n : Nat) : List Char := dec_go n n []

/-- What `%d` and `%ld` print. -/
def fmt_signed (v : Int) : List Char :=
  if v < 0 then '-' :: fmt_unsigned (-v).toNat else fmt_unsigned v.toNat

/-- The text `snprintf` makes of `"%s|%s|%d|%ld|%lu"`. -/
def ticket_text (file op : List Char) (ssid exp : Int) : List Char :=
  file ++ '|' :: (op ++ '|' :: (fmt_signed ssid ++ '|' :: (fmt_signed exp ++
    '|' :: fmt_unsigned (checksum file op ssid exp))))

/-- The source's `ticket_build` at the time `now`: the ticket written to `out`, `none`
for the return code -1.  The sum `now + ttl_seconds` is taken in the range of `long`. -/
def ticket_build (file op : List Char) (ssid ttl_seconds now : Int) (out_sz : Nat) :
    Option (List Char) :=
  if out_sz < 16 then none
  else
    let exp := now + ttl_seconds
    let t := ticket_text file op ssid exp
    if t.length > 0 ∧ t.length < out_sz then some t else none

/-- The successive results of `strtok(.., "|")`: the maximal runs of characters
other than `|`, in order.  `cur` is the run being read. -/
def strtok_go : List Char → List Char → List (List Char)
  | [], cur => if cur = [] then [] else [cur]
  | c :: p, cur =>
    if c = '|' then
      if cur = [] then strtok_go p [] else cur :: strtok_go p []
    else strtok_go p (cur ++ [c])

/-- The pieces `strtok` cuts a ticket into. -/
def strtok_pieces (s : List Char) : List (List Char) :=
  strtok_go s []

/-- The `isdigit` of `<ctype.h>`. -/
def isdigit (c : Char) : Bool :=
  decide (48 ≤ c.toNat) && decide (c.toNat ≤ 57)

/-- The value of the leading decimal digits of a string, after `acc`. -/
def parse_digits : List Char → Nat → Nat
  | [], acc => acc
  | c :: s, acc => if isdigit c then parse_digits s (acc * 10 + (c.toNat - 48)) else acc

/-- The start of `strtol` and `strtoul` in base 10: leading whitespace is skipped, a
sign is read, and the digits that follow give the magnitude.  The result is whether
the sign is `-`, and the magnitude. -/
def strto_parts (s : List Char) : Bool × Nat :=
  match s.dropWhile SS.isspace with
  | [] => (false, 0)
  | c :: r =>
    if c = '-' then (true, parse_digits r 0)
    else if c = '+' then (false, parse_digits r 0)
    else (false, parse_digits (c :: r) 0)

/-- The `strtol` of glibc in base 10: the value, clamped to the range of `long`. -/
def strtol (s : List Char) : Int :=
  let r := strto_parts s
  if r.1 then (if r.2 > 2 ^ 63 then -(2 ^ 63 : Int) else -(r.2 : Int))
  else (if r.2 ≥ 2 ^ 63 then (2 ^ 63 : Int) - 1 else (r.2 : Int))

/-- The `atol` of glibc: `strtol` in base 10. -/
def atol (s : List Char) : Int := strtol s

/-- The `atoi` of glibc: `strtol` in base 10, converted to `int` (32 bits). -/
def atoi (s : List Char) : Int :=
  (strtol s + 2 ^ 31) % 2 ^ 32 - 2 ^ 31

/-- The `strtoul` of glibc in base 10: the value, `ULONG_MAX` when it does not fit,
negated in `unsigned long` after a `-`. -/
def strtoul (s : List Char) : Nat :=
  let r := strto_parts s
  if r.2 ≥ two64 then two64 - 1
  else if r.1 then (two64 - r.2) % two64 else r.2

/-- The source's `ticket_validate` at the time `now`: 0 or -1. -/
def ticket_validate (ticket required_file required_op : List Char)
    (expected_ssid now : Int) : Int :=
  if ticket.length ≥ 512 then -1
  else
    match strtok_pieces ticket with
    | file :: op :: ssid_s :: exp_s :: sig_s :: _ =>
      let ssid := atoi ssid_s
      let exp := atol exp_s
      let sig := strtoul sig_s
      if file ≠ required_file then -1
      else if op ≠ required_op then -1
      else if ssid ≠ expected_ssid then -1
      else if now > exp then -1
      else if checksum file op ssid exp ≠ sig then -1
      else 0
    | _ => -1

end Tickets

/-! # net_proto.c: the JSON helpers -/

namespace Proto

/-- The loop of `strstr`: the text before the first occurrence of `needle` and the text
from it on (`before` is what was passed over). -/
def strstr_go (needle : List Char) : List Char → List Char → Option (List Char × List Char)
  | before, [] => if needle = [] then some (before, []) else none
  | before, c :: rest =>
    if needle.isPrefixOf (c :: rest) then some (before, c :: rest)
    else strstr_go needle (before ++ [c]) rest

/-- The `strstr` of `<string.h>`: `none` for `NULL`; otherwise the text before the first
occurrence and the text the result points to. -/
def strstr (hay needle : List Char) : Option (List Char × List Char) :=
  strstr_go needle [] hay

/-- The `strchr` of `<string.h>` for a character other than NUL: the text from its first
occurrence on. -/
def strchr (s : List Char) (ch : Char) : Option (List Char) :=
  match s.dropWhile (fun c => c != ch) with
  | [] => none
  | r => some r

/-- The source's `find_key`: the value found and whether it is a string, `none` for -1.
The key is searched without its quotes, a quote is looked for from the place found back
to the start, and the value is what follows the first colon from the place found on. -/
def find_key (json key : List Char) : Option (List Char × Bool) :=
  match strstr json key with
  | none => none
  | some (before, k) =>
    if !((before ++ k.take 1).any (fun c => c == '"')) then none
    else
      match strchr k ':' with
      | none => none
      | some colon =>
        let p := (colon.drop 1).dropWhile (fun c => c == ' ' || c == '\t')
        match p with
        | '"' :: v =>
          match strchr v '"' with
          | none => none
          | some _ => some (v.takeWhile (fun c => c != '"'), true)
        | _ => some (p.takeWhile (fun c => c != ',' && c != '}' && c != '\n'), false)

/-- The source's `json_get_string_field` into a buffer of `out_sz` bytes: the string
copied, `none` for -1. -/
def json_get_string_field (json key : List Char) (out_sz : Nat) : Option (List Char) :=
  match find_key json key with
  | some (v, true) => if v.length + 1 > out_sz then none else some v
  | _ => none

/-- The source's `json_get_int_field`: `atoi` of the first 63 characters of the value. -/
def json_get_int_field (json key : List Char) : Option Int :=
  match find_key json key with
  | some (v, _) => some (Tickets.atoi (v.take 63))
  | none => none

/-- What `snprintf(dst + strlen(dst), dst_sz - strlen(dst), ...)` leaves in `dst` for a
text: the text is cut to the room left, less the NUL.  (`dst` is a string in a buffer of
`dst_sz` bytes, so shorter than `dst_sz`.) -/
def snprintf_at (dst : List Char) (dst_sz : Nat) (text : List Char) : List Char :=
  dst ++ text.take (dst_sz - dst.length - 1)

/-- The text of a string field, after the brace or the comma. -/
def string_field_text (key val : List Char) (first : Bool) : List Char :=
  (if first then '{' else ',') :: '"' :: (key ++ '"' :: ':' :: '"' :: (val ++ ['"']))

/-- The text of an integer field, after the brace or the comma. -/
def int_field_text (key : List Char) (val : Int) (first : Bool) : List Char :=
  (if first then '{' else ',') :: '"' :: (key ++ '"' :: ':' :: Tickets.fmt_signed val)

/-- The source's `json_put_string_field`. -/
def json_put_string_field (dst : List Char) (dst_sz : Nat) (key val : List Char)
    (first : Bool) : List Char :=
  snprintf_at dst dst_sz (string_field_text key val first)

/-- The source's `json_put_int_field`. -/
def json_put_int_field (dst : List Char) (dst_sz : Nat) (key : List Char) (val : Int)
    (first : Bool) : List Char :=
  snprintf_at dst dst_sz (int_field_text key val first)

/-- The value of a field of a message under construction. -/
inductive json_value where
  | str (v : List Char)
  | int (v : Int)
  deriving DecidableEq, Repr

/-- The buffer after the calls of `json_put_string_field` and `json_put_int_field` for a
list of fields, the first of them with `first` set when `first` is. -/
def json_put_fields (dst_sz : Nat) : List Char → Bool → List (List Char × json_value) →
    List Char
  | dst, _, [] => dst
  | dst, first, (k, json_value.str v) :: rest =>
    json_put_fields dst_sz (json_put_string_field dst dst_sz k v first) false rest
  | dst, first, (k, json_value.int v) :: rest =>
    json_put_fields dst_sz (json_put_int_field dst dst_sz k v first) false rest

/-- The text of a list of fields: what the calls write when the buffer has room. -/
def fields_text : Bool → List (List Char × json_value) → List Char
  | _, [] => []
  | first, (k, json_value.str v) :: rest =>
    string_field_text k v first ++ fields_text false rest
  | first, (k, json_value.int v) :: rest =>
    int_field_text k v first ++ fields_text false rest

end Proto

/-! # The naming manager: nm_main.c, nm_persist.c, nm_dir.c -/

namespace NM

/-! ## The registry of storage servers -/

/-- The source's `ss_entry_t` (the link `next` is the list). -/
structure ss_entry where
  ss_id : Int
  ss_ctrl_port : Int
  ss_data_port : Int
  ss_addr : List Char
  last_heartbeat : Int
  is_up : Bool
  deriving DecidableEq, Repr

/-- The list `g_ss_list`, head first. -/
abbrev registry := List ss_entry

/-- The source's `add_ss` at the time `now`: a new entry at the head of the list. -/
def add_ss (g_ss_list : registry) (id ctrl data : Int) (addr : List Char) (now : Int) :
    registry :=
  { ss_id := id, ss_ctrl_port := ctrl, ss_data_port := data, ss_addr := addr.take 63,
    last_heartbeat := now, is_up := true } :: g_ss_list

/-- The source's `find_ss_nolock`: the first entry with the id. -/
def find_ss_nolock (g_ss_list : registry) (id : Int) : Option ss_entry :=
  g_ss_list.find? (fun e => decide (e.ss_id = id))

/-- The registry after the SS_REGISTER branch of `client_thread` (the resync tasks it
schedules run in threads of their own and are not part of the registry). -/
def handle_ss_register (g_ss_list : registry) (ssId ctrl data : Int) (ss_ip : List Char)
    (now : Int) : registry :=
  add_ss g_ss_list ssId ctrl data ss_ip now

/-- The assignments SS_HEARTBEAT makes to the entry it found: the first entry with the
id gets the time of the heartbeat, and is up when its data port is known. -/
def touch_ss : registry → Int → Int → registry
  | [], _, _ => []
  | e :: rest, id, now =>
    if e.ss_id = id then
      { e with last_heartbeat := now, is_up := decide (e.ss_data_port ≠ 0) } :: rest
    else e :: touch_ss rest id now

/-- The registry after the SS_HEARTBEAT branch of `client_thread`: an unknown id gets
an entry with the ports 0 at the head of the list. -/
def handle_ss_heartbeat (g_ss_list : registry) (ssId : Int) (ss_ip : List Char)
    (now : Int) : registry :=
  match find_ss_nolock g_ss_list ssId with
  | some _ => touch_ss g_ss_list ssId now
  | none =>
    touch_ss
      ({ ss_id := ssId, ss_ctrl_port := 0, ss_data_port := 0, ss_addr := ss_ip.take 63,
         last_heartbeat := 0, is_up := false } :: g_ss_list) ssId now

/-- The first loop of a scan of `hb_monitor_thread` at the time `now`: every entry is
down when its last heartbeat is more than 6 seconds old, and up otherwise. -/
def hb_mark (g_ss_list : registry) (now : Int) : registry :=
  g_ss_list.map (fun e => { e with is_up := !decide (now - e.last_heartbeat > 6) })

/-- The test `e && e->is_up` on the entry `find_ss_nolock` returns. -/
def ss_up (g_ss_list : registry) (id : Int) : Bool :=
  match find_ss_nolock g_ss_list id with
  | some e => e.is_up
  | none => false

/-- The source's `get_ss_info`: data port and address of the first entry with the id. -/
def get_ss_info (g_ss_list : registry) (ssid : Int) : Option (Int × List Char) :=
  match find_ss_nolock g_ss_list ssid with
  | some e => some (e.ss_data_port, e.ss_addr)
  | none => none

/-! ## The persisted directory (nm_persist.c) -/

/-- The source's `struct dir_entry`, without the four fields of the last modification
and the last access, which none of the functions below reads. -/
structure dir_entry where
  file : List Char
  ss_id : Int
  replicas : List Int
  deriving DecidableEq, Repr

/-- The array `g_state.dir[0..n_dir)`. -/
abbrev directory := List dir_entry

/-- The first entry of the directory with the file name. -/
def dir_find (d : directory) (file : List Char) : Option dir_entry :=
  d.find? (fun e => decide (e.file = file))

/-- The assignment of `ss_id` to the first entry with the file name. -/
def set_ss_id : directory → List Char → Int → directory
  | [], _, _ => []
  | e :: rest, file, v =>
    if e.file = file then { e with ss_id := v } :: rest else e :: set_ss_id rest file v

/-- The source's `nm_state_set_dir`: the return code and the directory. -/
def nm_state_set_dir (d : directory) (file : List Char) (ss_id : Int) : Int × directory :=
  if file = [] then (0, d)
  else
    match dir_find d file with
    | some e => if e.ss_id = ss_id then (0, d) else (1, set_ss_id d file ss_id)
    | none => (1, d ++ [{ file := file, ss_id := ss_id, replicas := [] }])

/-- The source's `nm_state_find_dir`: the ssId of the file, `none` for -1. -/
def nm_state_find_dir (d : directory) (file : List Char) : Option Int :=
  (dir_find d file).map (fun e => e.ss_id)

/-- The source's `nm_state_get_dir`: the first `max_entries` entries, each name copied
into 128 bytes. -/
def nm_state_get_dir (d : directory) (max_entries : Nat) : List (List Char × Int) :=
  (d.take max_entries).map (fun e => (e.file.take 127, e.ss_id))

/-- The assignment of the replica list to the first entry with the file name. -/
def set_repl : directory → List Char → List Int → directory
  | [], _, _ => []
  | e :: rest, file, r =>
    if e.file = file then { e with replicas := r } :: rest else e :: set_repl rest file r

/-- The source's `nm_state_set_replicas`: the return code and the directory. -/
def nm_state_set_replicas (d : directory) (file : List Char) (replicas : List Int) :
    Int × directory :=
  match dir_find d file with
  | some e => if e.replicas = replicas then (0, d) else (1, set_repl d file replicas)
  | none => (-1, d)

/-- The source's `nm_state_get_replicas` into an array of `max` entries: the replicas
copied (the first `max`).  The count it returns is that of all the replicas; the
callers index the array with it, and past `max` entries what they read is not defined,
so the replicas taken into account are those copied. -/
def nm_state_get_replicas (d : directory) (file : List Char) (max : Nat) : List Int :=
  match dir_find d file with
  | some e => e.replicas.take max
  | none => []

/-! ## The in-memory map of nm_dir.c -/

/-- The buckets `g_buckets`, each a chain of key and value, head first. -/
abbrev dir_map := Nat → List (List Char × Int)

/-- The source's `hash_str` (FNV-1a in `unsigned`, 32 bits). -/
def hash_str (s : List Char) : Nat :=
  s.foldl (fun h c => ((h ^^^ (c.toNat % 256)) * 16777619) % 2 ^ 32) 2166136261

/-- The source's `map_get`. -/
def map_get (m : dir_map) (k : List Char) : Option Int :=
  ((m (hash_str k % 257)).find? (fun n => decide (n.1 = k))).map (fun n => n.2)

/-- The assignment of the value to the first node of a chain with the key. -/
def chain_set : List (List Char × Int) → List Char → Int → List (List Char × Int)
  | [], _, _ => []
  | n :: rest, k, v => if n.1 = k then (k, v) :: rest else n :: chain_set rest k v

/-- The source's `map_put`. -/
def map_put (m : dir_map) (k : List Char) (v : Int) : dir_map :=
  fun b =>
    if b = hash_str k % 257 then
      match (m b).find? (fun n => decide (n.1 = k)) with
      | some _ => chain_set (m b) k v
      | none => (k, v) :: m b
    else m b

/-- The two directories of the naming manager: the map of nm_dir.c and the persisted
directory. -/
structure nm_dirs where
  g_buckets : dir_map
  dir : directory

/-- The source's `nm_dir_set`: the return code and the two directories.  The list of
the last lookups it also updates is read by `nm_dir_lookup` only. -/
def nm_dir_set (s : nm_dirs) (file : List Char) (ss_id : Int) : Int × nm_dirs :=
  match map_get s.g_buckets file with
  | some old =>
    if old = ss_id then (0, s)
    else (1, { g_buckets := map_put s.g_buckets file ss_id,
               dir := (nm_state_set_dir s.dir file ss_id).2 })
  | none =>
    (1, { g_buckets := map_put s.g_buckets file ss_id,
          dir := (nm_state_set_dir s.dir file ss_id).2 })

/-! ## The promotion of replicas (hb_monitor_thread) -/

/-- The body of the second loop of a scan for the entry `(file, primary)` of the
snapshot: when the primary is not up, the first replica that is up becomes the primary,
and the replicas become the old primary followed by the replicas that are neither the
new primary nor the old one (16 at most). -/
def promote_one (g_ss_list : registry) (s : nm_dirs) (file : List Char) (primary : Int) :
    nm_dirs :=
  if ss_up g_ss_list primary then s
  else
    let repls := nm_state_get_replicas s.dir file 16
    match repls.find? (fun cand => ss_up g_ss_list cand) with
    | none => s
    | some cand =>
      let s1 := (nm_dir_set s file cand).2
      let new_reps :=
        (primary :: repls.filter (fun r => !(decide (r = cand) || decide (r = primary)))).take 16
      { s1 with dir := (nm_state_set_replicas s1.dir file new_reps).2 }

/-- One scan of `hb_monitor_thread` at the time `now`: the registry with its entries
marked, and the directories after the promotions over the snapshot of 512 entries. -/
def hb_scan (g_ss_list : registry) (s : nm_dirs) (now : Int) : registry × nm_dirs :=
  let g1 := hb_mark g_ss_list now
  (g1, (nm_state_get_dir s.dir 512).foldl (fun acc fp => promote_one g1 acc fp.1 fp.2) s)

/-! ## Access control lists (nm_persist.c) -/

/-- The source's `struct acl_user`; `perm` is a mask of `ACL_R` (1) and `ACL_W` (2). -/
structure acl_user where
  user : List Char
  perm : Nat
  deriving DecidableEq, Repr

/-- The source's `struct acl_entry`; `owner` is `none` for `NULL`. -/
structure acl_entry where
  file : List Char
  owner : Option (List Char)
  grants : List acl_user
  deriving DecidableEq, Repr

/-- The source's `acl_hash_node_t` (the link `next` is the chain). -/
structure acl_hash_node where
  file : List Char
  acl_index : Nat
  deriving DecidableEq, Repr

/-- The array `g_state.acls[0..n_acls)` and the buckets `g_state.acl_map`. -/
structure acl_state where
  acls : List acl_entry
  acl_map : Nat → List acl_hash_node

/-- The source's `hash_djb2`: the bucket of a string, out of 256.  (A character above
127, negative as `char`, adds its byte less 256: the same bucket.) -/
def hash_djb2 (s : List Char) : Nat :=
  (s.foldl (fun h c => ((h <<< 5) + h + c.toNat % 256) % 2 ^ 64) 5381) % 256

/-- The source's `acl_map_insert`. -/
def acl_map_insert (m : Nat → List acl_hash_node) (file : List Char) (index : Nat) :
    Nat → List acl_hash_node :=
  fun b => if b = hash_djb2 file then { file := file, acl_index := index } :: m b else m b

/-- The source's `acl_map_find`: the index in the first node with the file name. -/
def acl_map_find (m : Nat → List acl_hash_node) (file : List Char) : Option Nat :=
  ((m (hash_djb2 file)).find? (fun n => decide (n.file = file))).map (fun n => n.acl_index)

/-- The index of the entry the source's `find_acl` points to. -/
def find_acl_index (st : acl_state) (file : List Char) : Option Nat :=
  match acl_map_find st.acl_map file with
  | some i => if i < st.acls.length then some i else none
  | none => none

/-- The source's `find_acl`. -/
def find_acl (st : acl_state) (file : List Char) : Option acl_entry :=
  match find_acl_index st file with
  | some i => st.acls.get? i
  | none => none

/-- The change of the element at an index of an array. -/
def modify_at {α : Type} (f : α → α) : List α → Nat → List α
  | [], _ => []
  | a :: l, 0 => f a :: l
  | a :: l, n + 1 => a :: modify_at f l n

/-- The source's `upsert_acl`: the state and the index of the entry of the file. -/
def upsert_acl (st : acl_state) (file : List Char) : acl_state × Nat :=
  match find_acl_index st file with
  | some i => (st, i)
  | none =>
    ({ acls := st.acls ++ [{ file := file, owner := none, grants := [] }],
       acl_map := acl_map_insert st.acl_map file st.acls.length }, st.acls.length)

/-- The source's `nm_acl_set_owner`: the return code and the state. -/
def nm_acl_set_owner (st : acl_state) (file owner : List Char) : Int × acl_state :=
  if file = [] then (0, st)
  else
    let r := upsert_acl st file
    let st1 := r.1
    let new_owner : Option (List Char) := if owner = [] then none else some owner
    (1, { st1 with acls := modify_at (fun e => { e with owner := new_owner }) st1.acls r.2 })

/-- The loop of `nm_acl_grant` over the grants: the first grant of the user gets the
permission, and a user without one gets a new grant at the end. -/
def grant_set : List acl_user → List Char → Nat → List acl_user
  | [], user, perm => [{ user := user, perm := perm }]
  | g :: rest, user, perm =>
    if g.user = user then { g with perm := perm } :: rest else g :: grant_set rest user perm

/-- The source's `nm_acl_grant`: the return code and the state. -/
def nm_acl_grant (st : acl_state) (file user : List Char) (perm : Nat) : Int × acl_state :=
  if file = [] ∨ user = [] then (0, st)
  else
    let r := upsert_acl st file
    let st1 := r.1
    (1, { st1 with
          acls := modify_at (fun e => { e with grants := grant_set e.grants user perm })
                    st1.acls r.2 })

/-- The permission `nm_acl_check` requires for an op: `ACL_R` for the three ops that
read, `ACL_W` for every other one. -/
def acl_need (op : List Char) : Nat :=
  if op = "READ".toList ∨ op = "VIEWCHECKPOINT".toList ∨ op = "LISTCHECKPOINTS".toList then 1
  else 2

/-- The source's `nm_acl_check`: 0 to allow, -1 to deny. -/
def nm_acl_check (st : acl_state) (file user op : List Char) : Int :=
  match find_acl st file with
  | none => -1
  | some e =>
    if e.owner = some user then 0
    else
      let need := acl_need op
      match e.grants.find? (fun g => decide (g.user = user)) with
      | some g => if g.perm &&& need = need then 0 else -1
      | none =>
        match e.grants.find? (fun g => decide (g.user = "anonymous".toList)) with
        | some g => if g.perm &&& need = need then 0 else -1
        | none => -1

/-! ## Request handlers (client_thread) -/

/-- The statuses the naming manager answers with. -/
inductive nm_status where
  | OK
  | ERR_BADREQ
  | ERR_NOTFOUND
  | ERR_NOAUTH
  | ERR_CONFLICT
  | ERR_UNAVAILABLE
  | ERR_INTERNAL
  deriving DecidableEq, Repr

/-- The state of the naming manager the handlers below work on. -/
structure nm_state where
  g_ss_list : registry
  dirs : nm_dirs
  acl : acl_state

/-- The user of a request: the `user` field when it is there, fits 128 bytes and is
not empty, and `anonymous` otherwise. -/
def request_user (user : Option (List Char)) : List Char :=
  match SS.get_string_field user 128 with
  | some u => if u = [] then "anonymous".toList else u
  | none => "anonymous".toList

/-- The tally of `pick_least_loaded_ss` for one mapping: the count of the first server
of the list with the ssId grows by one. -/
def tally_one : List Int → List Nat → Int → List Nat
  | id :: ids, c :: cs, v => if v = id then (c + 1) :: cs else c :: tally_one ids cs v
  | _, cs, _ => cs

/-- The choice of `pick_least_loaded_ss`: the index of the first least count, from
`best` with the count `cbest`, over the counts from index `j` on. -/
def first_min : List Nat → Nat → Nat → Nat → Nat
  | [], _, best, _ => best
  | c :: cs, j, best, cbest =>
    if c < cbest then first_min cs (j + 1) j c else first_min cs (j + 1) best cbest

/-- The source's `pick_least_loaded_ss`: the ssId chosen, its data port and its
address; `none` for -1. -/
def pick_least_loaded_ss (g_ss_list : registry) (d : directory) :
    Option (Int × Int × List Char) :=
  let ssids := (g_ss_list.take 1024).map (fun e => e.ss_id)
  let counts :=
    ((nm_state_get_dir d 512).map (fun fp => fp.2)).foldl (tally_one ssids)
      (List.replicate ssids.length 0)
  match ssids, counts with
  | [], _ => none
  | _ :: _, [] => none
  | id0 :: ids, c0 :: cs =>
    let best := first_min cs 1 0 c0
    let chosen_ssid := (id0 :: ids).getD best 0
    match g_ss_list.find? (fun e => decide (e.ss_id = chosen_ssid)) with
    | none => none
    | some e => if e.ss_data_port = 0 then none else some (chosen_ssid, e.ss_data_port, e.ss_addr)

/-- The replica CREATE and LOOKUP choose for a new file: the first server of the list
that is not the primary, is up and has a data port (one replica at most). -/
def choose_replicas (g_ss_list : registry) (chosen_ssid : Int) : List Int :=
  match g_ss_list.find? (fun e =>
      decide (e.ss_id ≠ chosen_ssid) && e.is_up && decide (e.ss_data_port > 0)) with
  | some e => [e.ss_id]
  | none => []

/-- What becomes of a request the naming manager sends to a storage server: no
connection, no send, the answer OK, or another answer or none. -/
inductive ss_reply where
  | connect_failed
  | send_failed
  | ok
  | other
  deriving DecidableEq, Repr

/-- The assignments CREATE and LOOKUP make once the storage server has created the
file: mapping, owner, grant of the owner, and replicas when one is chosen.  (They also
record the creator and the time in the entry of the directory: these four fields, which
`nm_state_save` alone reads, are kept apart, see `create_meta`.) -/
def provision (st : nm_state) (file user : List Char) (chosen_ssid : Int) : nm_state :=
  let dirs1 := (nm_dir_set st.dirs file chosen_ssid).2
  let acl1 := (nm_acl_set_owner st.acl file user).2
  let acl2 := (nm_acl_grant acl1 file user 3).2
  let replicas := choose_replicas st.g_ss_list chosen_ssid
  let dirs2 : nm_dirs :=
    if replicas.length > 0 then
      { dirs1 with dir := (nm_state_set_replicas dirs1.dir file replicas).2 }
    else dirs1
  { st with dirs := dirs2, acl := acl2 }

/-- The CREATE branch of `client_thread`.  `user` and `file` are the values of the
fields, `pubR` and `pubW` the integers read from `publicRead` and `publicWrite` (0
when absent), `ss` what becomes of the CREATE sent to the storage server chosen.  (The
grant to `anonymous` is made before the replicas are chosen; the two do not meet.) -/
def handle_create (st : nm_state) (user file : Option (List Char)) (pubR pubW : Int)
    (ss : ss_reply) : nm_state × nm_status :=
  let user := request_user user
  match SS.get_string_field file 128 with
  | none => (st, nm_status.ERR_BADREQ)
  | some file =>
    match nm_state_find_dir st.dirs.dir file with
    | some _ => (st, nm_status.ERR_CONFLICT)
    | none =>
      match pick_least_loaded_ss st.g_ss_list st.dirs.dir with
      | none => (st, nm_status.ERR_UNAVAILABLE)
      | some (chosen_ssid, _, _) =>
        match ss with
        | ss_reply.connect_failed => (st, nm_status.ERR_UNAVAILABLE)
        | ss_reply.send_failed => (st, nm_status.ERR_UNAVAILABLE)
        | ss_reply.other => (st, nm_status.ERR_INTERNAL)
        | ss_reply.ok =>
          let anonPerm : Nat :=
            (if pubR ≠ 0 then 1 else 0) ||| (if pubW ≠ 0 then 3 else 0)
          let st1 := provision st file user chosen_ssid
          if (pubR ≠ 0 ∨ pubW ≠ 0) ∧ anonPerm ≠ 0 then
            ({ st1 with acl := (nm_acl_grant st1.acl file "anonymous".toList anonPerm).2 },
              nm_status.OK)
          else (st1, nm_status.OK)

/-- The results of the exchanges MIGRATE branches on, in their order: connection to the
source, send of READ, answer OK, body read from the answer, connection to the
destination, send of PUT, answer OK. -/
structure migrate_io where
  src_connect_ok : Bool
  src_send_ok : Bool
  src_read_ok : Bool
  body_ok : Bool
  dst_connect_ok : Bool
  dst_send_ok : Bool
  dst_put_ok : Bool
  deriving DecidableEq, Repr

/-- The MIGRATE branch of `client_thread` at the time `now`.  `user`, `file` and
`target` are the values of the fields `user`, `file` and `targetSsId`. -/
def handle_migrate (st : nm_state) (user file : Option (List Char)) (target : Option Int)
    (now : Int) (io : migrate_io) : nm_state × nm_status :=
  let user := request_user user
  match SS.get_string_field file 128, target with
  | some file, some target =>
    match nm_state_find_dir st.dirs.dir file with
    | none => (st, nm_status.ERR_NOTFOUND)
    | some src_ssid =>
      if src_ssid = target then (st, nm_status.OK)
      else if nm_acl_check st.acl file user "WRITE".toList ≠ 0 then (st, nm_status.ERR_NOAUTH)
      else
        match get_ss_info st.g_ss_list src_ssid, get_ss_info st.g_ss_list target with
        | some (src_port, _), some (dst_port, _) =>
          if src_port = 0 ∨ dst_port = 0 then (st, nm_status.ERR_UNAVAILABLE)
          else
            match Tickets.ticket_build file "READ".toList src_ssid 600 now 256 with
            | none => (st, nm_status.ERR_INTERNAL)
            | some _ =>
              if !io.src_connect_ok then (st, nm_status.ERR_UNAVAILABLE)
              else if !io.src_send_ok then (st, nm_status.ERR_UNAVAILABLE)
              else if !io.src_read_ok then (st, nm_status.ERR_UNAVAILABLE)
              else if !io.body_ok then (st, nm_status.ERR_INTERNAL)
              else if !io.dst_connect_ok then (st, nm_status.ERR_UNAVAILABLE)
              else if !io.dst_send_ok then (st, nm_status.ERR_UNAVAILABLE)
              else if !io.dst_put_ok then (st, nm_status.ERR_INTERNAL)
              else ({ st with dirs := (nm_dir_set st.dirs file target).2 }, nm_status.OK)
        | _, _ => (st, nm_status.ERR_UNAVAILABLE)
  | _, _ => (st, nm_status.ERR_BADREQ)

/-- The answer to a LOOKUP: the status and, with OK, the address, the data port and
the ticket. -/
structure lookup_response where
  status : nm_status
  grant : Option (List Char × Int × List Char)
  deriving DecidableEq, Repr

/-- The seven ops LOOKUP accepts. -/
def lookup_ops : List (List Char) :=
  ["READ".toList, "WRITE".toList, "UNDO".toList, "REVERT".toList, "CHECKPOINT".toList,
    "VIEWCHECKPOINT".toList, "LISTCHECKPOINTS".toList]

/-- The end of both branches of LOOKUP: the ticket for the primary, and the answer. -/
def lookup_ticket (st : nm_state) (file op : List Char) (ssid now : Int) :
    lookup_response :=
  match Tickets.ticket_build file op ssid 600 now 256 with
  | none => ⟨nm_status.ERR_INTERNAL, none⟩
  | some ticket =>
    match get_ss_info st.g_ss_list ssid with
    | some (dport, addr) =>
      if dport ≠ 0 then ⟨nm_status.OK, some (addr, dport, ticket)⟩
      else ⟨nm_status.ERR_UNAVAILABLE, none⟩
    | none => ⟨nm_status.ERR_UNAVAILABLE, none⟩

/-- The LOOKUP branch of `client_thread` at the time `now`.  `op`, `file` and `user`
are the values of the fields, `ss` what becomes of the CREATE sent to a storage server
when the file is provisioned on a first WRITE. -/
def handle_lookup (st : nm_state) (op file user : Option (List Char)) (now : Int)
    (ss : ss_reply) : nm_state × lookup_response :=
  let user := request_user user
  match SS.get_string_field op 32, SS.get_string_field file 128 with
  | some op, some file =>
    if op ∉ lookup_ops then (st, ⟨nm_status.ERR_BADREQ, none⟩)
    else
      match nm_state_find_dir st.dirs.dir file with
      | none =>
        if op = "WRITE".toList then
          match pick_least_loaded_ss st.g_ss_list st.dirs.dir with
          | none => (st, ⟨nm_status.ERR_UNAVAILABLE, none⟩)
          | some (chosen_ssid, _, _) =>
            let st1 := if ss = ss_reply.ok then provision st file user chosen_ssid else st
            match nm_state_find_dir st1.dirs.dir file with
            | some ssid_created => (st1, lookup_ticket st1 file op ssid_created now)
            | none => (st1, ⟨nm_status.ERR_INTERNAL, none⟩)
        else (st, ⟨nm_status.ERR_NOTFOUND, none⟩)
      | some ssid =>
        if (op = "READ".toList ∧ nm_acl_check st.acl file user "READ".toList ≠ 0) ∨
            (op = "WRITE".toList ∧ nm_acl_check st.acl file user "WRITE".toList ≠ 0) then
          (st, ⟨nm_status.ERR_NOAUTH, none⟩)
        else (st, lookup_ticket st file op ssid now)
  | _, _ => (st, ⟨nm_status.ERR_BADREQ, none⟩)

/-- The ADDACCESS branch of `client_thread` on the access control lists: the
permission is `ACL_R|ACL_W` for the mode `RW`, `ACL_W` for `W` and `ACL_R` for any
other mode. -/
def handle_addaccess (st : acl_state) (file user mode : Option (List Char)) :
    acl_state × nm_status :=
  match SS.get_string_field file 128, SS.get_string_field user 128,
      SS.get_string_field mode 8 with
  | some file, some target, some mode =>
    let perm : Nat := if mode = "RW".toList then 3 else if mode = "W".toList then 2 else 1
    ((nm_acl_grant st file target perm).2, nm_status.OK)
  | _, _, _ => (st, nm_status.ERR_BADREQ)

/-- The state of a naming manager that has just started with nothing persisted. -/
def nm_empty : nm_state :=
  { g_ss_list := [],
    dirs := { g_buckets := fun _ => [], dir := [] },
    acl := { acls := [], acl_map := fun _ => [] } }

/-! ## Scenarios -/

/-- Two storage servers registered at the time 100: server 1, then server 2. -/
def two_servers : nm_state :=
  { nm_empty with
    g_ss_list :=
      handle_ss_register
        (handle_ss_register [] 1 9001 9002 "10.0.0.1".toList 100)
        2 9101 9102 "10.0.0.2".toList 100 }

/-- The user `alice` creates the file `f` on the two servers. -/
def alice_creates : nm_state × nm_status :=
  handle_create two_servers (some "alice".toList) (some "f".toList) 0 0 ss_reply.ok

/-- Every exchange of MIGRATE succeeds. -/
def migrate_ok : migrate_io :=
  { src_connect_ok := true, src_send_ok := true, src_read_ok := true, body_ok := true,
    dst_connect_ok := true, dst_send_ok := true, dst_put_ok := true }

/-- The user `alice` migrates `f` to server 1 at the time 105. -/
def alice_migrates : nm_state × nm_status :=
  handle_migrate alice_creates.1 (some "alice".toList) (some "f".toList) (some 1) 105
    migrate_ok

/-- ADDACCESS with the mode `W` for the user `bob` on `f`. -/
def bob_gets_w : acl_state × nm_status :=
  handle_addaccess alice_creates.1.acl (some "f".toList) (some "bob".toList)
    (some "W".toList)

/-- ADDACCESS with the mode `W` for `anonymous` on `f`. -/
def anonymous_gets_w : acl_state × nm_status :=
  handle_addaccess alice_creates.1.acl (some "f".toList) (some "anonymous".toList)
    (some "W".toList)

/-- A heartbeat at the time 100 from a server 5 that never registered. -/
def heartbeat_only : registry :=
  handle_ss_heartbeat [] 5 "10.0.0.5".toList 100

/-- Server 1 registers at the time 100 and again, with other ports, at the time 200. -/
def registered_twice : registry :=
  handle_ss_register (handle_ss_register [] 1 9001 9002 "10.0.0.1".toList 100)
    1 9003 9004 "10.0.0.1".toList 200

/-- Server 1, server 2, and server 1 again (a restart), all with their ports. -/
def restarted_server : registry :=
  handle_ss_register
    (handle_ss_register (handle_ss_register [] 1 9001 9002 "10.0.0.1".toList 100)
      2 9101 9102 "10.0.0.2".toList 100)
    1 9001 9002 "10.0.0.1".toList 200

/-- A directory of 513 files: 512 on server 1, named by the numbers 0 to 511, and
after them the file `last` on server 2 with the replica 1. -/
def dir_513 : directory :=
  (List.range 512).map (fun i => { file := Tickets.fmt_unsigned i, ss_id := 1, replicas := [] })
    ++ [{ file := "last".toList, ss_id := 2, replicas := [1] }]

/-- Server 1 with a heartbeat at the time 100 and server 2 with its last at 50. -/
def one_up_one_down : registry :=
  [{ ss_id := 1, ss_ctrl_port := 9001, ss_data_port := 9002, ss_addr := "10.0.0.1".toList,
     last_heartbeat := 100, is_up := true },
   { ss_id := 2, ss_ctrl_port := 9101, ss_data_port := 9102, ss_addr := "10.0.0.2".toList,
     last_heartbeat := 50, is_up := true }]

/-- The directories with the 513 files, the map of nm_dir.c empty as at a start. -/
def dirs_513 : nm_dirs :=
  { g_buckets := fun _ => [], dir := dir_513 }

/-- The directories with the one file `f` on server 2 with the replica 1, the map of
nm_dir.c empty as at a start. -/
def dirs_one_file : nm_dirs :=
  { g_buckets := fun _ => [], dir := [{ file := "f".toList, ss_id := 2, replicas := [1] }] }

/-! ## nm_dir.c: start and rename -/

/-- The removal of the first node of a chain with the key. -/
def chain_del : List (List Char × Int) → List Char → List (List Char × Int)
  | [], _ => []
  | n :: rest, k => if n.1 = k then rest else n :: chain_del rest k

/-- The loop of `nm_dir_del` and `nm_dir_rename` that unlinks a key from its bucket. -/
def map_del (m : dir_map) (k : List Char) : dir_map :=
  fun b => if b = hash_str k % 257 then chain_del (m b) k else m b

/-- The source's `nm_dir_init`: the map seeded from the first 256 entries of the
persisted directory as it is when the function is called. -/
def nm_dir_init (d : directory) (m : dir_map) : dir_map :=
  (nm_state_get_dir d 256).foldl (fun acc fp => map_put acc fp.1 fp.2) m

/-- The assignment of a new name to the first entry with the file name. -/
def set_file : directory → List Char → List Char → directory
  | [], _, _ => []
  | e :: rest, file, new_file =>
    if e.file = file then { e with file := new_file } :: rest
    else e :: set_file rest file new_file

/-- The source's `nm_state_rename_dir`: the return code and the directory. -/
def nm_state_rename_dir (d : directory) (old_file new_file : List Char) : Int × directory :=
  if old_file = [] ∨ new_file = [] then (0, d)
  else if d.any (fun e => decide (e.file = new_file)) then (0, d)
  else
    match dir_find d old_file with
    | some _ => (1, set_file d old_file new_file)
    | none => (0, d)

/-- The source's `nm_dir_rename`: the return code and the two directories.  (The list
of the last lookups it also updates is read by `nm_dir_lookup` only.) -/
def nm_dir_rename (s : nm_dirs) (old_file new_file : List Char) : Int × nm_dirs :=
  if old_file = [] ∨ new_file = [] then (0, s)
  else
    match map_get s.g_buckets old_file with
    | none => (0, s)
    | some ssid =>
      match map_get s.g_buckets new_file with
      | some _ => (0, s)
      | none =>
        let r := nm_state_rename_dir s.dir old_file new_file
        if r.1 = 0 then (0, s)
        else
          (1, { g_buckets := map_put (map_del s.g_buckets old_file) new_file ssid,
                dir := r.2 })

/-- The directory `nm_state_load` builds: `parse_directory_object` calls
`nm_state_set_dir` for each mapping it reads, in the order of the document. -/
def nm_state_load_dir (d : directory) (entries : List (List Char × Int)) : directory :=
  entries.foldl (fun acc e => (nm_state_set_dir acc e.1 e.2).2) d

/-- The two directories after the three calls `main` starts with: `nm_state_init`
empties the persisted state, `nm_dir_init` seeds the map from it, of which the buckets
are empty at the start of the program, and `nm_state_load` then fills the persisted
state from the mappings `entries` of the document. -/
def nm_main_startup (entries : List (List Char × Int)) : nm_dirs :=
  let d0 : directory := []
  let buckets := nm_dir_init d0 (fun _ => [])
  { g_buckets := buckets, dir := nm_state_load_dir d0 entries }

/-! ## Access control lists: revoke, delete, rename, owner -/

/-- The removal of the first node of a chain with the file name. -/
def acl_chain_remove : List acl_hash_node → List Char → List acl_hash_node
  | [], _ => []
  | n :: rest, file => if n.file = file then rest else n :: acl_chain_remove rest file

/-- The source's `acl_map_remove`. -/
def acl_map_remove (m : Nat → List acl_hash_node) (file : List Char) :
    Nat → List acl_hash_node :=
  fun b => if b = hash_djb2 file then acl_chain_remove (m b) file else m b

/-- The assignment of an index to the first node of a chain with the file name. -/
def acl_chain_update : List acl_hash_node → List Char → Nat → List acl_hash_node
  | [], _, _ => []
  | n :: rest, file, index =>
    if n.file = file then { n with acl_index := index } :: rest
    else n :: acl_chain_update rest file index

/-- The source's `acl_map_update_index`. -/
def acl_map_update_index (m : Nat → List acl_hash_node) (file : List Char) (new_index : Nat) :
    Nat → List acl_hash_node :=
  fun b => if b = hash_djb2 file then acl_chain_update (m b) file new_index else m b

/-- The removal of the element at an index of an array by the move of the last element
into its place (`if (i != n-1) a[i] = a[n-1]; n--`). -/
def swap_remove {α : Type} (l : List α) (i : Nat) : List α :=
  match l.getLast? with
  | none => l
  | some last => (l.set i last).dropLast

/-- The source's `nm_acl_revoke`: the return code and the state. -/
def nm_acl_revoke (st : acl_state) (file user : List Char) : Int × acl_state :=
  if file = [] ∨ user = [] then (0, st)
  else
    match find_acl_index st file, find_acl st file with
    | some index, some e =>
      match e.grants.findIdx? (fun g => decide (g.user = user)) with
      | none => (0, st)
      | some i =>
        (1, { st with
              acls := modify_at (fun e => { e with grants := swap_remove e.grants i })
                        st.acls index })
    | _, _ => (0, st)

/-- The source's `nm_acl_delete`: the return code and the state. -/
def nm_acl_delete (st : acl_state) (file : List Char) : Int × acl_state :=
  if file = [] then (0, st)
  else
    match acl_map_find st.acl_map file with
    | none => (0, st)
    | some index =>
      if index ≥ st.acls.length then (0, st)
      else
        let m1 := acl_map_remove st.acl_map file
        if index ≠ st.acls.length - 1 then
          match st.acls.getLast? with
          | none => (0, st)
          | some last =>
            (1, { acls := (st.acls.set index last).dropLast,
                  acl_map := acl_map_update_index m1 last.file index })
        else (1, { acls := st.acls.dropLast, acl_map := m1 })

/-- The source's `nm_acl_rename`: the return code and the state. -/
def nm_acl_rename (st : acl_state) (old_file new_file : List Char) : Int × acl_state :=
  if old_file = [] ∨ new_file = [] then (0, st)
  else
    match find_acl st old_file with
    | none => (0, st)
    | some _ =>
      match find_acl st new_file with
      | some _ => (0, st)
      | none =>
        match acl_map_find st.acl_map old_file with
        | none => (0, st)
        | some index =>
          (1, { acls := modify_at (fun e => { e with file := new_file }) st.acls index,
                acl_map := acl_map_insert (acl_map_remove st.acl_map old_file) new_file index })

/-- The source's `nm_acl_get_owner` into a buffer of `owner_out_sz` bytes (one at
least): the owner copied, `none` for -1. -/
def nm_acl_get_owner (st : acl_state) (file : List Char) (owner_out_sz : Nat) :
    Option (List Char) :=
  match find_acl st file with
  | none => none
  | some e =>
    match e.owner with
    | none => none
    | some owner => some (owner.take (owner_out_sz - 1))

/-! ## MOVE -/

/-- The source's `nm_state_get_folders`: the first `max_entries` folders, each copied
into 256 bytes. -/
def nm_state_get_folders (folders : List (List Char)) (max_entries : Nat) :
    List (List Char) :=
  (folders.take max_entries).map (fun f => f.take 255)

/-- A path without its trailing slashes. -/
def strip_slashes (dst : List Char) : List Char :=
  (dst.reverse.dropWhile (fun c => c == '/')).reverse

/-- What follows the last `/` of a path: the path when it has none. -/
def basename (src : List Char) : List Char :=
  (src.reverse.takeWhile (fun c => c != '/')).reverse

/-- The path `final_dst` of MOVE: the destination without its trailing slashes, or, when
that is a known folder, the base name of the source in it (in 256 bytes). -/
def move_final_dst (folders : List (List Char)) (src dst_in : List Char) : List Char :=
  let dst := strip_slashes dst_in
  if (nm_state_get_folders folders 256).any (fun f => decide (f = dst)) then
    if dst = [] then (basename src).take 255 else (dst ++ '/' :: basename src).take 255
  else dst

/-- The test of `nm_state_move_folder_prefix` on a path: it starts with the old path and
goes on with a `/`, or, for a file name, ends there. -/
def under_prefix (p old_path : List Char) (or_end : Bool) : Bool :=
  old_path.isPrefixOf p &&
    (match p.drop old_path.length with
     | [] => or_end
     | c :: _ => c == '/')

/-- The new name of a file under the old path (in 256 bytes). -/
def moved_name (fname old_path new_path : List Char) : List Char :=
  let rest := fname.drop old_path.length
  let rest1 := match rest with
    | '/' :: r => r
    | r => r
  if rest1 ≠ [] then (new_path ++ '/' :: rest1).take 255 else new_path.take 255

/-- What `nm_state_move_folder_prefix` leaves: the folders, the directory, the arrays
`files`, `new_files` and `ssids` it filled (`max_files` entries at most), and the count
it returns. -/
structure folder_move where
  folders : List (List Char)
  dir : directory
  moved : List (List Char × List Char × Int)
  count : Nat

/-- The source's `nm_state_move_folder_prefix`. -/
def nm_state_move_folder_prefix (folders : List (List Char)) (d : directory)
    (old_path new_path : List Char) (max_files : Nat) : folder_move :=
  if old_path = [] ∨ new_path = [] then
    { folders := folders, dir := d, moved := [], count := 0 }
  else
    let hits := d.filter (fun e => under_prefix e.file old_path true)
    { folders := folders.map (fun f =>
        if f = old_path then new_path
        else if under_prefix f old_path false then
          (new_path ++ f.drop old_path.length).take 511
        else f),
      dir := d.map (fun e =>
        if under_prefix e.file old_path true then
          { e with file := moved_name e.file old_path new_path }
        else e),
      moved := (hits.take max_files).map (fun e =>
        (e.file.take 127, (moved_name e.file old_path new_path).take 127, e.ss_id)),
      count := hits.length }

/-- The loop of the folder branch of MOVE over the files moved: the ACL store and the
number of failures.  `ss_each i` is what becomes of the RENAME sent for the file `i`. -/
def move_each (g_ss_list : registry) (ss_each : Nat → ss_reply) :
    List (List Char × List Char × Int) → Nat → acl_state → Nat → acl_state × Nat
  | [], _, acl, failures => (acl, failures)
  | (file, new_file, ssid) :: rest, i, acl, failures =>
    match get_ss_info g_ss_list ssid with
    | none => move_each g_ss_list ss_each rest (i + 1) acl (failures + 1)
    | some (data_port, _) =>
      if data_port = 0 then move_each g_ss_list ss_each rest (i + 1) acl (failures + 1)
      else if ss_each i = ss_reply.ok then
        move_each g_ss_list ss_each rest (i + 1) (nm_acl_rename acl file new_file).2 failures
      else move_each g_ss_list ss_each rest (i + 1) acl (failures + 1)

/-- The MOVE branch of `client_thread`: the state, the folders and the answer.  `src`
and `dst` are the values of the fields of the message (the branch reads no other
field), `folders` is the list of folders of the persisted state, `ss` is what becomes
of the RENAME sent to the storage server of a file, `ss_each` of those sent for the
files of a folder.  (The folder branch goes over the files its arrays of 1024 entries
hold.) -/
def handle_move (st : nm_state) (folders : List (List Char)) (src dst : Option (List Char))
    (ss : ss_reply) (ss_each : Nat → ss_reply) :
    (nm_state × List (List Char)) × nm_status :=
  match SS.get_string_field src 256, SS.get_string_field dst 256 with
  | some src, some dst_in =>
    let final_dst := move_final_dst folders src dst_in
    if src = final_dst then ((st, folders), nm_status.OK)
    else
      match nm_state_find_dir st.dirs.dir src with
      | some ssid =>
        match get_ss_info st.g_ss_list ssid with
        | none => ((st, folders), nm_status.ERR_UNAVAILABLE)
        | some (data_port, _) =>
          if data_port = 0 then ((st, folders), nm_status.ERR_UNAVAILABLE)
          else
            match ss with
            | ss_reply.connect_failed => ((st, folders), nm_status.ERR_UNAVAILABLE)
            | ss_reply.send_failed => ((st, folders), nm_status.ERR_UNAVAILABLE)
            | ss_reply.other => ((st, folders), nm_status.ERR_INTERNAL)
            | ss_reply.ok =>
              (({ st with dirs := (nm_dir_rename st.dirs src final_dst).2,
                          acl := (nm_acl_rename st.acl src final_dst).2 }, folders),
                nm_status.OK)
      | none =>
        let mv := nm_state_move_folder_prefix folders st.dirs.dir src final_dst 1024
        let st1 : nm_state := { st with dirs := { st.dirs with dir := mv.dir } }
        if mv.count = 0 then ((st1, mv.folders), nm_status.ERR_NOTFOUND)
        else
          let r := move_each st.g_ss_list ss_each mv.moved 0 st.acl 0
          (({ st1 with acl := r.1 }, mv.folders),
            if r.2 ≠ 0 then nm_status.ERR_INTERNAL else nm_status.OK)
  | _, _ => ((st, folders), nm_status.ERR_BADREQ)

/-- What becomes of the RENAME the naming manager sends to a storage server for a
RENAME request: no connection, no send, no answer, the answer OK, an answer with
ERR_CONFLICT, one with ERR_NOTFOUND, or another answer. -/
inductive rename_reply where
  | connect_failed
  | send_failed
  | no_reply
  | ok
  | conflict
  | notfound
  | other
  deriving DecidableEq, Repr

/-- The RENAME branch of `client_thread`.  `user`, `file` and `newFile` are the values
of the fields of the message. -/
def handle_rename (st : nm_state) (user file newFile : Option (List Char))
    (ss : rename_reply) : nm_state × nm_status :=
  let user := request_user user
  match SS.get_string_field file 128, SS.get_string_field newFile 128 with
  | some file, some nfile =>
    match nm_state_find_dir st.dirs.dir file with
    | none => (st, nm_status.ERR_NOTFOUND)
    | some ssid =>
      if nm_acl_check st.acl file user "WRITE".toList ≠ 0 then (st, nm_status.ERR_NOAUTH)
      else if (nm_state_find_dir st.dirs.dir nfile).isSome then (st, nm_status.ERR_CONFLICT)
      else
        match get_ss_info st.g_ss_list ssid with
        | none => (st, nm_status.ERR_UNAVAILABLE)
        | some (data_port, _) =>
          if data_port = 0 then (st, nm_status.ERR_UNAVAILABLE)
          else
            match ss with
            | rename_reply.connect_failed => (st, nm_status.ERR_UNAVAILABLE)
            | rename_reply.send_failed => (st, nm_status.ERR_UNAVAILABLE)
            | rename_reply.no_reply => (st, nm_status.ERR_UNAVAILABLE)
            | rename_reply.conflict => (st, nm_status.ERR_CONFLICT)
            | rename_reply.notfound => (st, nm_status.ERR_NOTFOUND)
            | rename_reply.other => (st, nm_status.ERR_INTERNAL)
            | rename_reply.ok =>
              ({ st with dirs := (nm_dir_rename st.dirs file nfile).2,
                         acl := (nm_acl_rename st.acl file nfile).2 }, nm_status.OK)
  | _, _ => (st, nm_status.ERR_BADREQ)

/-- MOVE of the file `f` of `alice` to `g`, with no folders, the storage server
answering OK to the RENAME. -/
def move_f_to_g : (nm_state × List (List Char)) × nm_status :=
  handle_move alice_creates.1 [] (some "f".toList) (some "g".toList) ss_reply.ok
    (fun _ => ss_reply.ok)

/-! ## nm_persist.c: the document of `nm_state_save` and the ACLs `nm_state_load` reads -/

/-- The escape of `nm_state_save`: a backslash in front of every `"` and backslash. -/
def json_escape (s : List Char) : List Char :=
  s.flatMap (fun c => if c = '"' ∨ c = '\\' then ['\\', c] else [c])

/-- The texts of the items of an array or object, a comma in front of each but the
first (`if (i) strcat(buf, ",")`). -/
def join_comma : List (List Char) → List Char
  | [] => []
  | [x] => x
  | x :: xs => x ++ ',' :: join_comma xs

/-- The four fields of the source's `struct dir_entry` of the last modification and the
last access; a user is `none` for `NULL`. -/
structure file_meta where
  last_modified_user : Option (List Char)
  last_modified_time : Int
  last_accessed_user : Option (List Char)
  last_accessed_time : Int
  deriving DecidableEq, Repr

/-- These four fields of the entries of the directory, by the file name of the entry
(`nm_state_set_dir` keeps the names of the entries distinct). -/
abbrev dir_meta := List Char → file_meta

/-- The four fields of an entry that `nm_state_set_dir` has just made. -/
def meta_unset : file_meta :=
  { last_modified_user := none, last_modified_time := 0,
    last_accessed_user := none, last_accessed_time := 0 }

/-- The source's `nm_state_set_file_modified`: nothing for an empty name and for a file
without entry. -/
def nm_state_set_file_modified (d : directory) (m : dir_meta) (file user : List Char)
    (time : Int) : dir_meta :=
  if file = [] then m
  else
    match dir_find d file with
    | none => m
    | some _ =>
      let old := m file
      fun f =>
        if f = file then
          { old with last_modified_user := if user = [] then none else some user,
                     last_modified_time := time }
        else m f

/-- The source's `nm_state_set_file_accessed`. -/
def nm_state_set_file_accessed (d : directory) (m : dir_meta) (file user : List Char)
    (time : Int) : dir_meta :=
  if file = [] then m
  else
    match dir_find d file with
    | none => m
    | some _ =>
      let old := m file
      fun f =>
        if f = file then
          { old with last_accessed_user := if user = [] then none else some user,
                     last_accessed_time := time }
        else m f

/-- What CREATE records, once the mapping is made, in the entry of the file
(`now = (int)time(NULL)`, then `nm_state_set_file_modified(file, user, now)` and
`nm_state_set_file_accessed(file, user, now)`). -/
def create_meta (d : directory) (m : dir_meta) (file user : List Char) (now : Int) :
    dir_meta :=
  nm_state_set_file_accessed d (nm_state_set_file_modified d m file user now) file user now

/-- The text `nm_state_save` writes for a user of the last modification or access:
the text in quotes, `null` for `NULL` and for an empty text. -/
def save_meta_user (u : Option (List Char)) : List Char :=
  match u with
  | none => "null".toList
  | some user =>
    if user = [] then "null".toList else "\"".toList ++ json_escape user ++ "\"".toList

/-- The text `nm_state_save` writes for an entry of the directory with its four fields
of the last modification and the last access. -/
def save_dir_entry (m : dir_meta) (e : dir_entry) : List Char :=
  "\"".toList ++ json_escape e.file ++ "\":\x7b\"ss_id\":".toList ++
    Tickets.fmt_signed e.ss_id ++
    ",\"last_modified_user\":".toList ++ save_meta_user (m e.file).last_modified_user ++
    ",\"last_modified_time\":".toList ++ Tickets.fmt_signed (m e.file).last_modified_time ++
    ",\"last_accessed_user\":".toList ++ save_meta_user (m e.file).last_accessed_user ++
    ",\"last_accessed_time\":".toList ++ Tickets.fmt_signed (m e.file).last_accessed_time ++
    "\x7d".toList

/-- The text of a permission: `(p==3?"RW":(p==2?"W":"R"))`. -/
def perm_text (p : Nat) : List Char :=
  if p = 3 then "RW".toList else if p = 2 then "W".toList else "R".toList

/-- The text `nm_state_save` writes for a grant. -/
def save_grant (g : acl_user) : List Char :=
  "\"".toList ++ json_escape g.user ++ "\":\"".toList ++ perm_text g.perm ++ "\"".toList

/-- The text `nm_state_save` writes for an ACL entry. -/
def save_acl_entry (e : acl_entry) : List Char :=
  "\"".toList ++ json_escape e.file ++ "\":\x7b\"owner\":\"".toList ++
    json_escape (e.owner.getD []) ++ "\",\"grants\":\x7b".toList ++
    join_comma (e.grants.map save_grant) ++ "\x7d\x7d".toList

/-- The text `nm_state_save` writes for the replicas of an entry of the directory. -/
def save_replicas_entry (e : dir_entry) : List Char :=
  "\"".toList ++ json_escape e.file ++ "\":[".toList ++
    join_comma (e.replicas.map Tickets.fmt_signed) ++ "]".toList

/-- The document `nm_state_save` composes for a state without users, requests and
trash, when its buffer has room for it: the directory, the ACLs, the replicas and the
folders. -/
def nm_state_save_text (d : directory) (m : dir_meta) (acl : acl_state)
    (folders : List (List Char)) : List Char :=
  "\x7b\n  \"users\":[".toList ++ "],\n  \"active\":[".toList ++
    "],\n  \"directory\":\x7b".toList ++ join_comma (d.map (save_dir_entry m)) ++
    "\x7d,\n  \"acls\":\x7b".toList ++ join_comma (acl.acls.map save_acl_entry) ++
    "\x7d,\n  \"replicas\":\x7b".toList ++ join_comma (d.map save_replicas_entry) ++
    "\x7d,\n  \"requests\":\x7b".toList ++ "\x7d,\n  \"folders\":[".toList ++
    join_comma (folders.map (fun f => "\"".toList ++ json_escape f ++ "\"".toList)) ++
    "],\n  \"trash\":[".toList ++ "]\n\x7d\n".toList

/-- The characters the loops of `nm_state_load` skip between items: blank, newline, tab
and comma. -/
def is_sep (c : Char) : Bool :=
  c == ' ' || c == '\n' || c == '\t' || c == ','

/-- The characters the loops of `nm_state_load` skip after a colon. -/
def is_ws (c : Char) : Bool :=
  c == ' ' || c == '\n' || c == '\t'

/-- The scan of a quoted text from after its opening quote
(`while (*p && *p!='"') { if (*p=='\\' && p[1]) p+=2; else p++; }`): the characters
passed over and the text left, which starts with the closing quote when there is one. -/
def scan_quoted : List Char → List Char × List Char
  | [] => ([], [])
  | '"' :: r => ([], '"' :: r)
  | '\\' :: c :: r => ('\\' :: c :: (scan_quoted r).1, (scan_quoted r).2)
  | c :: r => (c :: (scan_quoted r).1, (scan_quoted r).2)

/-- The copy of a quoted text with its escapes undone
(`while (j<len && *s) { if (*s=='\\' && s[1]) { s++; out[j++]=*s++; } else out[j++]=*s++; }`):
`n` characters written at most, read from the text `s` that goes on after the quoted
text.  (The buffers written are of 256 and 128 bytes; longer texts are outside this
model.) -/
def unescape_n : Nat → List Char → List Char
  | 0, _ => []
  | _ + 1, [] => []
  | n + 1, '\\' :: c :: r => c :: unescape_n n r
  | n + 1, c :: r => c :: unescape_n n r

/-- The permission `nm_state_load` reads from the first three characters of a value:
`(pv[0]=='R' && pv[1]=='W')?3:(pv[0]=='W'?2:1)`. -/
def perm_of_text (pv : List Char) : Nat :=
  if pv.head? = some 'R' ∧ (pv.drop 1).head? = some 'W' then 3
  else if pv.head? = some 'W' then 2 else 1

/-- The loop of `nm_state_load` over the grants of an ACL entry, from after the brace
of the grants; `owner` is the owner read for the entry, empty for none.  `none` says
that the fuel, the number of iterations allowed, ran out. -/
def load_grants : Nat → List Char → List Char → List Char → acl_state → Option acl_state
  | 0, _, _, _, _ => none
  | fuel + 1, go, file, owner, st =>
    match go with
    | [] => some st
    | '}' :: _ => some st
    | _ =>
      match go.dropWhile is_sep with
      | '"' :: go2 =>
        let u := unescape_n (scan_quoted go2).1.length go2
        let go3 := match (scan_quoted go2).2 with
          | '"' :: r => r
          | r => r
        let go4 := go3.dropWhile (fun c => c != ':')
        let go5 := match go4 with
          | ':' :: r => r
          | r => r
        let r1 : acl_state × List Char :=
          match go5.dropWhile is_ws with
          | '"' :: r =>
            match Proto.strchr r '"' with
            | some pe =>
              let perm := perm_of_text ((r.takeWhile (fun c => c != '"')).take 3)
              let st1 := (nm_acl_set_owner st file owner).2
              (if u ≠ [] then (nm_acl_grant st1 file u perm).2 else st1, pe.drop 1)
            | none => (st, r)
          | r => (st, r)
        let go8 := r1.2.dropWhile (fun c => c != ',' && c != '}')
        let go9 := match go8 with
          | ',' :: r => r
          | r => r
        load_grants fuel go9 file owner r1.1
      | _ => some st

/-- The owner `nm_state_load` reads for an ACL entry, from after the brace of the
entry; empty for none. -/
def load_owner (obj : List Char) : List Char :=
  match Proto.strstr obj "\"owner\"".toList with
  | none => []
  | some (_, ow) =>
    match Proto.strchr ow '"' with
    | none => []
    | some q0 =>
      match Proto.strchr (q0.drop 1) '"' with
      | none => []
      | some _ =>
        unescape_n (min ((q0.drop 1).takeWhile (fun c => c != '"')).length 127) (q0.drop 1)

/-- The loop of `nm_state_load` over the ACL entries, from after the brace of `acls`.
`none` says that the fuel ran out. -/
def load_acl_entries : Nat → List Char → acl_state → Option acl_state
  | 0, _, _ => none
  | fuel + 1, obj, st =>
    match obj with
    | [] => some st
    | '}' :: _ => some st
    | _ =>
      match obj.dropWhile is_sep with
      | '"' :: obj1 =>
        let file := unescape_n (scan_quoted obj1).1.length obj1
        let obj2 := match (scan_quoted obj1).2 with
          | '"' :: r => r
          | r => r
        match obj2.dropWhile (fun c => c != '{') with
        | '{' :: obj3 =>
          let owner := load_owner obj3
          let st1 : Option acl_state :=
            match Proto.strstr obj3 "\"grants\"".toList with
            | some (_, gr) =>
              match Proto.strchr gr '{' with
              | some go => load_grants (fuel + 1) (go.drop 1) file owner st
              | none => some st
            | none => some (nm_acl_set_owner st file owner).2
          let obj4 := obj3.dropWhile (fun c => c != '}')
          let obj5 := match obj4 with
            | '}' :: r => r
            | r => r
          match st1 with
          | none => none
          | some st2 => load_acl_entries fuel obj5 st2
        | _ => some st
      | _ => some st

/-- The block `// Parse acls` of `nm_state_load` on the text of the document: the ACL
store after it, `none` when the fuel, the length of the text, runs out. -/
def nm_state_load_acls (buf : List Char) (st : acl_state) : Option acl_state :=
  match Proto.strstr buf "\"acls\"".toList with
  | none => some st
  | some (_, p) =>
    match Proto.strchr p '{' with
    | none => some st
    | some obj => load_acl_entries (buf.length + 1) (obj.drop 1) st

/-- The ACL store with no entry, as after `nm_state_init`. -/
def acl_empty : acl_state :=
  { acls := [], acl_map := fun _ => [] }

/-- The user `carol` creates the file `f2` after `alice` created `f`. -/
def carol_creates : nm_state × nm_status :=
  handle_create alice_creates.1 (some "carol".toList) (some "f2".toList) 0 0 ss_reply.ok

/-- The four fields of the entries after `alice` created `f` at the time 1700000000. -/
def alice_meta : dir_meta :=
  create_meta alice_creates.1.dirs.dir (fun _ => meta_unset) "f".toList "alice".toList
    1700000000

/-- The four fields of the entries after `carol` created `f2`, a minute later. -/
def carol_meta : dir_meta :=
  create_meta carol_creates.1.dirs.dir alice_meta "f2".toList "carol".toList 1700000060

/-- The document saved after the two creations. -/
def saved_two_files : List Char :=
  nm_state_save_text carol_creates.1.dirs.dir carol_meta carol_creates.1.acl []

/-- The document saved after the creation of `f` alone. -/
def saved_one_file : List Char :=
  nm_state_save_text alice_creates.1.dirs.dir alice_meta alice_creates.1.acl []

/-! ## The ACL store and a reference map -/

/-- A call that changes the ACL store. -/
inductive acl_op where
  | set_owner (file owner : List Char)
  | grant (file user : List Char) (perm : Nat)
  | revoke (file user : List Char)
  | delete (file : List Char)
  | rename (old_file new_file : List Char)
  deriving DecidableEq, Repr

/-- The ACL store after a call. -/
def acl_step (st : acl_state) : acl_op → acl_state
  | acl_op.set_owner file owner => (nm_acl_set_owner st file owner).2
  | acl_op.grant file user perm => (nm_acl_grant st file user perm).2
  | acl_op.revoke file user => (nm_acl_revoke st file user).2
  | acl_op.delete file => (nm_acl_delete st file).2
  | acl_op.rename old_file new_file => (nm_acl_rename st old_file new_file).2

/-- The ACL store after a sequence of calls, from the empty store. -/
def acl_run (ops : List acl_op) : acl_state :=
  ops.foldl acl_step acl_empty

/-- An entry of the reference map: the owner, when there is one, and the permission of
each user that has a grant. -/
structure ref_entry where
  owner : Option (List Char)
  grants : List Char → Option Nat

/-- The reference map: from a file name to its entry. -/
abbrev ref_acl := List Char → Option ref_entry

/-- The entry of a file in the reference map, an entry without owner and grants when
the file has none. -/
def ref_entry_of (m : ref_acl) (file : List Char) : ref_entry :=
  (m file).getD { owner := none, grants := fun _ => none }

/-- The reference map after a call, following the interface of nm_persist.h: a call
with an empty file or user name changes nothing; setting the owner or granting makes
the entry of the file when it has none; an empty owner is no owner; a grant replaces
the permission of the user; a revoke removes the grant of the user; a delete removes
the entry; a rename moves the entry when the old name has one and the new name has
none. -/
def ref_step (m : ref_acl) : acl_op → ref_acl
  | acl_op.set_owner file owner =>
    if file = [] then m
    else fun f =>
      if f = file then
        some { owner := if owner = [] then none else some owner,
               grants := (ref_entry_of m file).grants }
      else m f
  | acl_op.grant file user perm =>
    if file = [] ∨ user = [] then m
    else fun f =>
      if f = file then
        some { owner := (ref_entry_of m file).owner,
               grants := fun u => if u = user then some perm
                 else (ref_entry_of m file).grants u }
      else m f
  | acl_op.revoke file user =>
    if file = [] ∨ user = [] then m
    else fun f =>
      if f = file then
        (m file).map (fun e =>
          { owner := e.owner, grants := fun u => if u = user then none else e.grants u })
      else m f
  | acl_op.delete file =>
    if file = [] then m else fun f => if f = file then none else m f
  | acl_op.rename old_file new_file =>
    if old_file = [] ∨ new_file = [] then m
    else
      match m old_file, m new_file with
      | some e, none => fun f => if f = new_file then some e else if f = old_file then none
          else m f
      | _, _ => m

/-- The reference map after a sequence of calls, from the empty map. -/
def ref_run (ops : List acl_op) : ref_acl :=
  ops.foldl ref_step (fun _ => none)

/-- What the check of an op answers on the reference map: 0 to allow, -1 to deny. -/
def ref_check (m : ref_acl) (file user op : List Char) : Int :=
  match m file with
  | none => -1
  | some e =>
    if e.owner = some user then 0
    else
      match e.grants user with
      | some p => if p &&& acl_need op = acl_need op then 0 else -1
      | none =>
        match e.grants "anonymous".toList with
        | some p => if p &&& acl_need op = acl_need op then 0 else -1
        | none => -1

/-- The owner of a file in the reference map, in a buffer of `owner_out_sz` bytes. -/
def ref_get_owner (m : ref_acl) (file : List Char) (owner_out_sz : Nat) :
    Option (List Char) :=
  match m file with
  | none => none
  | some e => e.owner.map (fun o => o.take (owner_out_sz - 1))

/-- The entry of the reference map an entry of the store stands for. -/
def ref_of_entry (e : acl_entry) : ref_entry :=
  { owner := e.owner,
    grants := fun u => (e.grants.find? (fun g => decide (g.user = u))).map (fun g => g.perm) }

/-- The reference map the store stands for. -/
def acl_view (st : acl_state) : ref_acl :=
  fun f => (find_acl st f).map ref_of_entry

/-- What holds of the store at every point: the map has an index for a file name
exactly when the entry at the index has the name; no chain of the map has a name
twice; and no entry has two grants of a user. -/
def acl_inv (st : acl_state) : Prop :=
  (∀ (f : List Char) (i : Nat),
    acl_map_find st.acl_map f = some i ↔ (st.acls[i]?).map acl_entry.file = some f) ∧
  (∀ b : Nat, ((st.acl_map b).map acl_hash_node.file).Nodup) ∧
  (∀ e ∈ st.acls, (e.grants.map acl_user.user).Nodup)

end NM

namespace SS

/-! # Theorems -/

/-! ## Tokenizer and composer -/

theorem compose_words_snoc (ws : List (List Char)) (w : List Char) :
    compose_words (ws ++ [w]) = words_text ws ++ w := by
  induction ws with
  | nil => simp [compose_words, words_text]
  | cons a ws ih =>
    cases ws with
    | nil => simp [compose_words, words_text]
    | cons b ws => simpa [compose_words, words_text] using ih

theorem words_text_of_ne_nil (ws : List (List Char)) (h : ws ≠ []) :
    words_text ws = compose_words ws ++ [' '] := by
  induction ws with
  | nil => exact absurd rfl h
  | cons a ws ih =>
    cases ws with
    | nil => simp [compose_words, words_text]
    | cons b ws =>
      have := ih (by simp)
      simp [compose_words, words_text] at this ⊢
      exact this

theorem compose_snoc (D : ss_doc_tokens) (s : List (List Char)) :
    ss_tokens_compose (D ++ [s]) = closed_text D ++ compose_words s := by
  induction D with
  | nil => simp [ss_tokens_compose, closed_text]
  | cons a D ih =>
    cases D with
    | nil => simp [ss_tokens_compose, closed_text]
    | cons b D => simpa [ss_tokens_compose, closed_text] using ih

theorem closed_text_snoc (D : ss_doc_tokens) (s : List (List Char)) :
    closed_text (D ++ [s]) = closed_text D ++ (compose_words s ++ [' ']) := by
  induction D with
  | nil => simp [closed_text]
  | cons a D ih => simp [closed_text, ih]

theorem dropLast_append_getLastD {α : Type} (l : List α) (d : α) (h : l ≠ []) :
    l.dropLast ++ [l.getLastD d] = l := by
  induction l with
  | nil => exact absurd rfl h
  | cons a l ih =>
    cases l with
    | nil => simp [List.getLastD]
    | cons b l =>
      have := ih (by simp)
      simp [List.dropLast, List.getLastD] at this ⊢
      exact this

theorem compose_words_attach (cur : List (List Char)) (c : Char) (h : cur ≠ []) :
    compose_words (cur.dropLast ++ [cur.getLastD [] ++ [c]]) = compose_words cur ++ [c] := by
  have h1 := dropLast_append_getLastD cur [] h
  rw [compose_words_snoc]
  conv_rhs => rw [← h1, compose_words_snoc]
  simp

/-- A whitespace character is no sentence delimiter. -/
theorem space_not_delimiter (c : Char) (h : isspace c = true) :
    is_sentence_end c = false := by
  unfold isspace at h
  unfold is_sentence_end
  simp only [Bool.or_eq_true, beq_iff_eq] at h
  rcases h with ((((h | h) | h) | h) | h) | h <;> (subst h; decide)

/-- Without junk every sentence opens without words. -/
theorem fresh_words_no_junk (s : Nat) : fresh_words no_junk s = [] := by
  unfold fresh_words no_junk
  split <;> rfl

/-- Each of the first eight sentences opens without words. -/
theorem fresh_words_lt (junk : junk_words) (s : Nat) (h : s < 8) : fresh_words junk s = [] := by
  unfold fresh_words
  rw [if_pos h]

/-- The loop of the tokenizer reads the memory for the sentences it opens only: two
memories that give these the same words give the same result. -/
theorem tok_loop_junk_agree (j1 j2 : junk_words) (p : List Char) :
    ∀ (done : ss_doc_tokens) (cur : List (List Char)) (tok : List Char),
      (∀ s, done.length < s → s ≤ done.length + p.countP (fun c => is_sentence_end c) →
        fresh_words j1 s = fresh_words j2 s) →
      tok_loop j1 p done cur tok = tok_loop j2 p done cur tok := by
  induction p with
  | nil => intro done cur tok _; rfl
  | cons c p ih =>
    intro done cur tok h
    by_cases he : is_sentence_end c = true
    · have hcount : (c :: p).countP (fun c => is_sentence_end c) =
          p.countP (fun c => is_sentence_end c) + 1 := by
        rw [List.countP_cons_of_pos]
        exact he
      rw [hcount] at h
      have h1 : fresh_words j1 (done.length + 1) = fresh_words j2 (done.length + 1) :=
        h _ (by omega) (by omega)
      have hnext : ∀ s0 : List (List Char), ∀ s, (done ++ [s0]).length < s →
          s ≤ (done ++ [s0]).length + p.countP (fun c => is_sentence_end c) →
          fresh_words j1 s = fresh_words j2 s := by
        intro s0 s hs1 hs2
        rw [List.length_append, List.length_singleton] at hs1 hs2
        exact h s (by omega) (by omega)
      have hs : isspace c = false := by
        cases hsp : isspace c
        · rfl
        · rw [space_not_delimiter c hsp] at he
          exact absurd he (by decide)
      rw [tok_loop, tok_loop, h1]
      simp only [hs, he, Bool.false_eq_true, if_false, if_true]
      split_ifs
      all_goals exact ih _ _ _ (hnext _)
    · have hcount : (c :: p).countP (fun c => is_sentence_end c) =
          p.countP (fun c => is_sentence_end c) := by
        rw [List.countP_cons_of_neg]
        exact he
      rw [hcount] at h
      rw [tok_loop, tok_loop]
      simp only [he, Bool.false_eq_true, if_false]
      split_ifs
      all_goals exact ih _ _ _ h

/-- On a text with fewer than eight delimiters the tokenizer does not read the
memory. -/
theorem tokenize_few_delimiters (junk : junk_words) (x : List Char)
    (hx : x.countP (fun c => is_sentence_end c) < 8) :
    ss_tokenize junk x = ss_tokenize no_junk x := by
  unfold ss_tokenize
  apply tok_loop_junk_agree
  intro s _ hs
  simp only [List.length_nil, Nat.zero_add] at hs
  rw [fresh_words_lt junk s (by omega), fresh_words_lt no_junk s (by omega)]

/-- What the composed result of the tokenizer loop is, from any point of the scan. -/
theorem compose_tok_loop (p : List Char) :
    ∀ (done : ss_doc_tokens) (cur : List (List Char)) (tok : List Char),
      ss_tokens_compose (tok_loop no_junk p done cur tok) =
        closed_text done ++
          (if tok ≠ [] then words_text cur ++ tok ++ code_normalize_go ws_pos.in_token p
           else if cur ≠ [] then compose_words cur ++ code_normalize_go ws_pos.after_token p
           else code_normalize_go ws_pos.sentence_start p) := by
  induction p with
  | nil =>
    intro done cur tok
    by_cases ht : tok = []
    · by_cases hc : cur = []
      · simp [tok_loop, fresh_words_no_junk, code_normalize_go, compose_snoc, ht, hc, compose_words]
      · simp [tok_loop, fresh_words_no_junk, code_normalize_go, compose_snoc, ht, hc]
    · simp [tok_loop, fresh_words_no_junk, code_normalize_go, compose_snoc, ht, compose_words_snoc]
  | cons c p ih =>
    intro done cur tok
    by_cases hs : isspace c = true
    · by_cases ht : tok = []
      · by_cases hc : cur = []
        · simp [tok_loop, fresh_words_no_junk, code_normalize_go, hs, ht, hc, ih]
        · simp [tok_loop, fresh_words_no_junk, code_normalize_go, hs, ht, hc, ih]
      · simp [tok_loop, fresh_words_no_junk, code_normalize_go, hs, ht, ih, compose_words_snoc]
    · by_cases he : is_sentence_end c = true
      · by_cases ht : tok = []
        · by_cases hc : cur = []
          · simp [tok_loop, fresh_words_no_junk, code_normalize_go, hs, he, ht, hc, ih, closed_text_snoc,
              compose_words]
          · have h1 := compose_words_attach cur c hc
            simp [tok_loop, fresh_words_no_junk, code_normalize_go, hs, he, ht, hc, ih, closed_text_snoc]
            simp at h1
            rw [h1]
            simp
        · simp [tok_loop, fresh_words_no_junk, code_normalize_go, hs, he, ht, ih, closed_text_snoc,
            compose_words_snoc]
      · by_cases ht : tok = []
        · by_cases hc : cur = []
          · simp [tok_loop, fresh_words_no_junk, code_normalize_go, hs, he, ht, hc, ih, words_text]
          · simp [tok_loop, fresh_words_no_junk, code_normalize_go, hs, he, ht, hc, ih, words_text_of_ne_nil]
        · simp [tok_loop, fresh_words_no_junk, code_normalize_go, hs, he, ht, ih]

/-- Re-tokenizing the code's normal form of a text gives the tokens of the text.
The normal form writes the space between two tokens late, in front of the second
one, so after a token the scan of the normal form still has that token open where
the scan of the text has flushed it. -/
theorem tok_loop_code_normalize (p : List Char) :
    (∀ (done : ss_doc_tokens) (cur : List (List Char)),
      tok_loop no_junk (code_normalize_go ws_pos.sentence_start p) done cur [] =
        tok_loop no_junk p done cur []) ∧
    (∀ (done : ss_doc_tokens) (cur : List (List Char)) (tok : List Char), tok ≠ [] →
      tok_loop no_junk (code_normalize_go ws_pos.in_token p) done cur tok =
        tok_loop no_junk p done cur tok) ∧
    (∀ (done : ss_doc_tokens) (cur : List (List Char)) (t : List Char), t ≠ [] →
      tok_loop no_junk (code_normalize_go ws_pos.after_token p) done cur t =
        tok_loop no_junk p done (cur ++ [t]) []) := by
  have hsp : isspace ' ' = true := by decide
  induction p with
  | nil =>
    refine ⟨?_, ?_, ?_⟩
    · intro done cur; simp [code_normalize_go]
    · intro done cur tok _; simp [code_normalize_go]
    · intro done cur t ht; simp [code_normalize_go, tok_loop, fresh_words_no_junk, ht]
  | cons c p ih =>
    obtain ⟨ihA, ihB, ihC⟩ := ih
    by_cases hs : isspace c = true
    · refine ⟨?_, ?_, ?_⟩
      · intro done cur
        simp [code_normalize_go, hs, tok_loop, fresh_words_no_junk, ihA]
      · intro done cur tok ht
        simp [code_normalize_go, hs, tok_loop, fresh_words_no_junk, ht, ihC]
      · intro done cur t ht
        simp [code_normalize_go, hs, tok_loop, fresh_words_no_junk, ht, ihC]
    · by_cases he : is_sentence_end c = true
      · refine ⟨?_, ?_, ?_⟩
        · intro done cur
          by_cases hc : cur = []
          · simp [code_normalize_go, hs, he, tok_loop, fresh_words_no_junk, hsp, hc, ihA]
          · simp [code_normalize_go, hs, he, tok_loop, fresh_words_no_junk, hsp, hc, ihA]
        · intro done cur tok ht
          simp [code_normalize_go, hs, he, tok_loop, fresh_words_no_junk, hsp, ht, ihA]
        · intro done cur t ht
          simp [code_normalize_go, hs, he, tok_loop, fresh_words_no_junk, hsp, ht, ihA, List.dropLast_concat]
      · refine ⟨?_, ?_, ?_⟩
        · intro done cur
          simp [code_normalize_go, hs, he, tok_loop, fresh_words_no_junk, ihB]
        · intro done cur tok ht
          simp [code_normalize_go, hs, he, tok_loop, fresh_words_no_junk, ht, ihB]
        · intro done cur t ht
          simp [code_normalize_go, hs, he, tok_loop, fresh_words_no_junk, hsp, ht, ihB]

/-- The code's normal form has the delimiters of the text. -/
theorem code_normalize_go_count (p : List Char) :
    ∀ st : ws_pos, (code_normalize_go st p).countP (fun c => is_sentence_end c) =
      p.countP (fun c => is_sentence_end c) := by
  have hsp : is_sentence_end ' ' = false := by decide
  induction p with
  | nil => intro st; simp [code_normalize_go]
  | cons c p ih =>
    intro st
    by_cases hs : isspace c = true
    · have hse := space_not_delimiter c hs
      simp [code_normalize_go, hs, ih, hse]
    · by_cases he : is_sentence_end c = true
      · simp [code_normalize_go, hs, he, ih, hsp]
      · by_cases ha : st = ws_pos.after_token
        · simp [code_normalize_go, hs, he, ha, ih, hsp]
        · simp [code_normalize_go, hs, he, ha, ih, hsp]

theorem code_normalize_count (x : List Char) :
    (code_normalize x).countP (fun c => is_sentence_end c) =
      x.countP (fun c => is_sentence_end c) := by
  unfold code_normalize
  exact code_normalize_go_count x _

theorem compose_tokenize_eq_code_normalize_aux (x : List Char) :
    ss_tokens_compose (ss_tokenize no_junk x) = code_normalize x := by
  simp [ss_tokenize, code_normalize, compose_tok_loop, closed_text]

/-- Tokenizing the composition of the tokens of a text gives the same sentences with the
same tokens as tokenizing the text, for a text with fewer than eight sentence
terminators, whatever the memory holds at each of the two calls. -/
theorem tokenize_compose_tokenize (j1 j2 : junk_words) (x : List Char)
    (hx : x.countP (fun c => is_sentence_end c) < 8) :
    ss_tokenize j2 (ss_tokens_compose (ss_tokenize j1 x)) = ss_tokenize j1 x := by
  have hc : (code_normalize x).countP (fun c => is_sentence_end c) =
      x.countP (fun c => is_sentence_end c) := code_normalize_count x
  rw [tokenize_few_delimiters j1 x hx, compose_tokenize_eq_code_normalize_aux x,
    tokenize_few_delimiters j2 (code_normalize x) (by rw [hc]; exact hx)]
  exact (tok_loop_code_normalize x).1 [] []

/-- C2 on the failing input: the text `a. b. c. d. e. f. g. h.` has eight delimiters,
so the tokenizer opens a ninth sentence, whose word count it does not set.  When the
memory holds 0 the tokens are the eight sentences and an empty one, composed as the
text and one space; tokenizing that composition when the memory holds the count 1
gives a ninth sentence of one word, not the sentences of the text.  (With fewer than
eight delimiters the round trip holds: `tokenize_compose_tokenize`.) -/
theorem tokenize_round_trip_unset_count :
    eight_delims.countP (fun c => is_sentence_end c) = 8 ∧
    ss_tokenize no_junk eight_delims = eight_sentences ++ [[]] ∧
    ss_tokens_compose (ss_tokenize no_junk eight_delims) =
      "a. b. c. d. e. f. g. h. ".toList ∧
    ss_tokenize junk_w (ss_tokens_compose (ss_tokenize no_junk eight_delims)) =
      eight_sentences ++ [["w".toList]] ∧
    ss_tokenize junk_w (ss_tokens_compose (ss_tokenize no_junk eight_delims)) ≠
      ss_tokenize no_junk eight_delims := by
  refine ⟨by decide, by decide, by decide, by decide, by decide⟩

/-! ## APPLY -/

theorem sentence_end_not_blank (d : Char) (hd : is_sentence_end d = true) :
    is_blank d = false := by
  simp only [is_sentence_end, Bool.or_eq_true, beq_iff_eq] at hd
  rcases hd with (h | h) | h <;> subst h <;> decide

theorem split_tokens_single (d : Char) (hd : is_blank d = false) :
    split_tokens [d] = [[d]] := by
  simp [split_tokens, split_go, hd]

theorem getLastD_concat {α : Type} (l : List α) (a d : α) : (l ++ [a]).getLastD d = a := by
  simp [List.getLastD_eq_getLast?]

/-- On a non-empty sentence `ts ++ [t]`, a content that is exactly one delimiter
character `d` is appended to the last token at every word index from the word count
on: the test of the lone delimiter (`widx >= wc`) comes before the rejection of an
index above the word count. -/
theorem apply_lone_delimiter_from_end (doc : ss_doc_tokens) (sidx widx : Int)
    (ts : List (List Char)) (t : List Char) (d : Char)
    (hs : 0 ≤ sidx ∧ sidx < doc.length)
    (hrow : doc.getD sidx.toNat [] = ts ++ [t])
    (hd : is_sentence_end d = true)
    (hw : ((ts ++ [t]).length : Int) ≤ widx) :
    ss_tokens_replace_or_append doc sidx widx [d] =
      (0, doc.set sidx.toNat (ts ++ [t ++ [d]])) := by
  unfold ss_tokens_replace_or_append
  rw [hrow, split_tokens_single d (sentence_end_not_blank d hd)]
  have h1 : ¬ (sidx < 0 ∨ sidx ≥ doc.length) := by omega
  have h2 : ¬ widx < 0 := by omega
  rw [if_neg h1]
  simp only [h2, if_false]
  simp [getLastD_concat, hd, List.dropLast_concat]
  intro hlt
  exfalso
  simp only [List.length_append, List.length_singleton, Nat.cast_add, Nat.cast_one] at hw
  omega

/-- C3 on the failing input: on the sentence `a` (word count 1), APPLY at word index 2
with the content `.` returns 0 and is answered OK; the sentence becomes `a.`.  So it is
on every non-empty sentence, for every word index above the word count and every
content that is one delimiter character alone. -/
theorem apply_beyond_end_lone_delimiter_succeeds :
    ss_tokens_replace_or_append [["a".toList]] 0 2 ".".toList = (0, [["a.".toList]]) ∧
    handle_apply
        { active := true, file := "f".toList, sentence_idx := 0, doc := [["a".toList]],
          pre_image := none }
        (some 2) (some ".".toList) =
      ({ active := true, file := "f".toList, sentence_idx := 0, doc := [["a.".toList]],
          pre_image := none }, ⟨ss_status.OK, none⟩) ∧
    (∀ (doc : ss_doc_tokens) (sidx widx : Int) (ts : List (List Char)) (t : List Char)
      (d : Char), 0 ≤ sidx ∧ sidx < doc.length → doc.getD sidx.toNat [] = ts ++ [t] →
      is_sentence_end d = true → ((ts ++ [t]).length : Int) < widx →
      ss_tokens_replace_or_append doc sidx widx [d] =
        (0, doc.set sidx.toNat (ts ++ [t ++ [d]]))) := by
  refine ⟨by decide, by decide, ?_⟩
  intro doc sidx widx ts t d hs hrow hd hw
  exact apply_lone_delimiter_from_end doc sidx widx ts t d hs hrow hd (by omega)

/-- The other word indices out of range: APPLY with a word index below 0 fails
whatever the content is, and APPLY with a word index above the word count fails unless
the sentence is not empty and the content is exactly one delimiter character; the
document stays as it was and an active session answers ERR_BADREQ,
invalid-index-or-content. -/
theorem apply_bad_word_index (doc : ss_doc_tokens) (sidx widx : Int) (content : List Char)
    (hw : widx < 0 ∨
      (((doc.getD sidx.toNat []).length : Int) < widx ∧
        ¬ (0 < (doc.getD sidx.toNat []).length ∧
            ∃ d, is_sentence_end d = true ∧ content = [d]))) :
    ss_tokens_replace_or_append doc sidx widx content = (-1, doc) ∧
    ∀ ws : conn_write_session, ws.active = true → ws.doc = doc → ws.sentence_idx = sidx →
      content.length < 512 →
      handle_apply ws (some widx) (some content) =
        (ws, ⟨ss_status.ERR_BADREQ, some "invalid-index-or-content"⟩) := by
  have h1 : ss_tokens_replace_or_append doc sidx widx content = (-1, doc) := by
    unfold ss_tokens_replace_or_append
    generalize doc.getD sidx.toNat [] = row at hw ⊢
    by_cases hs : sidx < 0 ∨ sidx ≥ doc.length
    · rw [if_pos hs]
    · rw [if_neg hs]
      rcases hw with hw | ⟨hw, hl⟩
      · simp only [hw, if_true]
      · have hw0 : ¬ widx < 0 := by omega
        simp only [hw0, if_false]
        by_cases hn : (split_tokens content).length = 0
        · simp only [hn, if_true]
        · simp only [hn, if_false]
          have hsp : ¬ (widx ≥ (row.length : Int) ∧
              (split_tokens content).length = 1 ∧ content.length = 1 ∧
              is_sentence_end (content.headD ' ') = true ∧
              row.length > 0) := by
            rintro ⟨_, _, hlen, hend, hpos⟩
            apply hl
            refine ⟨hpos, content.headD ' ', hend, ?_⟩
            match content, hlen with
            | [c], _ => rfl
          rw [if_neg hsp]
          have hgt : widx > (row.length : Int) := hw
          simp only [hgt, if_true]
  refine ⟨h1, ?_⟩
  intro ws ha hd hsx hlen
  have hg : get_string_field (some content) 512 = some content := by
    simp [get_string_field]; omega
  unfold handle_apply
  simp only [ha, hg, hd, hsx, h1]
  cases ws
  simp_all

/-- A concrete instance of `apply_bad_word_index`: word index 3 on the one-word
sentence `a` with the content `b`. -/
theorem apply_bad_word_index_witness :
    ss_tokens_replace_or_append [["a".toList]] 0 3 "b".toList = (-1, [["a".toList]]) :=
  (apply_bad_word_index [["a".toList]] 0 3 "b".toList
    (Or.inr ⟨by decide, fun h => by
      obtain ⟨_, d, hd, he⟩ := h
      have hdb : d = 'b' := by simpa using he.symm
      subst hdb
      exact absurd hd (by decide)⟩)).1

/-- C6, as stated, fails: the content `. ` (a delimiter and a space) splits into exactly
one token, the single delimiter character `.`, and applied at the word count of the
sentence `a` it is appended as a second token: the word count grows to 2 and the last
token `a` gets nothing. -/
theorem apply_padded_lone_delimiter_grows :
    split_tokens ". ".toList = [".".toList] ∧
    ss_tokens_replace_or_append [["a".toList]] 0 1 ". ".toList =
      (0, [["a".toList, ".".toList]]) := by
  constructor <;> decide

/-- C6, amended: on a non-empty sentence `ts ++ [t]`, APPLY at the word count with a
content that is exactly one delimiter character `d` succeeds and appends `d` to the
last token; the word count and every other token stay as they were. -/
theorem apply_lone_delimiter (doc : ss_doc_tokens) (sidx : Int)
    (ts : List (List Char)) (t : List Char) (d : Char)
    (hs : 0 ≤ sidx ∧ sidx < doc.length)
    (hrow : doc.getD sidx.toNat [] = ts ++ [t])
    (hd : is_sentence_end d = true) :
    ss_tokens_replace_or_append doc sidx ((ts ++ [t]).length : Nat) [d] =
      (0, doc.set sidx.toNat (ts ++ [t ++ [d]])) ∧
    (ts ++ [t ++ [d]]).length = (ts ++ [t]).length := by
  refine ⟨?_, by simp⟩
  unfold ss_tokens_replace_or_append
  rw [hrow, split_tokens_single d (sentence_end_not_blank d hd)]
  have h1 : ¬ (sidx < 0 ∨ sidx ≥ doc.length) := by omega
  have h2 : ¬ (((ts ++ [t]).length : Nat) : Int) < 0 := by omega
  rw [if_neg h1]
  simp only [h2, if_false]
  simp [getLastD_concat, hd, List.dropLast_concat]

/-- A concrete instance of `apply_lone_delimiter`: `.` applied at index 2 of
`Hello world` gives `Hello world.`. -/
theorem apply_lone_delimiter_witness :
    ss_tokens_replace_or_append [["Hello".toList, "world".toList]] 0 2 ['.'] =
      (0, [["Hello".toList, "world.".toList]]) :=
  (apply_lone_delimiter [["Hello".toList, "world".toList]] 0 ["Hello".toList]
    "world".toList '.' (by decide) (by decide) (by decide)).1

/-! ## Write sessions -/

/-- C7, as stated, fails: on the file `x world.` the session of S2 is answered OK three
times and commits `Hello x world. `, with a space after the terminator (the
separator in front of the empty sentence the terminator opens).  The memory holds 0 for
the tokenizer, which does not read it on this text. -/
theorem s2_commit_has_trailing_space :
    (s2_session no_junk no_junk (store_one "f".toList "x world.".toList none) ws_zero "f".toList true io_ok).1
      = ⟨ss_status.OK, none⟩ ∧
    (s2_session no_junk no_junk (store_one "f".toList "x world.".toList none) ws_zero "f".toList true io_ok).2.1
      = ⟨ss_status.OK, none⟩ ∧
    (s2_session no_junk no_junk (store_one "f".toList "x world.".toList none) ws_zero "f".toList true io_ok).2.2.1
      = ⟨ss_status.OK, none⟩ ∧
    (s2_session no_junk no_junk (store_one "f".toList "x world.".toList none) ws_zero "f".toList true
        io_ok).2.2.2.files "f".toList = some "Hello x world. ".toList ∧
    (s2_session no_junk no_junk (store_one "f".toList "x world.".toList none) ws_zero "f".toList true
        io_ok).2.2.2.files "f".toList ≠ some "Hello x world.".toList := by
  refine ⟨by decide, by decide, by decide, by decide, by decide⟩

/-- C8 on the failing input: both sessions begin on the content `a`, the first on
sentence 0 and the second on sentence 1; every request is answered OK; the first
session holds the sentence `a b` and the second the sentence `c`; the second commits
`a c`, and the commit of the first leaves `a b`: the token `c` is lost. -/
theorem merge_on_commit_loses_token :
    lost_begin1.2.2.status = ss_status.OK ∧ lost_begin2.2.2.status = ss_status.OK ∧
    lost_apply1.2.status = ss_status.OK ∧ lost_apply2.2.status = ss_status.OK ∧
    lost_end2.2.2.status = ss_status.OK ∧ lost_end1.2.2.status = ss_status.OK ∧
    lost_apply1.1.doc = [["a".toList, "b".toList]] ∧
    lost_apply2.1.doc = [["a".toList], ["c".toList]] ∧
    lost_end2.1.files "f".toList = some "a c".toList ∧
    lost_end1.1.files "f".toList = some "a b".toList := by
  refine ⟨by decide, by decide, by decide, by decide, by decide, by decide, by decide,
    by decide, by decide, by decide⟩

/-- C10, as stated, fails: the file `f` holds `hi` at BEGIN_WRITE and an earlier
snapshot `old`; END_WRITE cannot open the snapshot file, is answered OK all the same,
and the snapshot is still `old`. -/
theorem end_write_ok_keeps_stale_snapshot :
    stale_begin.2.2.status = ss_status.OK ∧ stale_apply.2.status = ss_status.OK ∧
    stale_end.2.2.status = ss_status.OK ∧
    stale_end.1.files "f".toList = some "x hi".toList ∧
    stale_end.1.undo "f".toList = some "old".toList := by
  refine ⟨by decide, by decide, by decide, by decide, by decide⟩

theorem lock_acquire_free (g_locks : lock_table) (file : List Char) (sidx : Int)
    (h : (file, sidx) ∉ g_locks) :
    lock_acquire g_locks file sidx = (0, (file.take 127, sidx) :: g_locks) := by
  unfold lock_acquire
  have hany : g_locks.any (fun n => decide (n.2 = sidx) && decide (n.1 = file)) = false := by
    rw [Bool.eq_false_iff]
    intro hc
    rw [List.any_eq_true] at hc
    obtain ⟨n, hn, hp⟩ := hc
    simp only [Bool.and_eq_true, decide_eq_true_eq] at hp
    apply h
    have : n = (file, sidx) := Prod.ext hp.2 hp.1
    rw [← this]; exact hn
  simp [hany]

theorem lock_acquire_held (g_locks : lock_table) (file : List Char) (sidx : Int)
    (h : (file, sidx) ∈ g_locks) :
    lock_acquire g_locks file sidx = (-1, g_locks) := by
  unfold lock_acquire
  have hany : g_locks.any (fun n => decide (n.2 = sidx) && decide (n.1 = file)) = true := by
    rw [List.any_eq_true]
    exact ⟨(file, sidx), h, by simp⟩
  simp [hany]

theorem take_of_fits (file : List Char) (h : file.length < 128) : file.take 127 = file :=
  List.take_of_length_le (by omega)

theorem get_string_field_fits (v : List Char) (n : Nat) (h : v.length < n) :
    get_string_field (some v) n = some v := by
  simp [get_string_field]; omega

/-- C7, amended: on a file whose content is exactly `x world.`, the session BEGIN_WRITE
sentenceIndex=0; APPLY wordIndex=0 content `Hello`; END_WRITE is answered OK, OK, and OK
when the temporary file opens and the rename succeeds; the file it commits is exactly
`Hello x world. `, the text `Hello x world.` followed by one space; this whatever the
memory holds for the tokenizer. -/
theorem s2_insert_before (jb je : junk_words) (st : ss_store) (ws : conn_write_session) (f : List Char)
    (create_ok : Bool) (io : end_write_io)
    (hf : st.files f = some "x world.".toList)
    (hlen : f.length < 128)
    (hws : ws.active = false)
    (hlock : (f, (0 : Int)) ∉ st.locks) :
    (s2_session jb je st ws f create_ok io).1 = ⟨ss_status.OK, none⟩ ∧
    (s2_session jb je st ws f create_ok io).2.1 = ⟨ss_status.OK, none⟩ ∧
    ((s2_session jb je st ws f create_ok io).2.2.1.status = ss_status.OK ↔
      (io.tmp_open_ok = true ∧ io.rename_ok = true)) ∧
    ((s2_session jb je st ws f create_ok io).2.2.1.status = ss_status.OK →
      (s2_session jb je st ws f create_ok io).2.2.2.files f = some "Hello x world. ".toList) := by
  have hrd : read_file_into st.files f = some "x world.".toList := by
    unfold read_file_into; rw [hf]; decide
  have htk : ∀ junk : junk_words,
      ss_tokenize junk (c_str "x world.".toList) = [["x".toList, "world.".toList], []] := by
    intro junk
    rw [tokenize_few_delimiters junk _ (by decide)]
    decide
  have hb : handle_begin_write jb st ws (some f) true 0 create_ok =
      ({ st with locks := (f, 0) :: st.locks },
        { active := true, file := f, sentence_idx := 0,
          doc := [["x".toList, "world.".toList], []],
          pre_image := some "x world.".toList }, ⟨ss_status.OK, none⟩) := by
    unfold handle_begin_write
    simp only [get_string_field_fits f 128 hlen, hws, lock_acquire_free _ _ _ hlock, hrd, htk jb,
      take_of_fits f hlen]
    simp
  have ha : handle_apply
        { active := true, file := f, sentence_idx := 0,
          doc := [["x".toList, "world.".toList], []],
          pre_image := some "x world.".toList } (some 0) (some "Hello".toList) =
      ({ active := true, file := f, sentence_idx := 0,
          doc := [["Hello".toList, "x".toList, "world.".toList], []],
          pre_image := some "x world.".toList }, ⟨ss_status.OK, none⟩) := by
    have h1 : get_string_field (some "Hello".toList) 512 = some "Hello".toList := by decide
    have h2 : ss_tokens_replace_or_append [["x".toList, "world.".toList], []] 0 0
        "Hello".toList = (0, [["Hello".toList, "x".toList, "world.".toList], []]) := by decide
    unfold handle_apply
    simp only [h1, h2]
    simp
  have hm : merge_on_commit je st.files
        { active := true, file := f, sentence_idx := 0,
          doc := [["Hello".toList, "x".toList, "world.".toList], []],
          pre_image := some "x world.".toList } = some "Hello x world. ".toList := by
    unfold merge_on_commit
    simp only [hrd, htk je]
    decide
  unfold s2_session
  simp only [hb, ha]
  unfold handle_end_write
  simp only [hm]
  cases io with
  | mk t u r =>
    cases t <;> cases r <;> simp [fs_set]

/-- A concrete instance of `s2_insert_before`: the store with the one file `f`. -/
theorem s2_insert_before_witness :
    (s2_session no_junk junk_w (store_one "f".toList "x world.".toList none)
        ws_zero "f".toList true io_ok).2.2.2.files "f".toList =
      some "Hello x world. ".toList :=
  (s2_insert_before no_junk junk_w (store_one "f".toList "x world.".toList none) ws_zero "f".toList true
    io_ok (by decide) (by decide) (by decide) (by decide)).2.2.2 (by decide)

/-! ## The lock table -/

theorem lock_release_sublist (g_locks : lock_table) (file : List Char) (sidx : Int) :
    (lock_release g_locks file sidx).Sublist g_locks := by
  induction g_locks with
  | nil => simp [lock_release]
  | cons n rest ih =>
    unfold lock_release
    split
    · exact List.sublist_cons_self n rest
    · exact ih.cons₂ n

theorem lock_step_nodup (g_locks : lock_table) (op : lock_op) (h : g_locks.Nodup) :
    (lock_step g_locks op).Nodup := by
  cases op with
  | begin_write file sidx =>
    unfold lock_step
    by_cases hfit : file.length + 1 > 128
    · simp [get_string_field, hfit, h]
    · have hg : get_string_field (some file) 128 = some file := by
        simp [get_string_field, hfit]
      simp only [hg]
      by_cases hin : (file, sidx) ∈ g_locks
      · rw [lock_acquire_held _ _ _ hin]; exact h
      · rw [lock_acquire_free _ _ _ hin, take_of_fits file (by omega)]
        exact List.nodup_cons.mpr ⟨hin, h⟩
  | release file sidx =>
    exact (lock_release_sublist g_locks file sidx).nodup h

theorem lock_foldl_nodup (ops : List lock_op) :
    ∀ g_locks : lock_table, g_locks.Nodup → (ops.foldl lock_step g_locks).Nodup := by
  induction ops with
  | nil => intro g h; exact h
  | cons op ops ih => intro g h; exact ih _ (lock_step_nodup g op h)

/-- C9: when the pair `(file, sidx)` is in the lock table, `lock_acquire` on it returns
-1 and leaves the table as it was, and a BEGIN_WRITE that reaches the lock (file name
that fits, valid ticket, no session active on the connection) is answered ERR_LOCKED,
store and session unchanged; and the table after any sequence of acquisitions by
BEGIN_WRITE and of releases, from the empty table, holds no pair twice. -/
theorem lock_single_writer (g_locks : lock_table) (file : List Char) (sidx : Int)
    (h : (file, sidx) ∈ g_locks) :
    lock_acquire g_locks file sidx = (-1, g_locks) ∧
    (∀ (junk : junk_words) (st : ss_store) (ws : conn_write_session) (create_ok : Bool),
      st.locks = g_locks → ws.active = false → file.length < 128 →
      handle_begin_write junk st ws (some file) true sidx create_ok =
        (st, ws, ⟨ss_status.ERR_LOCKED, none⟩)) ∧
    (∀ ops : List lock_op, (lock_run ops).Nodup) := by
  refine ⟨lock_acquire_held _ _ _ h, ?_, ?_⟩
  · intro junk st ws create_ok hst hws hlen
    unfold handle_begin_write
    rw [← hst] at h
    simp [get_string_field_fits file 128 hlen, hws, lock_acquire_held _ _ _ h]
  · intro ops
    exact lock_foldl_nodup ops [] List.nodup_nil

/-- A concrete instance of `lock_single_writer`: scenario S4, `(f, 0)` acquired once and
asked for again. -/
theorem lock_single_writer_witness :
    lock_acquire (lock_run [lock_op.begin_write "f".toList 0]) "f".toList 0 =
      (-1, lock_run [lock_op.begin_write "f".toList 0]) :=
  (lock_single_writer (lock_run [lock_op.begin_write "f".toList 0]) "f".toList 0
    (by decide)).1

/-! ## The undo snapshot -/

theorem handle_apply_frame (ws : conn_write_session) (widx : Option Int)
    (content : Option (List Char)) :
    (handle_apply ws widx content).1.active = ws.active ∧
    (handle_apply ws widx content).1.file = ws.file ∧
    (handle_apply ws widx content).1.sentence_idx = ws.sentence_idx ∧
    (handle_apply ws widx content).1.pre_image = ws.pre_image := by
  unfold handle_apply
  split
  · simp
  · split
    · dsimp only
      split <;> simp
    · simp

theorem apply_all_frame (msgs : List (Option Int × Option (List Char))) :
    ∀ ws : conn_write_session,
      (apply_all ws msgs).active = ws.active ∧ (apply_all ws msgs).file = ws.file ∧
      (apply_all ws msgs).sentence_idx = ws.sentence_idx ∧
      (apply_all ws msgs).pre_image = ws.pre_image := by
  induction msgs with
  | nil => intro ws; simp [apply_all]
  | cons m msgs ih =>
    intro ws
    have h1 := handle_apply_frame ws m.1 m.2
    have h2 := ih (handle_apply ws m.1 m.2).1
    simp only [apply_all, List.foldl_cons] at h2 ⊢
    refine ⟨h2.1.trans h1.1, h2.2.1.trans h1.2.1, h2.2.2.1.trans h1.2.2.1,
      h2.2.2.2.trans h1.2.2.2⟩

/-- What BEGIN_WRITE leaves in a session it keeps active: the file name, and as
pre-image the bytes it read, nothing when it could not read the file. -/
theorem begin_write_pre_image (junk : junk_words) (st : ss_store) (ws : conn_write_session) (file : List Char)
    (ticket_ok : Bool) (sidx : Int) (create_ok : Bool)
    (hok : (handle_begin_write junk st ws (some file) ticket_ok sidx create_ok).2.2.status =
      ss_status.OK)
    (hact : (handle_begin_write junk st ws (some file) ticket_ok sidx create_ok).2.1.active = true) :
    (handle_begin_write junk st ws (some file) ticket_ok sidx create_ok).2.1.file = file ∧
    (handle_begin_write junk st ws (some file) ticket_ok sidx create_ok).2.1.pre_image.getD [] =
      (read_file_into st.files file).getD [] := by
  by_cases hfit : file.length + 1 > 128
  · simp [handle_begin_write, get_string_field, hfit] at hok
  · have hg : get_string_field (some file) 128 = some file := by
      simp [get_string_field, hfit]
    have htake : file.take 127 = file := take_of_fits file (by omega)
    unfold handle_begin_write at hok hact ⊢
    simp only [hg] at hok hact ⊢
    cases ticket_ok
    · simp at hok
    · cases hws : ws.active
      · by_cases hl : (lock_acquire st.locks file sidx).1 ≠ 0
        · simp [hws, hl] at hok
        · clear hok
          cases hr : read_file_into st.files file with
          | none =>
            simp only [hws, hl, hr] at hact ⊢
            by_cases h1 : sidx < 0 ∨ sidx ≥ 1
            · simp [h1] at hact
            · simp [h1, htake]
          | some content =>
            simp only [hws, hl, hr] at hact ⊢
            have hpre : (if content.length > 0 then some content else none).getD [] = content := by
              cases content <;> simp
            generalize (if (ss_tokenize junk (c_str content)).length = 0 ∧ sidx = 0 then [[]]
              else ss_tokenize junk (c_str content)) = doc at hact ⊢
            by_cases h1 : sidx < 0 ∨ sidx > (doc.length : Int)
            · simp [h1] at hact
            · clear hact
              have hpos : 0 < content.length → (some content).getD [] = content := fun _ => rfl
              split_ifs <;> simp_all
      · simp [hws] at hok

/-- An END_WRITE answered OK was on an active session, and it wrote the session's
pre-image as undo snapshot when the snapshot file opened, nothing otherwise. -/
theorem end_write_ok_undo (junk : junk_words) (st : ss_store) (ws : conn_write_session) (io : end_write_io)
    (hok : (handle_end_write junk st ws io).2.2.status = ss_status.OK) :
    ws.active = true ∧
    (handle_end_write junk st ws io).1.undo =
      if io.undo_open_ok then fs_set st.undo ws.file (some (ws.pre_image.getD []))
      else st.undo := by
  unfold handle_end_write at hok ⊢
  cases hact : ws.active
  · simp [hact] at hok
  · simp only [hact] at hok ⊢
    cases hm : merge_on_commit junk st.files ws with
    | none => simp [hm] at hok
    | some new_text =>
      simp only [hm] at hok ⊢
      cases io with
      | mk t u r =>
        cases t
        · simp at hok
        · cases r
          · simp at hok
          · cases u <;> simp

/-- What `read_file_into` returns of a file that is missing or of at most 10 MiB. -/
theorem read_file_into_small (fs : List Char → Option (List Char)) (file : List Char)
    (hsize : ∀ buf, fs file = some buf → buf.length ≤ 10 * 1024 * 1024) :
    read_file_into fs file = fs file := by
  unfold read_file_into
  rcases h : fs file with _ | buf
  · rfl
  · have := hsize buf h
    simp only
    rw [if_neg (by omega)]

/-- C10, amended: after an END_WRITE answered OK, when the undo snapshot file could be
opened, and the file was of at most 10 MiB if it existed at the matching BEGIN_WRITE,
the undo snapshot of the file is byte for byte the content the file had at that
BEGIN_WRITE (the empty content when the file did not exist), whatever the store has
become in between, whatever the snapshot was and whatever the memory holds for the
tokenizer; when the snapshot file could not be opened the snapshot is what it was before
the END_WRITE. -/
theorem end_write_undo_snapshot (jb je : junk_words) (st0 : ss_store)
    (ws0 : conn_write_session)
    (file : List Char) (ticket_ok : Bool) (sidx : Int) (create_ok : Bool)
    (msgs : List (Option Int × Option (List Char))) (st2 : ss_store) (io : end_write_io)
    (hsize : ∀ buf, st0.files file = some buf → buf.length ≤ 10 * 1024 * 1024)
    (hb : (handle_begin_write jb st0 ws0 (some file) ticket_ok sidx create_ok).2.2.status =
      ss_status.OK)
    (he : (handle_end_write je st2
        (apply_all (handle_begin_write jb st0 ws0 (some file) ticket_ok sidx create_ok).2.1
          msgs)
        io).2.2.status = ss_status.OK) :
    (handle_end_write je st2
        (apply_all (handle_begin_write jb st0 ws0 (some file) ticket_ok sidx create_ok).2.1
          msgs)
        io).1.undo file =
      if io.undo_open_ok then some ((st0.files file).getD [])
      else st2.undo file := by
  have hfr := apply_all_frame msgs
    (handle_begin_write jb st0 ws0 (some file) ticket_ok sidx create_ok).2.1
  have ⟨hact, hundo⟩ := end_write_ok_undo je st2 _ io he
  rw [hfr.1] at hact
  have ⟨hfile, hpre⟩ := begin_write_pre_image jb st0 ws0 file ticket_ok sidx create_ok hb hact
  rw [read_file_into_small st0.files file hsize] at hpre
  rw [hundo, hfr.2.1, hfr.2.2.2, hfile, hpre]
  cases io.undo_open_ok <;> simp [fs_set]

/-- A concrete instance of `end_write_undo_snapshot`: scenario S5, the file `f` holds
`hi`, the session makes it `bye hi`, and the snapshot written is `hi` where there was
`old`. -/
theorem end_write_undo_snapshot_witness :
    (handle_end_write no_junk
        (handle_begin_write no_junk (store_one "f".toList "hi".toList (some "old".toList))
          ws_zero (some "f".toList) true 0 true).1
        (apply_all
          (handle_begin_write no_junk (store_one "f".toList "hi".toList (some "old".toList))
            ws_zero (some "f".toList) true 0 true).2.1
          [(some 0, some "bye".toList)])
        io_ok).1.undo "f".toList = some "hi".toList :=
  end_write_undo_snapshot no_junk no_junk
    (store_one "f".toList "hi".toList (some "old".toList)) ws_zero
    "f".toList true 0 true [(some 0, some "bye".toList)]
    (handle_begin_write no_junk (store_one "f".toList "hi".toList (some "old".toList)) ws_zero
      (some "f".toList) true 0 true).1
    io_ok
    (by
      intro buf h
      have hb : buf = "hi".toList := by
        simp [store_one] at h
        exact h.symm
      rw [hb]
      decide)
    (by decide) (by decide)

end SS

/-! ## Tickets -/

namespace Tickets

theorem digit_char_facts (d : Nat) (h : d < 10) :
    isdigit (digit_char d) = true ∧ (digit_char d).toNat - 48 = d ∧
    digit_char d ≠ '|' ∧ SS.isspace (digit_char d) = false ∧
    digit_char d ≠ '-' ∧ digit_char d ≠ '+' := by
  interval_cases d <;> decide

/-- A string of decimal digits. -/
theorem dec_go_digits (fuel : Nat) :
    ∀ (n : Nat) (acc : List Char), ∃ ds : List Char,
      dec_go fuel n acc = ds ++ acc ∧ ds ≠ [] ∧ ∀ c ∈ ds, ∃ d, d < 10 ∧ c = digit_char d := by
  induction fuel with
  | zero =>
    intro n acc
    exact ⟨[digit_char (n % 10)], by simp [dec_go], by simp,
      by intro c hc; simp at hc; exact ⟨n % 10, Nat.mod_lt _ (by decide), hc⟩⟩
  | succ fuel ih =>
    intro n acc
    by_cases hn : n < 10
    · exact ⟨[digit_char n], by simp [dec_go, hn], by simp,
        by intro c hc; simp at hc; exact ⟨n, hn, hc⟩⟩
    · obtain ⟨ds, h1, h2, h3⟩ := ih (n / 10) (digit_char (n % 10) :: acc)
      refine ⟨ds ++ [digit_char (n % 10)], by simp [dec_go, hn, h1], by simp, ?_⟩
      intro c hc
      rcases List.mem_append.mp hc with hc | hc
      · exact h3 c hc
      · simp at hc; exact ⟨n % 10, Nat.mod_lt _ (by decide), hc⟩

theorem parse_digits_dec_go (fuel : Nat) :
    ∀ (n : Nat) (acc : List Char), n ≤ fuel →
      parse_digits (dec_go fuel n acc) 0 = parse_digits acc n := by
  induction fuel with
  | zero =>
    intro n acc hn
    have : n = 0 := by omega
    subst this
    have h := digit_char_facts 0 (by decide)
    simp [dec_go, parse_digits, h.1, h.2.1]
  | succ fuel ih =>
    intro n acc hn
    by_cases h10 : n < 10
    · have h := digit_char_facts n h10
      simp [dec_go, h10, parse_digits, h.1, h.2.1]
    · have h := digit_char_facts (n % 10) (Nat.mod_lt _ (by decide))
      have hle : n / 10 ≤ fuel := by omega
      rw [dec_go, if_neg h10, ih (n / 10) _ hle]
      simp only [parse_digits, h.1, if_true, h.2.1]
      congr 1
      omega

theorem parse_digits_fmt_unsigned (n : Nat) : parse_digits (fmt_unsigned n) 0 = n := by
  unfold fmt_unsigned
  rw [parse_digits_dec_go n n [] (le_refl n)]
  rfl

/-- What `%lu` prints is a digit followed by digits, none of them a `|`. -/
theorem fmt_unsigned_shape (n : Nat) :
    ∃ c r, fmt_unsigned n = c :: r ∧ SS.isspace c = false ∧ c ≠ '-' ∧ c ≠ '+' ∧
      '|' ∉ fmt_unsigned n := by
  obtain ⟨ds, h1, h2, h3⟩ := dec_go_digits n n []
  have hds : fmt_unsigned n = ds := by simp [fmt_unsigned, h1]
  have hbar : '|' ∉ ds := by
    intro hc
    obtain ⟨d, hd, he⟩ := h3 _ hc
    exact (digit_char_facts d hd).2.2.1 he.symm
  cases ds with
  | nil => exact absurd rfl h2
  | cons c r =>
    obtain ⟨d, hd, he⟩ := h3 c (by simp)
    have hf := digit_char_facts d hd
    refine ⟨c, r, hds, ?_, ?_, ?_, by rw [hds]; exact hbar⟩
    · rw [he]; exact hf.2.2.2.1
    · rw [he]; exact hf.2.2.2.2.1
    · rw [he]; exact hf.2.2.2.2.2

theorem strto_parts_fmt_unsigned (n : Nat) : strto_parts (fmt_unsigned n) = (false, n) := by
  obtain ⟨c, r, h, hs, hm, hp, _⟩ := fmt_unsigned_shape n
  have hp := parse_digits_fmt_unsigned n
  rw [h] at hp
  unfold strto_parts
  rw [h]
  simp [List.dropWhile, hs, hm, hp, *]

theorem strto_parts_fmt_signed_neg (v : Int) (hv : v < 0) :
    strto_parts (fmt_signed v) = (true, (-v).toNat) := by
  unfold strto_parts fmt_signed
  have hsp : SS.isspace '-' = false := by decide
  simp [hv, List.dropWhile, hsp, parse_digits_fmt_unsigned]

theorem strtol_fmt_signed (v : Int) (h : -(2 ^ 63 : Int) ≤ v ∧ v < 2 ^ 63) :
    strtol (fmt_signed v) = v := by
  unfold strtol
  by_cases hv : v < 0
  · rw [strto_parts_fmt_signed_neg v hv]
    have h1 : ¬ ((-v).toNat > 2 ^ 63) := by omega
    simp only [if_true, h1, if_false]
    omega
  · have hf : fmt_signed v = fmt_unsigned v.toNat := by simp [fmt_signed, hv]
    rw [hf, strto_parts_fmt_unsigned]
    have h1 : ¬ (v.toNat ≥ 2 ^ 63) := by omega
    simp only [Bool.false_eq_true, if_false, h1]
    omega

theorem atoi_fmt_signed (v : Int) (h : -(2 ^ 31 : Int) ≤ v ∧ v < 2 ^ 31) :
    atoi (fmt_signed v) = v := by
  unfold atoi
  rw [strtol_fmt_signed v (by omega)]
  omega

theorem strtoul_fmt_unsigned (n : Nat) (h : n < two64) : strtoul (fmt_unsigned n) = n := by
  unfold strtoul
  rw [strto_parts_fmt_unsigned]
  have h1 : ¬ (n ≥ two64) := by omega
  simp [h1]

theorem fmt_signed_shape (v : Int) : fmt_signed v ≠ [] ∧ '|' ∉ fmt_signed v := by
  obtain ⟨c, r, h, _, _, _, hb⟩ := fmt_unsigned_shape (-v).toNat
  obtain ⟨c2, r2, h2, _, _, _, hb2⟩ := fmt_unsigned_shape v.toNat
  unfold fmt_signed
  by_cases hv : v < 0
  · simp only [hv, if_true]
    refine ⟨by simp, ?_⟩
    intro hc
    rcases List.mem_cons.mp hc with hc | hc
    · exact absurd hc (by decide)
    · exact hb hc
  · simp only [hv, if_false]
    exact ⟨by rw [h2]; simp, hb2⟩

theorem strtok_go_run (w : List Char) :
    ∀ (cur rest : List Char), '|' ∉ w →
      strtok_go (w ++ rest) cur = strtok_go rest (cur ++ w) := by
  induction w with
  | nil => intro cur rest _; simp
  | cons c w ih =>
    intro cur rest h
    have hc : c ≠ '|' := fun e => h (by simp [e])
    have hw : '|' ∉ w := fun e => h (by simp [e])
    have := ih (cur ++ [c]) rest hw
    simp only [List.cons_append, strtok_go, hc, if_false]
    simpa using this

/-- A piece that is not empty and has no `|`, followed by a `|`, is the next result of
`strtok`. -/
theorem strtok_go_piece (w rest : List Char) (h1 : w ≠ []) (h2 : '|' ∉ w) :
    strtok_go (w ++ '|' :: rest) [] = w :: strtok_go rest [] := by
  rw [strtok_go_run w [] _ h2]
  simp [strtok_go, h1]

theorem strtok_go_last (w : List Char) (h1 : w ≠ []) (h2 : '|' ∉ w) :
    strtok_go w [] = [w] := by
  have := strtok_go_run w [] [] h2
  simp only [List.append_nil, List.nil_append] at this
  rw [this]
  simp [strtok_go, h1]

theorem checksum_lt (file op : List Char) (ssid exp : Int) : checksum file op ssid exp < two64 := by
  unfold checksum checksum_step
  exact Nat.mod_lt _ (by decide)

/-- C12, as stated, fails: for the file name `a|b`, `ticket_build` at time 1000 with a
time to live of 600 succeeds, and `ticket_validate` at the same time rejects the ticket:
`strtok` cuts the file name at its `|`. -/
theorem ticket_of_file_with_bar_rejected :
    ticket_build "a|b".toList "READ".toList 1 600 1000 256 =
      some "a|b|READ|1|1600|15756373865339376837".toList ∧
    ticket_validate "a|b|READ|1|1600|15756373865339376837".toList "a|b".toList "READ".toList
      1 1000 = -1 := by
  constructor <;> decide

/-- C12, amended: for every file name and op that are not empty and have no `|`, every
ssid in the range of `int` and expiry in the range of `long`, and a ticket buffer of at
most 512 bytes, when `ticket_build` succeeds at time `now` then `ticket_validate` on the
ticket, the file, the op and the ssid returns 0 at every time from `now` to
`now + ttl`. -/
theorem ticket_round_trip (file op : List Char) (ssid ttl now : Int) (out_sz : Nat)
    (t : List Char) (later : Int)
    (hfile : file ≠ [] ∧ '|' ∉ file) (hop : op ≠ [] ∧ '|' ∉ op)
    (hssid : -(2 ^ 31 : Int) ≤ ssid ∧ ssid < 2 ^ 31)
    (hexp : -(2 ^ 63 : Int) ≤ now + ttl ∧ now + ttl < 2 ^ 63)
    (hsz : out_sz ≤ 512)
    (hb : ticket_build file op ssid ttl now out_sz = some t)
    (ht : now ≤ later ∧ later ≤ now + ttl) :
    ticket_validate t file op ssid later = 0 := by
  unfold ticket_build at hb
  by_cases h16 : out_sz < 16
  · simp [h16] at hb
  · simp only [h16, if_false] at hb
    by_cases hl : (ticket_text file op ssid (now + ttl)).length > 0 ∧
        (ticket_text file op ssid (now + ttl)).length < out_sz
    · rw [if_pos hl] at hb
      have ht' : t = ticket_text file op ssid (now + ttl) := (Option.some.inj hb).symm
      have hlen : ¬ t.length ≥ 512 := by rw [ht']; omega
      have hs1 := fmt_signed_shape ssid
      have hs2 := fmt_signed_shape (now + ttl)
      obtain ⟨c, r, hcr, _, _, _, hbar⟩ :=
        fmt_unsigned_shape (checksum file op ssid (now + ttl))
      have hne : fmt_unsigned (checksum file op ssid (now + ttl)) ≠ [] := by rw [hcr]; simp
      have hp : strtok_pieces t =
          [file, op, fmt_signed ssid, fmt_signed (now + ttl),
            fmt_unsigned (checksum file op ssid (now + ttl))] := by
        rw [ht']
        unfold strtok_pieces ticket_text
        rw [strtok_go_piece file _ hfile.1 hfile.2, strtok_go_piece op _ hop.1 hop.2,
          strtok_go_piece _ _ hs1.1 hs1.2, strtok_go_piece _ _ hs2.1 hs2.2,
          strtok_go_last _ hne hbar]
      unfold ticket_validate
      rw [if_neg hlen, hp]
      simp only [atoi_fmt_signed ssid hssid, atol, strtol_fmt_signed (now + ttl) hexp,
        strtoul_fmt_unsigned _ (checksum_lt _ _ _ _)]
      have hgt : ¬ later > now + ttl := by omega
      simp [hgt]
    · rw [if_neg hl] at hb
      exact absurd hb (by simp)

/-- A concrete instance of `ticket_round_trip`: the ticket for READ on `f` at server 1,
built at time 1000 for 600 seconds, validated at time 1600. -/
theorem ticket_round_trip_witness :
    ticket_validate "f|READ|1|1600|6273512647193153516".toList "f".toList "READ".toList
      1 1600 = 0 :=
  ticket_round_trip "f".toList "READ".toList 1 600 1000 256
    "f|READ|1|1600|6273512647193153516".toList 1600
    (by decide) (by decide) (by decide) (by decide) (by decide) (by decide) (by decide)

/-- C13, as stated, fails: the ticket `f|READ|01|1600|6273512647193153516` is accepted
for the file `f`, the op READ and the server 1, and it is not the text `ticket_build`
emits for them with any expiry: that text has the ssid field `1`, this one `01`. -/
theorem ticket_with_other_text_accepted :
    ticket_validate "f|READ|01|1600|6273512647193153516".toList "f".toList "READ".toList
      1 1000 = 0 ∧
    ticket_text "f".toList "READ".toList 1 1600 =
      "f|READ|1|1600|6273512647193153516".toList ∧
    (∀ exp : Int, ticket_text "f".toList "READ".toList 1 exp ≠
      "f|READ|01|1600|6273512647193153516".toList) := by
  refine ⟨by decide, by decide, ?_⟩
  intro exp h
  have h1 : fmt_signed 1 = ['1'] := by decide
  have h2 := congrArg (fun l => l.drop 7 |>.head?) h
  simp [ticket_text, h1] at h2

/-- C13, amended: `ticket_validate` returns 0 or -1, and it returns 0 only for a ticket
of less than 512 characters whose first five pieces between `|` are the required file,
the required op, a piece that `atoi` reads as the expected ssid, a piece that `atol`
reads as an expiry not before `now`, and a piece that `strtoul` reads as the checksum
of that file, op, ssid and expiry; every other ticket, and every ticket with `now`
after its expiry, is rejected. -/
theorem ticket_validate_accepts_only (t file op : List Char) (ssid now : Int) :
    (ticket_validate t file op ssid now = 0 ∨ ticket_validate t file op ssid now = -1) ∧
    (ticket_validate t file op ssid now = 0 →
      t.length < 512 ∧ ∃ ssid_s exp_s sig_s rest,
        strtok_pieces t = file :: op :: ssid_s :: exp_s :: sig_s :: rest ∧
        atoi ssid_s = ssid ∧ now ≤ atol exp_s ∧
        strtoul sig_s = checksum file op ssid (atol exp_s)) ∧
    ((t.length < 512 ∧ ∃ ssid_s exp_s sig_s rest,
        strtok_pieces t = file :: op :: ssid_s :: exp_s :: sig_s :: rest ∧
        atoi ssid_s = ssid ∧ now ≤ atol exp_s ∧
        strtoul sig_s = checksum file op ssid (atol exp_s)) →
      ticket_validate t file op ssid now = 0) := by
  refine ⟨?_, ?_, ?_⟩
  · unfold ticket_validate
    split
    · exact Or.inr rfl
    · split
      · dsimp only
        split_ifs
        · exact Or.inr rfl
        · exact Or.inr rfl
        · exact Or.inr rfl
        · exact Or.inr rfl
        · exact Or.inr rfl
        · exact Or.inl rfl
      · exact Or.inr rfl
  · intro h
    unfold ticket_validate at h
    split at h
    · exact absurd h (by decide)
    · rename_i hlen
      split at h
      · rename_i f o ssid_s exp_s sig_s rest hp
        dsimp only at h
        split_ifs at h with h1 h2 h3 h4 h5
        · have e1 : f = file := not_not.mp h1
          have e2 : o = op := not_not.mp h2
          have e3 : atoi ssid_s = ssid := not_not.mp h3
          have e5 : checksum f o (atoi ssid_s) (atol exp_s) = strtoul sig_s := not_not.mp h5
          subst e1 e2 e3
          exact ⟨by omega, ssid_s, exp_s, sig_s, rest, hp, rfl, by omega, e5.symm⟩
      · exact absurd h (by decide)
  · rintro ⟨hlen, ssid_s, exp_s, sig_s, rest, hp, h3, h4, h5⟩
    have hlen' : ¬ t.length ≥ 512 := by omega
    have h4' : ¬ now > atol exp_s := by omega
    unfold ticket_validate
    rw [if_neg hlen', hp]
    simp [h3, h4', h5]

end Tickets


/-! ## UNDO -/

namespace SS

/-- C11: for a request that reaches the store (file name and ticket that fit, ticket
accepted): when the file has an undo snapshot `u` (within what `read_file_into` reads)
and the system calls succeed, UNDO is answered OK, sets the content of the file to `u`
and removes the snapshot, and an UNDO right after it is answered ERR_NOTFOUND; when the
file has no undo snapshot, UNDO is answered ERR_NOTFOUND and leaves the store, so the
content of the file, as it was. -/
theorem undo_single_step (st : ss_store) (file ticket : List Char) (io io2 : undo_io)
    (hfile : file.length < 128) (hticket : ticket.length < 256) :
    (∀ u : List Char, st.undo file = some u → u.length ≤ 10 * 1024 * 1024 →
      io.tmp_open_ok = true → io.rename_ok = true →
      (handle_undo st (some file) (some ticket) true io).2 = ⟨ss_status.OK, none⟩ ∧
      (handle_undo st (some file) (some ticket) true io).1.files file = some u ∧
      (handle_undo st (some file) (some ticket) true io).1.undo file = none ∧
      (handle_undo (handle_undo st (some file) (some ticket) true io).1
        (some file) (some ticket) true io2).2 = ⟨ss_status.ERR_NOTFOUND, none⟩) ∧
    (st.undo file = none →
      handle_undo st (some file) (some ticket) true io = (st, ⟨ss_status.ERR_NOTFOUND, none⟩)) := by
  have hg1 := get_string_field_fits file 128 hfile
  have hg2 := get_string_field_fits ticket 256 hticket
  constructor
  · intro u hu hlen h1 h2
    have hrd : read_file_into st.undo file = some u := by
      unfold read_file_into
      rw [hu]
      have : ¬ u.length > 10 * 1024 * 1024 := by omega
      simp only [this, if_false]
    have hstep : handle_undo st (some file) (some ticket) true io =
        ({ st with files := fs_set (fs_set (fs_set st.files (file ++ ".udtmp".toList) (some u))
                      (file ++ ".udtmp".toList) none) file (some u),
                   undo := fs_set st.undo file none }, ⟨ss_status.OK, none⟩) := by
      unfold handle_undo
      simp only [hg1, hg2, hrd, h1, h2]
      simp
    rw [hstep]
    refine ⟨rfl, by simp [fs_set], by simp [fs_set], ?_⟩
    unfold handle_undo
    simp only [hg1, hg2]
    have hrd2 : read_file_into (fs_set st.undo file none) file = none := by
      simp [read_file_into, fs_set]
    simp [hrd2]
  · intro hu
    have hrd : read_file_into st.undo file = none := by
      unfold read_file_into
      rw [hu]
    unfold handle_undo
    simp only [hg1, hg2, hrd]
    simp

/-- A concrete instance of `undo_single_step`: scenario S5, the file `f` holds `bye`
and its snapshot `hi`; UNDO restores `hi`. -/
theorem undo_single_step_witness :
    (handle_undo (store_one "f".toList "bye".toList (some "hi".toList)) (some "f".toList)
      (some "t".toList) true { tmp_open_ok := true, rename_ok := true }).1.files "f".toList =
      some "hi".toList :=
  ((undo_single_step (store_one "f".toList "bye".toList (some "hi".toList)) "f".toList
    "t".toList { tmp_open_ok := true, rename_ok := true }
    { tmp_open_ok := true, rename_ok := true } (by decide) (by decide)).1
    "hi".toList (by decide) (by decide) (by decide) (by decide)).2.1

end SS

/-! ## The naming manager -/

namespace NM

/-- C15 on the failing input: `alice` creates `f`; ADDACCESS with the mode `W` for `bob`
is answered OK and stores the permission 2 (`ACL_W` alone); `nm_acl_check` then denies
`bob` each of the three ops that read, and allows WRITE.  The same for a grant of `W` to
`anonymous` and a user `carol` without a grant. -/
theorem addaccess_w_denies_read :
    alice_creates.2 = nm_status.OK ∧ bob_gets_w.2 = nm_status.OK ∧
    (find_acl bob_gets_w.1 "f".toList).map (fun e => e.grants) =
      some [⟨"alice".toList, 3⟩, ⟨"bob".toList, 2⟩] ∧
    nm_acl_check bob_gets_w.1 "f".toList "bob".toList "READ".toList = -1 ∧
    nm_acl_check bob_gets_w.1 "f".toList "bob".toList "VIEWCHECKPOINT".toList = -1 ∧
    nm_acl_check bob_gets_w.1 "f".toList "bob".toList "LISTCHECKPOINTS".toList = -1 ∧
    nm_acl_check bob_gets_w.1 "f".toList "bob".toList "WRITE".toList = 0 ∧
    nm_acl_check anonymous_gets_w.1 "f".toList "carol".toList "READ".toList = -1 ∧
    nm_acl_check anonymous_gets_w.1 "f".toList "carol".toList "WRITE".toList = 0 := by
  refine ⟨by decide, by decide, by decide, by decide, by decide, by decide, by decide,
    by decide, by decide⟩

set_option maxRecDepth 100000 in
/-- C16 on the failing input: `alice` owns `f`; `bob` has no grant and there is no
grant to `anonymous`, so `nm_acl_check` denies `bob` every op; LOOKUP by `bob` is
answered ERR_NOAUTH for READ and WRITE, and OK with a ticket for UNDO, REVERT,
CHECKPOINT, VIEWCHECKPOINT and LISTCHECKPOINTS. -/
theorem lookup_skips_acl_for_other_ops :
    nm_acl_check alice_creates.1.acl "f".toList "bob".toList "UNDO".toList = -1 ∧
    nm_acl_check alice_creates.1.acl "f".toList "bob".toList "VIEWCHECKPOINT".toList = -1 ∧
    (handle_lookup alice_creates.1 (some "READ".toList) (some "f".toList)
      (some "bob".toList) 105 ss_reply.ok).2 = ⟨nm_status.ERR_NOAUTH, none⟩ ∧
    (handle_lookup alice_creates.1 (some "WRITE".toList) (some "f".toList)
      (some "bob".toList) 105 ss_reply.ok).2 = ⟨nm_status.ERR_NOAUTH, none⟩ ∧
    (handle_lookup alice_creates.1 (some "UNDO".toList) (some "f".toList)
      (some "bob".toList) 105 ss_reply.ok).2 =
      ⟨nm_status.OK, some ("10.0.0.2".toList, 9102,
        "f|UNDO|2|705|8028665392024054120".toList)⟩ ∧
    (handle_lookup alice_creates.1 (some "REVERT".toList) (some "f".toList)
      (some "bob".toList) 105 ss_reply.ok).2.status = nm_status.OK ∧
    (handle_lookup alice_creates.1 (some "CHECKPOINT".toList) (some "f".toList)
      (some "bob".toList) 105 ss_reply.ok).2.status = nm_status.OK ∧
    (handle_lookup alice_creates.1 (some "VIEWCHECKPOINT".toList) (some "f".toList)
      (some "bob".toList) 105 ss_reply.ok).2.status = nm_status.OK ∧
    (handle_lookup alice_creates.1 (some "LISTCHECKPOINTS".toList) (some "f".toList)
      (some "bob".toList) 105 ss_reply.ok).2.status = nm_status.OK := by
  refine ⟨by decide, by decide, by decide, by decide, by decide, by decide, by decide,
    by decide, by decide⟩

/-- C17 on the failing input: with the servers 1 and 2 registered, CREATE of `f` maps
it to server 2 with the replica 1; MIGRATE of `f` to server 1 is answered OK and leaves
the primary 1 with the replica list `[1]`. -/
theorem migrate_to_replica_breaks_invariant :
    alice_creates.2 = nm_status.OK ∧
    dir_find alice_creates.1.dirs.dir "f".toList = some ⟨"f".toList, 2, [1]⟩ ∧
    alice_migrates.2 = nm_status.OK ∧
    dir_find alice_migrates.1.dirs.dir "f".toList = some ⟨"f".toList, 1, [1]⟩ := by
  refine ⟨by decide, by decide, by decide, by decide⟩

/-- C19 on the failing input: a heartbeat at the time 100 from a server 5 that never
registered creates an entry with the data port 0 that is not up; the scan of the
monitor at the time 101 marks it up. -/
theorem scan_marks_portless_entry_up :
    heartbeat_only =
      [⟨5, 0, 0, "10.0.0.5".toList, 100, false⟩] ∧
    (hb_scan heartbeat_only nm_empty.dirs 101).1 =
      [⟨5, 0, 0, "10.0.0.5".toList, 100, true⟩] ∧
    ss_up (hb_scan heartbeat_only nm_empty.dirs 101).1 5 = true := by
  refine ⟨by decide, by decide, by decide⟩

/-- C20 on the failing input: after two SS_REGISTER messages of server 1 the registry
has two entries with the ssId 1 (the one `find_ss_nolock` returns has the ports of the
second message).  With three files, two on server 1 and one on server 2, and server 1
registered a second time, `pick_least_loaded_ss` tallies nothing for the older entry of
server 1 and chooses server 1, which has more files than server 2. -/
theorem register_twice_duplicates :
    registered_twice =
      [⟨1, 9003, 9004, "10.0.0.1".toList, 200, true⟩,
       ⟨1, 9001, 9002, "10.0.0.1".toList, 100, true⟩] ∧
    (registered_twice.filter (fun e => decide (e.ss_id = 1))).length = 2 ∧
    (find_ss_nolock registered_twice 1).map (fun e => (e.ss_ctrl_port, e.ss_data_port)) =
      some (9003, 9004) ∧
    pick_least_loaded_ss restarted_server
      [⟨"a".toList, 1, []⟩, ⟨"b".toList, 1, []⟩, ⟨"c".toList, 2, []⟩] =
      some (1, 9002, "10.0.0.1".toList) := by
  refine ⟨by decide, by decide, by decide, by decide⟩

/-! ### The check of an ACL -/

/-- No grant of the user is found exactly when no grant of the list is the user's. -/
theorem find_user_none (l : List acl_user) (u : List Char) :
    l.find? (fun g => decide (g.user = u)) = none ↔ ∀ g ∈ l, g.user ≠ u := by
  simp [List.find?_eq_none]

/-- Among grants of distinct users, the grant found for a user is the user's grant. -/
theorem find_user_of_nodup (l : List acl_user) (u : List Char) (g : acl_user)
    (hn : (l.map acl_user.user).Nodup) (hg : g ∈ l) (hu : g.user = u) :
    l.find? (fun g => decide (g.user = u)) = some g := by
  induction l with
  | nil => cases hg
  | cons a t ih =>
    simp only [List.map_cons, List.nodup_cons] at hn
    rcases List.mem_cons.mp hg with rfl | hg'
    · simp [List.find?, hu]
    · have hne : a.user ≠ u := by
        intro h
        apply hn.1
        rw [h, ← hu]
        exact List.mem_map_of_mem _ hg'
      simp [List.find?, hne, ih hn.2 hg']

/-- A grant found for a user is in the list and is the user's. -/
theorem find_user_some (l : List acl_user) (u : List Char) (g : acl_user)
    (h : l.find? (fun g => decide (g.user = u)) = some g) : g ∈ l ∧ g.user = u := by
  refine ⟨List.mem_of_find?_eq_some h, ?_⟩
  have := List.find?_some h
  simpa using this

/-- The loop of `nm_acl_grant` keeps the users of the grants distinct. -/
theorem grant_set_nodup (l : List acl_user) (u : List Char) (p : Nat)
    (hn : (l.map acl_user.user).Nodup) :
    ((grant_set l u p).map acl_user.user).Nodup := by
  induction l with
  | nil => simp [grant_set]
  | cons a t ih =>
    simp only [List.map_cons, List.nodup_cons] at hn
    unfold grant_set
    by_cases h : a.user = u
    · rw [if_pos h]
      simp only [List.map_cons, List.nodup_cons]
      exact hn
    · rw [if_neg h]
      simp only [List.map_cons, List.nodup_cons]
      refine ⟨?_, ih hn.2⟩
      intro hmem
      have key : ∀ (t : List acl_user), a.user ∈ (grant_set t u p).map acl_user.user →
          a.user ∈ t.map acl_user.user := by
        intro t
        induction t with
        | nil =>
          intro hm
          simp [grant_set] at hm
          exact absurd hm h
        | cons b t iht =>
          intro hm
          unfold grant_set at hm
          by_cases hb : b.user = u
          · rw [if_pos hb] at hm
            simpa using hm
          · rw [if_neg hb] at hm
            simp only [List.map_cons, List.mem_cons] at hm ⊢
            rcases hm with hm | hm
            · exact Or.inl hm
            · exact Or.inr (iht hm)
      exact hn.1 (key t hmem)

/-- C14: when the grants of the entry of the file are of distinct users (as
`nm_acl_grant` keeps them), `nm_acl_check` answers 0 or -1, and 0 exactly when the file
has an entry and the user is its owner, or a grant of the user contains the permission
required, or no grant is the user's and a grant of `anonymous` contains it; the
permission required is `ACL_R` (1) for READ, VIEWCHECKPOINT and LISTCHECKPOINTS and
`ACL_W` (2) for every other op. -/
theorem acl_check_allows_exactly (st : acl_state) (file user op : List Char)
    (huniq : ∀ e, find_acl st file = some e → (e.grants.map acl_user.user).Nodup) :
    (nm_acl_check st file user op = 0 ∨ nm_acl_check st file user op = -1) ∧
    (nm_acl_check st file user op = 0 ↔
      ∃ e, find_acl st file = some e ∧
        (e.owner = some user ∨
         (∃ g ∈ e.grants, g.user = user ∧ g.perm &&& acl_need op = acl_need op) ∨
         ((∀ g ∈ e.grants, g.user ≠ user) ∧
           ∃ g ∈ e.grants, g.user = "anonymous".toList ∧
             g.perm &&& acl_need op = acl_need op))) ∧
    (op = "READ".toList ∨ op = "VIEWCHECKPOINT".toList ∨ op = "LISTCHECKPOINTS".toList →
      acl_need op = 1) ∧
    (¬ (op = "READ".toList ∨ op = "VIEWCHECKPOINT".toList ∨ op = "LISTCHECKPOINTS".toList) →
      acl_need op = 2) := by
  refine ⟨?_, ?_, fun h => by unfold acl_need; rw [if_pos h],
    fun h => by unfold acl_need; rw [if_neg h]⟩
  · unfold nm_acl_check
    split
    · exact Or.inr rfl
    · dsimp only
      split
      · exact Or.inl rfl
      · split
        · split
          · exact Or.inl rfl
          · exact Or.inr rfl
        · split
          · split
            · exact Or.inl rfl
            · exact Or.inr rfl
          · exact Or.inr rfl
  · unfold nm_acl_check
    rcases hfa : find_acl st file with _ | e
    · simp
    · have hn := huniq e hfa
      dsimp only
      by_cases ho : e.owner = some user
      · rw [if_pos ho]
        exact ⟨fun _ => ⟨e, rfl, Or.inl ho⟩, fun _ => rfl⟩
      · rw [if_neg ho]
        rcases hfu : e.grants.find? (fun g => decide (g.user = user)) with _ | g
        · have hnone := (find_user_none e.grants user).mp hfu
          simp only [hfu]
          rcases hfan : e.grants.find? (fun g => decide (g.user = "anonymous".toList))
            with _ | ga
          · have hnoa := (find_user_none e.grants "anonymous".toList).mp hfan
            simp only [hfan]
            constructor
            · intro h
              exact absurd h (by decide)
            · rintro ⟨e', he', h⟩
              cases he'
              rcases h with h | ⟨g, hg, hu, _⟩ | ⟨_, g, hg, hu, _⟩
              · exact absurd h ho
              · exact absurd hu (hnone g hg)
              · exact absurd hu (hnoa g hg)
          · obtain ⟨hga, hua⟩ := find_user_some e.grants "anonymous".toList ga hfan
            simp only [hfan]
            by_cases hp : ga.perm &&& acl_need op = acl_need op
            · rw [if_pos hp]
              exact ⟨fun _ => ⟨e, rfl, Or.inr (Or.inr ⟨hnone, ga, hga, hua, hp⟩)⟩,
                fun _ => rfl⟩
            · rw [if_neg hp]
              constructor
              · intro h
                exact absurd h (by decide)
              · rintro ⟨e', he', h⟩
                cases he'
                rcases h with h | ⟨g, hg, hu, _⟩ | ⟨_, g, hg, hu, hgp⟩
                · exact absurd h ho
                · exact absurd hu (hnone g hg)
                · have := find_user_of_nodup e.grants "anonymous".toList g hn hg hu
                  rw [hfan] at this
                  cases this
                  exact absurd hgp hp
        · obtain ⟨hgm, hgu⟩ := find_user_some e.grants user g hfu
          simp only [hfu]
          by_cases hp : g.perm &&& acl_need op = acl_need op
          · rw [if_pos hp]
            exact ⟨fun _ => ⟨e, rfl, Or.inr (Or.inl ⟨g, hgm, hgu, hp⟩)⟩, fun _ => rfl⟩
          · rw [if_neg hp]
            constructor
            · intro h
              exact absurd h (by decide)
            · rintro ⟨e', he', h⟩
              cases he'
              rcases h with h | ⟨g', hg', hu', hgp⟩ | ⟨hno, _⟩
              · exact absurd h ho
              · have := find_user_of_nodup e.grants user g' hn hg' hu'
                rw [hfu] at this
                cases this
                exact absurd hgp hp
              · exact absurd hgu (hno g hgm)

/-- C14 at a state: after CREATE of `f` by `alice` and ADDACCESS `W` for `bob`, the
grants of `f` are of distinct users, and the check of WRITE for `bob` is as stated. -/
theorem acl_check_allows_exactly_witness :
    (nm_acl_check bob_gets_w.1 "f".toList "bob".toList "WRITE".toList = 0 ↔
      ∃ e, find_acl bob_gets_w.1 "f".toList = some e ∧
        (e.owner = some "bob".toList ∨
         (∃ g ∈ e.grants, g.user = "bob".toList ∧
           g.perm &&& acl_need "WRITE".toList = acl_need "WRITE".toList) ∨
         ((∀ g ∈ e.grants, g.user ≠ "bob".toList) ∧
           ∃ g ∈ e.grants, g.user = "anonymous".toList ∧
             g.perm &&& acl_need "WRITE".toList = acl_need "WRITE".toList))) :=
  (acl_check_allows_exactly bob_gets_w.1 "f".toList "bob".toList "WRITE".toList
    (by
      intro e he
      have hfa : find_acl bob_gets_w.1 "f".toList =
          some ⟨"f".toList, some "alice".toList,
            [⟨"alice".toList, 3⟩, ⟨"bob".toList, 2⟩]⟩ := by decide
      rw [hfa] at he
      cases he
      decide)).2.1

/-! ### Failover promotion -/

/-- The assignment of a primary to another file leaves the entry of a file. -/
theorem dir_find_set_ss_id_other (d : directory) (g f : List Char) (v : Int) (h : g ≠ f) :
    dir_find (set_ss_id d g v) f = dir_find d f := by
  induction d with
  | nil => rfl
  | cons e t ih =>
    unfold set_ss_id
    by_cases he : e.file = g
    · rw [if_pos he]
      have hne : e.file ≠ f := fun h' => h (he.symm.trans h')
      simp [dir_find, List.find?_cons, hne]
    · rw [if_neg he]
      simp only [dir_find, List.find?_cons] at ih ⊢
      rw [ih]

/-- The assignment of replicas to another file leaves the entry of a file. -/
theorem dir_find_set_repl_other (d : directory) (g f : List Char) (r : List Int)
    (h : g ≠ f) : dir_find (set_repl d g r) f = dir_find d f := by
  induction d with
  | nil => rfl
  | cons e t ih =>
    unfold set_repl
    by_cases he : e.file = g
    · rw [if_pos he]
      have hne : e.file ≠ f := fun h' => h (he.symm.trans h')
      simp [dir_find, List.find?_cons, hne]
    · rw [if_neg he]
      simp only [dir_find, List.find?_cons] at ih ⊢
      rw [ih]

/-- The entry found for a file has the name of the file. -/
theorem dir_find_file (d : directory) (f : List Char) (e : dir_entry)
    (h : dir_find d f = some e) : e.file = f := by
  have := List.find?_some h
  simpa using this

/-- The assignment of a primary to a file changes the primary of its entry. -/
theorem dir_find_set_ss_id_same (d : directory) (f : List Char) (v : Int) (e : dir_entry)
    (h : dir_find d f = some e) :
    dir_find (set_ss_id d f v) f = some { e with ss_id := v } := by
  induction d with
  | nil => cases h
  | cons a t ih =>
    unfold set_ss_id
    by_cases ha : a.file = f
    · rw [if_pos ha]
      have hae : a = e := by
        simp only [dir_find, List.find?_cons, ha, decide_True] at h
        exact Option.some.inj h
      subst hae
      simp [dir_find, List.find?_cons, ha]
    · rw [if_neg ha]
      have ht : dir_find t f = some e := by
        simp only [dir_find, List.find?_cons, ha, decide_False] at h
        exact h
      have := ih ht
      simp only [dir_find, List.find?_cons, ha, decide_False] at this ⊢
      exact this

/-- The assignment of replicas to a file changes the replicas of its entry. -/
theorem dir_find_set_repl_same (d : directory) (f : List Char) (r : List Int)
    (e : dir_entry) (h : dir_find d f = some e) :
    dir_find (set_repl d f r) f = some { e with replicas := r } := by
  induction d with
  | nil => cases h
  | cons a t ih =>
    unfold set_repl
    by_cases ha : a.file = f
    · rw [if_pos ha]
      have hae : a = e := by
        simp only [dir_find, List.find?_cons, ha, decide_True] at h
        exact Option.some.inj h
      subst hae
      simp [dir_find, List.find?_cons, ha]
    · rw [if_neg ha]
      have ht : dir_find t f = some e := by
        simp only [dir_find, List.find?_cons, ha, decide_False] at h
        exact h
      have := ih ht
      simp only [dir_find, List.find?_cons, ha, decide_False] at this ⊢
      exact this

/-- What `nm_state_set_dir` does for another file leaves the entry of a file. -/
theorem dir_find_set_dir_other (d : directory) (g f : List Char) (v : Int) (h : g ≠ f) :
    dir_find (nm_state_set_dir d g v).2 f = dir_find d f := by
  unfold nm_state_set_dir
  split
  · rfl
  · split
    · split
      · rfl
      · exact dir_find_set_ss_id_other d g f v h
    · simp [dir_find, List.find?_append, h]

/-- What `nm_state_set_replicas` does for another file leaves the entry of a file. -/
theorem dir_find_set_replicas_other (d : directory) (g f : List Char) (r : List Int)
    (h : g ≠ f) : dir_find (nm_state_set_replicas d g r).2 f = dir_find d f := by
  unfold nm_state_set_replicas
  split
  · split
    · rfl
    · exact dir_find_set_repl_other d g f r h
  · rfl

/-- After `nm_state_set_dir` for a file with an entry, the entry has the primary. -/
theorem dir_find_set_dir_same (d : directory) (f : List Char) (p v : Int) (r : List Int)
    (hf : f ≠ []) (h : dir_find d f = some ⟨f, p, r⟩) :
    dir_find (nm_state_set_dir d f v).2 f = some ⟨f, v, r⟩ := by
  unfold nm_state_set_dir
  rw [if_neg hf, h]
  dsimp only
  by_cases hp : p = v
  · rw [if_pos hp, h, hp]
  · rw [if_neg hp]
    exact dir_find_set_ss_id_same d f v _ h

/-- After `nm_state_set_replicas` for a file with an entry, the entry has the replicas. -/
theorem dir_find_set_replicas_same (d : directory) (f : List Char) (p : Int)
    (r r2 : List Int) (h : dir_find d f = some ⟨f, p, r⟩) :
    dir_find (nm_state_set_replicas d f r2).2 f = some ⟨f, p, r2⟩ := by
  unfold nm_state_set_replicas
  rw [h]
  dsimp only
  by_cases hr : r = r2
  · rw [if_pos hr, h, hr]
  · rw [if_neg hr]
    exact dir_find_set_repl_same d f r2 _ h

/-- The assignment of a value to another key leaves what a chain holds for a key. -/
theorem chain_find_set_other (c : List (List Char × Int)) (g f : List Char) (v : Int)
    (h : g ≠ f) :
    (chain_set c g v).find? (fun n => decide (n.1 = f)) =
      c.find? (fun n => decide (n.1 = f)) := by
  induction c with
  | nil => rfl
  | cons n t ih =>
    unfold chain_set
    by_cases hn : n.1 = g
    · rw [if_pos hn]
      have hne : n.1 ≠ f := fun h' => h (hn.symm.trans h')
      simp [List.find?_cons, hne, h]
    · rw [if_neg hn]
      simp only [List.find?_cons]
      rw [ih]

/-- What `map_put` does for another key leaves the value of a key. -/
theorem map_get_put_other (m : dir_map) (g f : List Char) (v : Int) (h : g ≠ f) :
    map_get (map_put m g v) f = map_get m f := by
  unfold map_get map_put
  by_cases hb : hash_str f % 257 = hash_str g % 257
  · rw [if_pos hb]
    split
    · rw [chain_find_set_other _ g f v h]
    · simp [List.find?_cons, h]
  · rw [if_neg hb]

/-- What `nm_dir_set` does for another file leaves the entry and the value of a file. -/
theorem nm_dir_set_other (s : nm_dirs) (g f : List Char) (v : Int) (h : g ≠ f) :
    dir_find (nm_dir_set s g v).2.dir f = dir_find s.dir f ∧
    map_get (nm_dir_set s g v).2.g_buckets f = map_get s.g_buckets f := by
  unfold nm_dir_set
  split
  · split
    · exact ⟨rfl, rfl⟩
    · exact ⟨dir_find_set_dir_other s.dir g f v h, map_get_put_other _ g f v h⟩
  · exact ⟨dir_find_set_dir_other s.dir g f v h, map_get_put_other _ g f v h⟩

/-- The step of the scan for another file leaves the entry and the value of a file. -/
theorem promote_one_other (g1 : registry) (s : nm_dirs) (g f : List Char) (q : Int)
    (h : g ≠ f) :
    dir_find (promote_one g1 s g q).dir f = dir_find s.dir f ∧
    map_get (promote_one g1 s g q).g_buckets f = map_get s.g_buckets f := by
  unfold promote_one
  split
  · exact ⟨rfl, rfl⟩
  · dsimp only
    split
    · exact ⟨rfl, rfl⟩
    · dsimp only
      refine ⟨?_, (nm_dir_set_other s g f _ h).2⟩
      rw [dir_find_set_replicas_other _ g f _ h]
      exact (nm_dir_set_other s g f _ h).1

/-- The steps of the scan for other files leave the entry and the value of a file. -/
theorem foldl_promote_other (g1 : registry) (snap : List (List Char × Int))
    (f : List Char) :
    ∀ s : nm_dirs, (∀ x ∈ snap, x.1 ≠ f) →
      dir_find (snap.foldl (fun acc fp => promote_one g1 acc fp.1 fp.2) s).dir f =
        dir_find s.dir f ∧
      map_get (snap.foldl (fun acc fp => promote_one g1 acc fp.1 fp.2) s).g_buckets f =
        map_get s.g_buckets f := by
  induction snap with
  | nil => intro s _; exact ⟨rfl, rfl⟩
  | cons x t ih =>
    intro s h
    simp only [List.foldl_cons]
    have hx := promote_one_other g1 s x.1 f x.2 (h x (List.mem_cons_self _ _))
    have ht := ih (promote_one g1 s x.1 x.2) (fun y hy => h y (List.mem_cons_of_mem _ hy))
    exact ⟨ht.1.trans hx.1, ht.2.trans hx.2⟩

/-- The replicas left after a promotion are fewer than the replicas. -/
theorem filter_promoted_length (r : List Int) (c p : Int) (hc : c ∈ r) :
    (r.filter (fun x => !(decide (x = c) || decide (x = p)))).length < r.length := by
  induction r with
  | nil => cases hc
  | cons a t ih =>
    by_cases ha : a = c
    · have hle := List.length_filter_le (fun x => !(decide (x = c) || decide (x = p))) t
      simp only [List.filter_cons, ha, decide_True, Bool.true_or, Bool.not_true,
        List.length_cons]
      simp only [Bool.false_eq_true, if_false]
      omega
    · have hct : c ∈ t := by
        rcases List.mem_cons.mp hc with h | h
        · exact absurd h.symm ha
        · exact h
      have := ih hct
      simp only [List.filter_cons, List.length_cons]
      split
      · simp only [List.length_cons]
        omega
      · omega

/-- The step of the scan for a file whose primary is down and has a replica up. -/
theorem promote_one_same (g1 : registry) (s : nm_dirs) (f : List Char) (p c : Int)
    (r : List Int) (hf : f ≠ []) (hr : r.length ≤ 16)
    (hent : dir_find s.dir f = some ⟨f, p, r⟩)
    (hdown : ss_up g1 p = false)
    (hc : r.find? (fun x => ss_up g1 x) = some c)
    (hmap : map_get s.g_buckets f ≠ some c) :
    dir_find (promote_one g1 s f p).dir f =
      some ⟨f, c, p :: r.filter (fun x => !(decide (x = c) || decide (x = p)))⟩ := by
  have hrep : nm_state_get_replicas s.dir f 16 = r := by
    unfold nm_state_get_replicas
    rw [hent]
    exact List.take_of_length_le hr
  have hcr : c ∈ r := List.mem_of_find?_eq_some hc
  have hlen := filter_promoted_length r c p hcr
  have htake : (p :: r.filter (fun x => !(decide (x = c) || decide (x = p)))).take 16 =
      p :: r.filter (fun x => !(decide (x = c) || decide (x = p))) := by
    apply List.take_of_length_le
    simp only [List.length_cons]
    omega
  have h1 : dir_find (nm_dir_set s f c).2.dir f = some ⟨f, c, r⟩ := by
    unfold nm_dir_set
    split
    · rename_i old hold
      have hne : old ≠ c := fun h => hmap (by rw [hold, h])
      rw [if_neg hne]
      exact dir_find_set_dir_same s.dir f p c r hf hent
    · exact dir_find_set_dir_same s.dir f p c r hf hent
  unfold promote_one
  rw [hdown]
  simp only [Bool.false_eq_true, if_false]
  rw [hrep, hc]
  dsimp only
  rw [htake]
  exact dir_find_set_replicas_same _ f c r _ h1

/-- The step of the scan for a file none of whose replicas is up changes nothing. -/
theorem promote_one_none (g1 : registry) (s : nm_dirs) (f : List Char) (q : Int)
    (e : dir_entry) (hent : dir_find s.dir f = some e)
    (hnone : e.replicas.find? (fun x => ss_up g1 x) = none) :
    promote_one g1 s f q = s := by
  have hrep : (nm_state_get_replicas s.dir f 16).find? (fun x => ss_up g1 x) = none := by
    unfold nm_state_get_replicas
    rw [hent]
    dsimp only
    rw [List.find?_eq_none] at hnone ⊢
    intro x hx
    exact hnone x (List.mem_of_mem_take hx)
  unfold promote_one
  split
  · rfl
  · dsimp only
    rw [hrep]

/-- The steps of a scan keep the entry of a file none of whose replicas is up. -/
theorem foldl_promote_none (g1 : registry) (snap : List (List Char × Int))
    (f : List Char) (e : dir_entry)
    (hnone : e.replicas.find? (fun x => ss_up g1 x) = none) :
    ∀ s : nm_dirs, dir_find s.dir f = some e →
      dir_find (snap.foldl (fun acc fp => promote_one g1 acc fp.1 fp.2) s).dir f =
        some e := by
  induction snap with
  | nil => intro s h; exact h
  | cons x t ih =>
    intro s h
    simp only [List.foldl_cons]
    apply ih
    by_cases hx : x.1 = f
    · rw [hx, promote_one_none g1 s f x.2 e h hnone]
      exact h
    · rw [(promote_one_other g1 s x.1 f x.2 hx).1]
      exact h

/-- The steps of a scan over a snapshot of distinct names that has the file with its
primary, down, promote the first replica that is up. -/
theorem foldl_promote_same (g1 : registry) (snap : List (List Char × Int))
    (f : List Char) (p c : Int) (r : List Int) (hf : f ≠ []) (hr : r.length ≤ 16)
    (hdown : ss_up g1 p = false)
    (hc : r.find? (fun x => ss_up g1 x) = some c) :
    ∀ s : nm_dirs, (snap.map Prod.fst).Nodup → (f, p) ∈ snap →
      dir_find s.dir f = some ⟨f, p, r⟩ → map_get s.g_buckets f ≠ some c →
      dir_find (snap.foldl (fun acc fp => promote_one g1 acc fp.1 fp.2) s).dir f =
        some ⟨f, c, p :: r.filter (fun x => !(decide (x = c) || decide (x = p)))⟩ := by
  induction snap with
  | nil => intro s _ hmem; cases hmem
  | cons x t ih =>
    intro s hnd hmem hent hmap
    simp only [List.map_cons, List.nodup_cons] at hnd
    simp only [List.foldl_cons]
    rcases List.mem_cons.mp hmem with hx | hx
    · subst hx
      have hoth : ∀ y ∈ t, y.1 ≠ f := by
        intro y hy hyf
        have hm : y.1 ∈ t.map Prod.fst := List.mem_map_of_mem Prod.fst hy
        rw [hyf] at hm
        exact hnd.1 hm
      rw [(foldl_promote_other g1 t f _ hoth).1]
      exact promote_one_same g1 s f p c r hf hr hent hdown hc hmap
    · have hxf : x.1 ≠ f := by
        intro h
        apply hnd.1
        rw [h]
        exact List.mem_map_of_mem Prod.fst hx
      have ho := promote_one_other g1 s x.1 f x.2 hxf
      apply ih _ hnd.2 hx
      · rw [ho.1]
        exact hent
      · rw [ho.2]
        exact hmap

/-- The entry of a directory of distinct names is the entry found for its name. -/
theorem dir_find_of_nodup (d : directory) (e : dir_entry)
    (hn : (d.map dir_entry.file).Nodup) (he : e ∈ d) : dir_find d e.file = some e := by
  induction d with
  | nil => cases he
  | cons a t ih =>
    simp only [List.map_cons, List.nodup_cons] at hn
    rcases List.mem_cons.mp he with rfl | he'
    · simp [dir_find, List.find?_cons]
    · have hne : a.file ≠ e.file := by
        intro h
        apply hn.1
        rw [h]
        exact List.mem_map_of_mem _ he'
      have := ih hn.2 he'
      simp only [dir_find, List.find?_cons, hne, decide_False] at this ⊢
      exact this

/-- The snapshot of a directory whose names fit 128 bytes has the names in full. -/
theorem nm_state_get_dir_fit (d : directory) (n : Nat)
    (hfit : ∀ e ∈ d, e.file.length < 128) :
    nm_state_get_dir d n = (d.take n).map (fun e => (e.file, e.ss_id)) := by
  unfold nm_state_get_dir
  apply List.map_congr_left
  intro e he
  have := hfit e (List.mem_of_mem_take he)
  rw [List.take_of_length_le (by omega)]

/-- The steps of a scan over a snapshot all of whose primaries are up change nothing. -/
theorem foldl_promote_up (g1 : registry) (snap : List (List Char × Int)) :
    ∀ s : nm_dirs, (∀ x ∈ snap, ss_up g1 x.2 = true) →
      snap.foldl (fun acc fp => promote_one g1 acc fp.1 fp.2) s = s := by
  induction snap with
  | nil => intro s _; rfl
  | cons x t ih =>
    intro s h
    simp only [List.foldl_cons]
    have hx : promote_one g1 s x.1 x.2 = s := by
      unfold promote_one
      rw [if_pos (h x (List.mem_cons_self _ _))]
    rw [hx]
    exact ih s (fun y hy => h y (List.mem_cons_of_mem _ hy))

/-- C18 on a counterexample: the directory has 513 files, the last being `last` on
server 2 with the replica 1; at the time 101 server 2 is down and server 1 is up; the
scan, whose snapshot is of 512 entries, leaves the directory as it was, `last` with the
primary 2. -/
theorem scan_skips_entry_past_snapshot :
    dir_513[512]? = some ⟨"last".toList, 2, [1]⟩ ∧
    ss_up (hb_mark one_up_one_down 101) 2 = false ∧
    [(1 : Int)].find? (fun x => ss_up (hb_mark one_up_one_down 101) x) = some 1 ∧
    (hb_scan one_up_one_down dirs_513 101).2.dir = dir_513 ∧
    dir_find (hb_scan one_up_one_down dirs_513 101).2.dir "last".toList =
      some ⟨"last".toList, 2, [1]⟩ := by
  have hlen : ((List.range 512).map (fun i =>
      ({ file := Tickets.fmt_unsigned i, ss_id := 1, replicas := [] } : dir_entry))).length
      = 512 := by simp
  have hscan : (hb_scan one_up_one_down dirs_513 101).2 = dirs_513 := by
    unfold hb_scan
    dsimp only
    apply foldl_promote_up
    intro x hx
    have hx1 : x.2 = 1 := by
      unfold nm_state_get_dir dirs_513 dir_513 at hx
      rw [List.take_left' hlen] at hx
      simp only [List.map_map, List.mem_map, List.mem_range, Function.comp] at hx
      obtain ⟨i, _, hi⟩ := hx
      rw [← hi]
    rw [hx1]
    decide
  have hlast : dir_513[512]? = some ⟨"last".toList, 2, [1]⟩ := by
    unfold dir_513
    rw [List.getElem?_append_right (by rw [hlen])]
    rw [hlen]
    rfl
  have hfind : dir_find dir_513 "last".toList = some ⟨"last".toList, 2, [1]⟩ := by
    unfold dir_513 dir_find
    rw [List.find?_append]
    have hnone : List.find? (fun e => decide (e.file = "last".toList))
        ((List.range 512).map (fun i =>
          ({ file := Tickets.fmt_unsigned i, ss_id := 1, replicas := [] } : dir_entry)))
        = none := by
      rw [List.find?_eq_none]
      intro e he
      simp only [List.mem_map, List.mem_range] at he
      obtain ⟨i, _, hi⟩ := he
      rw [← hi]
      obtain ⟨ds, h1, _, h3⟩ := Tickets.dec_go_digits i i []
      simp only [decide_eq_true_eq]
      intro h
      unfold Tickets.fmt_unsigned at h
      rw [h1, List.append_nil] at h
      rw [h] at h3
      obtain ⟨d, hd, he⟩ := h3 'l' (by decide)
      interval_cases d <;> exact absurd he (by decide)
    rw [hnone]
    rfl
  refine ⟨hlast, by decide, by decide, ?_, ?_⟩
  · rw [hscan]
    rfl
  · rw [hscan]
    exact hfind

/-- C18 (amended): in a directory of distinct names that fit 128 bytes, for the entry
of a file `f` among the first 512 with the primary `p`, down after the marking of the
scan, and 16 replicas `r` at most: when `c` is the first replica of `r` that is up and
the map of nm_dir.c does not have `c` for `f`, the entry of `f` after one scan has the
primary `c` and the replicas `p` followed by the elements of `r` other than `c` and `p`
in their order; when no replica of `r` is up, the entry is unchanged. -/
theorem hb_scan_promotes (g : registry) (s : nm_dirs) (now : Int) (i : Nat)
    (f : List Char) (p : Int) (r : List Int)
    (hnames : (s.dir.map dir_entry.file).Nodup)
    (hfit : ∀ e ∈ s.dir, e.file.length < 128)
    (hi : i < 512) (hent : s.dir[i]? = some ⟨f, p, r⟩)
    (hf : f ≠ []) (hr : r.length ≤ 16)
    (hdown : ss_up (hb_mark g now) p = false) :
    (∀ c, r.find? (fun x => ss_up (hb_mark g now) x) = some c →
      map_get s.g_buckets f ≠ some c →
      dir_find (hb_scan g s now).2.dir f =
        some ⟨f, c, p :: r.filter (fun x => !(decide (x = c) || decide (x = p)))⟩) ∧
    (r.find? (fun x => ss_up (hb_mark g now) x) = none →
      dir_find (hb_scan g s now).2.dir f = some ⟨f, p, r⟩) := by
  have hmemt : (⟨f, p, r⟩ : dir_entry) ∈ s.dir.take 512 := by
    have hti : (s.dir.take 512)[i]? = some ⟨f, p, r⟩ := by
      rw [List.getElem?_take_of_lt hi]
      exact hent
    exact List.getElem?_mem hti
  have hmem : (⟨f, p, r⟩ : dir_entry) ∈ s.dir := List.mem_of_mem_take hmemt
  have hfind : dir_find s.dir f = some ⟨f, p, r⟩ :=
    dir_find_of_nodup s.dir ⟨f, p, r⟩ hnames hmem
  unfold hb_scan
  dsimp only
  rw [nm_state_get_dir_fit _ _ hfit]
  constructor
  · intro c hc hmap
    apply foldl_promote_same (hb_mark g now) _ f p c r hf hr hdown hc s ?_ ?_ hfind hmap
    · rw [List.map_map]
      have hcomp : (Prod.fst ∘ fun e : dir_entry => (e.file, e.ss_id)) = dir_entry.file :=
        rfl
      rw [hcomp, List.map_take]
      exact hnames.sublist (List.take_sublist _ _)
    · exact List.mem_map.mpr ⟨⟨f, p, r⟩, hmemt, rfl⟩
  · intro hnone
    exact foldl_promote_none (hb_mark g now) _ f ⟨f, p, r⟩ hnone s hfind

/-- C18 at a state: the file `f` is on server 2, down at the time 101, with the replica
1, up; after the scan `f` is on server 1 with the replica 2. -/
theorem hb_scan_promotes_witness :
    ss_up (hb_mark one_up_one_down 101) 2 = false ∧
    dir_find (hb_scan one_up_one_down dirs_one_file 101).2.dir "f".toList =
      some ⟨"f".toList, 1, [2]⟩ :=
  ⟨by decide,
   (hb_scan_promotes one_up_one_down dirs_one_file 101 0 "f".toList 2 [1]
      (by decide) (by decide) (by decide) (by decide) (by decide) (by decide)
      (by decide)).1 1 (by decide) (by decide)⟩

end NM

/-! ## The tokenizer and APPLY: failures, tokens and sentences -/

namespace SS

/-- C27: `ss_tokens_replace_or_append` returns 0 or -1; whenever it returns -1 the
document is as it was; it returns -1 for a sentence index out of range, for a negative
word index and for a content without tokens; and an APPLY that is not answered OK
leaves the whole session, its document included, as it was. -/
theorem apply_failure_leaves_document (doc : ss_doc_tokens) (sidx widx : Int)
    (new_word : List Char) (ws : conn_write_session) (w : Option Int)
    (content : Option (List Char)) :
    ((ss_tokens_replace_or_append doc sidx widx new_word).1 = 0 ∨
      (ss_tokens_replace_or_append doc sidx widx new_word).1 = -1) ∧
    ((ss_tokens_replace_or_append doc sidx widx new_word).1 = -1 →
      (ss_tokens_replace_or_append doc sidx widx new_word).2 = doc) ∧
    (sidx < 0 ∨ sidx ≥ doc.length →
      ss_tokens_replace_or_append doc sidx widx new_word = (-1, doc)) ∧
    (widx < 0 → ss_tokens_replace_or_append doc sidx widx new_word = (-1, doc)) ∧
    (split_tokens new_word = [] →
      ss_tokens_replace_or_append doc sidx widx new_word = (-1, doc)) ∧
    ((handle_apply ws w content).2.status ≠ ss_status.OK →
      (handle_apply ws w content).1 = ws) := by
  have hcode : ∀ (d : ss_doc_tokens) (s i : Int) (nw : List Char),
      ((ss_tokens_replace_or_append d s i nw).1 = 0 ∨
        (ss_tokens_replace_or_append d s i nw).1 = -1) ∧
      ((ss_tokens_replace_or_append d s i nw).1 = -1 →
        (ss_tokens_replace_or_append d s i nw).2 = d) := by
    intro d s i nw
    unfold ss_tokens_replace_or_append
    dsimp only
    split_ifs <;> simp
  refine ⟨(hcode doc sidx widx new_word).1, (hcode doc sidx widx new_word).2, ?_, ?_, ?_, ?_⟩
  · intro h
    unfold ss_tokens_replace_or_append
    rw [if_pos h]
  · intro h
    unfold ss_tokens_replace_or_append
    dsimp only
    split_ifs <;> rfl
  · intro h
    unfold ss_tokens_replace_or_append
    dsimp only
    have h0 : (split_tokens new_word).length = 0 := by rw [h]; rfl
    split_ifs <;> rfl
  · intro h
    unfold handle_apply at h ⊢
    by_cases hact : ws.active = true
    · simp only [hact, Bool.not_true, Bool.false_eq_true, if_false] at h ⊢
      rcases w with _ | wi
      · rfl
      · rcases hg : get_string_field content 512 with _ | ct
        · rfl
        · simp only [hg] at h ⊢
          rcases (hcode ws.doc ws.sentence_idx wi ct).1 with h0 | h1
          · simp [h0] at h
          · have hne : (ss_tokens_replace_or_append ws.doc ws.sentence_idx wi ct).1 ≠ 0 := by
              rw [h1]; decide
            rw [if_pos hne, (hcode ws.doc ws.sentence_idx wi ct).2 h1]
            cases ws
            simp only at hact
            simp [hact]
    · simp only [hact, Bool.not_false, if_true]

/-- The loop of the tokenizer makes no empty token, when it reads no junk. -/
theorem tok_loop_nonempty (p : List Char) :
    ∀ (done : ss_doc_tokens) (cur : List (List Char)) (tok : List Char),
      (∀ s ∈ done, ∀ t ∈ s, t ≠ []) → (∀ t ∈ cur, t ≠ []) →
      ∀ s ∈ tok_loop no_junk p done cur tok, ∀ t ∈ s, t ≠ [] := by
  induction p with
  | nil =>
    intro done cur tok hd hc s hs t ht
    unfold tok_loop at hs
    rcases List.mem_append.mp hs with h | h
    · exact hd s h t ht
    · simp only [List.mem_singleton] at h
      subst h
      by_cases htok : tok = []
      · rw [if_pos htok] at ht
        exact hc t ht
      · rw [if_neg htok] at ht
        rcases List.mem_append.mp ht with h' | h'
        · exact hc t h'
        · simp only [List.mem_singleton] at h'
          rw [h']
          exact htok
  | cons c p ih =>
    intro done cur tok hd hc
    have hsnoc : ∀ (s0 : List (List Char)), (∀ t ∈ s0, t ≠ []) →
        ∀ s ∈ done ++ [s0], ∀ t ∈ s, t ≠ [] := by
      intro s0 h0 s hs t ht
      rcases List.mem_append.mp hs with h | h
      · exact hd s h t ht
      · simp only [List.mem_singleton] at h
        subst h
        exact h0 t ht
    have hpush : ∀ (l : List (List Char)) (w : List Char), (∀ t ∈ l, t ≠ []) → w ≠ [] →
        ∀ t ∈ l ++ [w], t ≠ [] := by
      intro l w hl hw t ht
      rcases List.mem_append.mp ht with h | h
      · exact hl t h
      · simp only [List.mem_singleton] at h
        rw [h]
        exact hw
    unfold tok_loop
    simp only [fresh_words_no_junk]
    split_ifs with h1 h2 h3 h4 h5
    · exact ih done cur [] hd hc
    · exact ih done (cur ++ [tok]) [] hd (hpush cur tok hc h2)
    · exact ih _ [] [] (hsnoc _ (hpush cur (tok ++ [c]) hc (by simp))) (by simp)
    · refine ih _ [] [] (hsnoc _ (hpush cur.dropLast _ ?_ (by simp))) (by simp)
      intro t ht
      exact hc t (List.mem_of_mem_dropLast ht)
    · exact ih _ [] [] (hsnoc _ (by simp)) (by simp)
    · exact ih done cur (tok ++ [c]) hd hc

/-- The tokens of an APPLY content are not empty. -/
theorem split_go_nonempty (p : List Char) :
    ∀ (cur : List Char), ∀ t ∈ split_go p cur, t ≠ [] := by
  induction p with
  | nil =>
    intro cur t ht
    unfold split_go at ht
    by_cases hc : cur = []
    · rw [if_pos hc] at ht
      cases ht
    · rw [if_neg hc] at ht
      simp only [List.mem_singleton] at ht
      rw [ht]
      exact hc
  | cons c p ih =>
    intro cur t ht
    unfold split_go at ht
    split_ifs at ht with h1 h2
    · exact ih [] t ht
    · rcases List.mem_cons.mp ht with h | h
      · rw [h]
        exact h2
      · exact ih [] t h
    · exact ih _ t ht

/-- C28, as stated, fails: the text `.` has the tokens `[[.], []]`, none of them empty,
and APPLY of `x` at word 1 of sentence 0 succeeds and leaves the empty token in front of
`x.`: the delimiter, which was the whole of the last token, moved to the new token. -/
theorem apply_after_lone_delimiter_empties_token :
    ss_tokenize no_junk ".".toList = [[".".toList], []] ∧
    ss_tokens_replace_or_append [[".".toList], []] 0 1 "x".toList =
      (0, [[[], "x.".toList], []]) ∧
    ss_tokens_compose [[[], "x.".toList], []] = " x. ".toList := by
  refine ⟨by decide, by decide, by decide⟩

/-- C28, amended: every token of `ss_tokenize x` is non-empty, for a text `x` with fewer
than eight sentence delimiters, whatever the memory holds; and a successful
`ss_tokens_replace_or_append` on a document whose tokens are all non-empty gives a
document whose tokens are all non-empty, provided that an append (word index equal to
the word count) to a sentence whose last token is one delimiter character alone comes
with a content that is one delimiter character alone. -/
theorem tokens_non_empty (junk : junk_words) (x : List Char) (doc : ss_doc_tokens)
    (sidx widx : Int) (new_word : List Char)
    (hx : x.countP (fun c => is_sentence_end c) < 8)
    (hdoc : ∀ s ∈ doc, ∀ t ∈ s, t ≠ [])
    (hok : (ss_tokens_replace_or_append doc sidx widx new_word).1 = 0)
    (hedge : ∀ d, (doc.getD sidx.toNat []).getLastD [] = [d] → is_sentence_end d = true →
      widx = (doc.getD sidx.toNat []).length →
      new_word.length = 1 ∧ is_sentence_end (new_word.headD ' ') = true) :
    (∀ s ∈ ss_tokenize junk x, ∀ t ∈ s, t ≠ []) ∧
    (∀ s ∈ (ss_tokens_replace_or_append doc sidx widx new_word).2, ∀ t ∈ s, t ≠ []) := by
  refine ⟨by
    rw [tokenize_few_delimiters junk x hx]
    exact tok_loop_nonempty x [] [] [] (by simp) (by simp), ?_⟩
  have hrow : ∀ t ∈ doc.getD sidx.toNat [], t ≠ [] := by
    intro t ht
    rw [List.getD_eq_getElem?_getD] at ht
    rcases hget : doc[sidx.toNat]? with _ | r
    · rw [hget] at ht
      cases ht
    · rw [hget] at ht
      exact hdoc r (List.getElem?_mem hget) t ht
  have hins : ∀ t ∈ split_tokens new_word, t ≠ [] := split_go_nonempty new_word []
  have hset : ∀ (row2 : List (List Char)), (∀ t ∈ row2, t ≠ []) →
      ∀ s ∈ doc.set sidx.toNat row2, ∀ t ∈ s, t ≠ [] := by
    intro row2 h2 s hs t ht
    rcases List.mem_or_eq_of_mem_set hs with h | h
    · exact hdoc s h t ht
    · rw [h] at ht
      exact h2 t ht
  have hsingle : ∀ c, is_sentence_end c = true → new_word = [c] →
      (split_tokens new_word).length = 1 := by
    intro c hc hn
    rw [hn, split_tokens_single c (sentence_end_not_blank c hc)]
    rfl
  revert hok hedge hrow hsingle
  unfold ss_tokens_replace_or_append
  generalize doc.getD sidx.toNat [] = row
  generalize split_tokens new_word = ins at hins
  intro hok hedge hrow hsingle
  dsimp only at hok ⊢
  by_cases h1 : sidx < 0 ∨ sidx ≥ doc.length
  · rw [if_pos h1] at hok
    simp at hok
  rw [if_neg h1] at hok ⊢
  by_cases h2 : widx < 0
  · rw [if_pos h2] at hok
    simp at hok
  rw [if_neg h2] at hok ⊢
  by_cases h3 : ins.length = 0
  · rw [if_pos h3] at hok
    simp at hok
  rw [if_neg h3] at hok ⊢
  by_cases h4 : widx ≥ row.length ∧ ins.length = 1 ∧ new_word.length = 1 ∧
      is_sentence_end (new_word.headD ' ') = true ∧ row.length > 0
  · rw [if_pos h4]
    apply hset
    intro t ht
    rcases List.mem_append.mp ht with h | h
    · exact hrow t (List.mem_of_mem_dropLast h)
    · simp only [List.mem_singleton] at h
      rw [h]
      simp
  rw [if_neg h4] at hok ⊢
  by_cases h5 : widx > row.length
  · rw [if_pos h5] at hok
    simp at hok
  rw [if_neg h5]
  apply hset
  have hinsert : ∀ (r1 i1 : List (List Char)), (∀ t ∈ r1, t ≠ []) → (∀ t ∈ i1, t ≠ []) →
      ∀ t ∈ r1.take widx.toNat ++ i1 ++ r1.drop widx.toNat, t ≠ [] := by
    intro r1 i1 hr hi t ht
    rcases List.mem_append.mp ht with h | h
    · rcases List.mem_append.mp h with h' | h'
      · exact hr t (List.mem_of_mem_take h')
      · exact hi t h'
    · exact hr t (List.mem_of_mem_drop h)
  by_cases h6 : (decide (widx = row.length) && decide (row.length > 0) &&
      decide (row.getLastD [] ≠ []) && is_sentence_end ((row.getLastD []).getLastD ' ')) = true
  · rw [if_pos h6, if_pos h6]
    simp only [Bool.and_eq_true, decide_eq_true_eq] at h6
    obtain ⟨⟨⟨hw, hwc⟩, hlast⟩, hdel⟩ := h6
    apply hinsert
    · intro t ht
      rcases List.mem_append.mp ht with h | h
      · exact hrow t (List.mem_of_mem_dropLast h)
      · simp only [List.mem_singleton] at h
        rw [h]
        intro hemp
        have hone : row.getLastD [] = [(row.getLastD []).getLastD ' '] := by
          rcases hl : row.getLastD [] with _ | ⟨a, l⟩
          · exact absurd hl hlast
          · rw [hl] at hemp
            cases l with
            | nil => rfl
            | cons b l => simp [List.dropLast] at hemp
        have hl1 := hedge _ hone hdel hw
        have hnw : new_word = [new_word.headD ' '] := by
          rcases hq : new_word with _ | ⟨a, l⟩
          · rw [hq] at hl1
            simp at hl1
          · rw [hq] at hl1
            cases l with
            | nil => rfl
            | cons b l => simp at hl1
        exact h4 ⟨by omega, hsingle _ hl1.2 hnw, hl1.1, hl1.2, hwc⟩
    · intro t ht
      rcases List.mem_append.mp ht with h | h
      · exact hins t (List.mem_of_mem_dropLast h)
      · simp only [List.mem_singleton] at h
        rw [h]
        simp
  · rw [if_neg h6, if_neg h6]
    exact hinsert row ins hrow hins

/-- A concrete instance of `tokens_non_empty`: the text `a. b` with a memory that holds
an empty word for every sentence, and `b` appended to the sentence `a.`. -/
theorem tokens_non_empty_witness :
    ss_tokenize (fun _ => [[]]) "a. b".toList = [["a.".toList], ["b".toList]] ∧
    ss_tokens_replace_or_append [["a.".toList]] 0 1 "b".toList =
      (0, [["a".toList, "b.".toList]]) ∧
    ((∀ s ∈ ss_tokenize (fun _ => [[]]) "a. b".toList, ∀ t ∈ s, t ≠ []) ∧
      (∀ s ∈ (ss_tokens_replace_or_append [["a.".toList]] 0 1 "b".toList).2,
        ∀ t ∈ s, t ≠ [])) :=
  ⟨by decide, by decide,
   tokens_non_empty (fun _ => [[]]) "a. b".toList [["a.".toList]] 0 1 "b".toList
    (by decide) (by decide) (by decide) (by intro d h; simp at h)⟩

/-- A whitespace character is not a sentence delimiter. -/
theorem isspace_not_sentence_end (c : Char) (h : isspace c = true) :
    is_sentence_end c = false :=
  space_not_delimiter c h

/-- The last token of a sentence without delimiters has no delimiter. -/
theorem getLastD_no_delimiter (cur : List (List Char)) (h : ∀ t ∈ cur, no_delimiter t) :
    no_delimiter (cur.getLastD []) := by
  rcases List.eq_nil_or_concat cur with rfl | ⟨l, a, rfl⟩
  · intro c hc
    cases hc
  · rw [List.concat_eq_append] at h ⊢
    rw [getLastD_concat]
    exact h a (by simp)

/-- The sentences of the loop of the tokenizer when it reads no junk: one more than the
delimiters read, each but the last closed by its delimiter, the last without a
delimiter. -/
theorem tok_loop_sentences (p : List Char) :
    ∀ (done : ss_doc_tokens) (cur : List (List Char)) (tok : List Char),
      (∀ s ∈ done, closed_sentence s) → (∀ t ∈ cur, no_delimiter t) → no_delimiter tok →
      ∃ (body : ss_doc_tokens) (last : List (List Char)),
        tok_loop no_junk p done cur tok = body ++ [last] ∧
        body.length = done.length + p.countP (fun c => is_sentence_end c) ∧
        (∀ s ∈ body, closed_sentence s) ∧ (∀ t ∈ last, no_delimiter t) := by
  induction p with
  | nil =>
    intro done cur tok hd hc ht
    refine ⟨done, if tok = [] then cur else cur ++ [tok], rfl, by simp, hd, ?_⟩
    intro t hmem
    by_cases h : tok = []
    · rw [if_pos h] at hmem
      exact hc t hmem
    · rw [if_neg h] at hmem
      rcases List.mem_append.mp hmem with h' | h'
      · exact hc t h'
      · simp only [List.mem_singleton] at h'
        rw [h']
        exact ht
  | cons c p ih =>
    intro done cur tok hd hc ht
    have hnil : no_delimiter [] := by intro a ha; cases ha
    have hpush : ∀ (w : List Char), no_delimiter w → ∀ t ∈ cur ++ [w], no_delimiter t := by
      intro w hw t hmem
      rcases List.mem_append.mp hmem with h | h
      · exact hc t h
      · simp only [List.mem_singleton] at h
        rw [h]
        exact hw
    have hclose : ∀ (s0 : List (List Char)), closed_sentence s0 →
        ∀ s ∈ done ++ [s0], closed_sentence s := by
      intro s0 h0 s hs
      rcases List.mem_append.mp hs with h | h
      · exact hd s h
      · simp only [List.mem_singleton] at h
        rw [h]
        exact h0
    unfold tok_loop
    simp only [fresh_words_no_junk]
    by_cases h1 : isspace c = true
    · have hse := isspace_not_sentence_end c h1
      rw [if_pos h1]
      have hcount : (c :: p).countP (fun c => is_sentence_end c) =
          p.countP (fun c => is_sentence_end c) := by
        rw [List.countP_cons_of_neg]
        simp [hse]
      rw [hcount]
      by_cases h2 : tok = []
      · rw [if_pos h2]
        exact ih done cur [] hd hc hnil
      · rw [if_neg h2]
        exact ih done (cur ++ [tok]) [] hd (hpush tok ht) hnil
    · rw [if_neg h1]
      by_cases h3 : is_sentence_end c = true
      · rw [if_pos h3]
        have hcount : (c :: p).countP (fun c => is_sentence_end c) =
            p.countP (fun c => is_sentence_end c) + 1 := by
          rw [List.countP_cons_of_pos]
          exact h3
        rw [hcount]
        have hstep : ∀ (s0 : List (List Char)), closed_sentence s0 →
            ∃ (body : ss_doc_tokens) (last : List (List Char)),
              tok_loop no_junk p (done ++ [s0]) [] [] = body ++ [last] ∧
              body.length = done.length + (p.countP (fun c => is_sentence_end c) + 1) ∧
              (∀ s ∈ body, closed_sentence s) ∧ (∀ t ∈ last, no_delimiter t) := by
          intro s0 h0
          obtain ⟨body, last, he, hl, hb, hla⟩ :=
            ih (done ++ [s0]) [] [] (hclose s0 h0) (by intro t h; cases h) hnil
          refine ⟨body, last, he, ?_, hb, hla⟩
          rw [hl, List.length_append]
          simp only [List.length_singleton]
          omega
        by_cases h4 : tok ≠ []
        · rw [if_pos h4]
          exact hstep _ ⟨cur, tok, c, rfl, h3, hc, ht⟩
        · rw [if_neg h4]
          by_cases h5 : cur ≠ []
          · rw [if_pos h5]
            refine hstep _ ⟨cur.dropLast, cur.getLastD [], c, rfl, h3, ?_,
              getLastD_no_delimiter cur hc⟩
            intro w hw
            exact hc w (List.mem_of_mem_dropLast hw)
          · rw [if_neg h5]
            exact hstep _ ⟨[], [], c, rfl, h3, (by intro w hw; cases hw), hnil⟩
      · rw [if_neg h3]
        have hse : is_sentence_end c = false := by
          cases h : is_sentence_end c
          · rfl
          · exact absurd h h3
        have hcount : (c :: p).countP (fun c => is_sentence_end c) =
            p.countP (fun c => is_sentence_end c) := by
          rw [List.countP_cons_of_neg]
          simp [hse]
        rw [hcount]
        refine ih done cur (tok ++ [c]) hd hc ?_
        intro a ha
        rcases List.mem_append.mp ha with h | h
        · exact ht a h
        · simp only [List.mem_singleton] at h
          rw [h]
          exact hse

/-- After whitespace alone the open sentence stays as it is. -/
theorem tok_loop_whitespace (junk : junk_words) (w : List Char)
    (hw : ∀ c ∈ w, isspace c = true) :
    ∀ (done : ss_doc_tokens) (cur : List (List Char)),
      tok_loop junk w done cur [] = done ++ [cur] := by
  induction w with
  | nil => intro done cur; rfl
  | cons c w ih =>
    intro done cur
    unfold tok_loop
    rw [if_pos (hw c (List.mem_cons_self _ _))]
    simp only [if_true]
    exact ih (fun a ha => hw a (List.mem_cons_of_mem _ ha)) done cur

/-- The loop of the tokenizer on a text in two parts. -/
theorem tok_loop_append (junk : junk_words) (y p : List Char) :
    ∀ (done : ss_doc_tokens) (cur : List (List Char)) (tok : List Char),
      ∃ (done1 : ss_doc_tokens) (cur1 : List (List Char)) (tok1 : List Char),
        tok_loop junk (y ++ p) done cur tok = tok_loop junk p done1 cur1 tok1 := by
  induction y with
  | nil => intro done cur tok; exact ⟨done, cur, tok, rfl⟩
  | cons c y ih =>
    intro done cur tok
    simp only [List.cons_append]
    rw [tok_loop]
    split_ifs
    all_goals exact ih _ _ _

/-- The number of sentences of the loop of the tokenizer, whatever the memory holds. -/
theorem tok_loop_length (junk : junk_words) (p : List Char) :
    ∀ (done : ss_doc_tokens) (cur : List (List Char)) (tok : List Char),
      (tok_loop junk p done cur tok).length =
        done.length + 1 + p.countP (fun c => is_sentence_end c) := by
  induction p with
  | nil => intro done cur tok; simp [tok_loop]
  | cons c p ih =>
    intro done cur tok
    by_cases he : is_sentence_end c = true
    · have hs : isspace c = false := by
        cases hsp : isspace c
        · rfl
        · rw [space_not_delimiter c hsp] at he
          exact absurd he (by decide)
      have hcount : (c :: p).countP (fun c => is_sentence_end c) =
          p.countP (fun c => is_sentence_end c) + 1 := by
        rw [List.countP_cons_of_pos]
        exact he
      rw [tok_loop, hcount]
      simp only [hs, he, Bool.false_eq_true, if_false, if_true]
      split_ifs
      all_goals rw [ih, List.length_append, List.length_singleton]; omega
    · have hcount : (c :: p).countP (fun c => is_sentence_end c) =
          p.countP (fun c => is_sentence_end c) := by
        rw [List.countP_cons_of_neg]
        exact he
      rw [tok_loop, hcount]
      simp only [he, Bool.false_eq_true, if_false]
      split_ifs
      all_goals exact ih _ _ _

/-- The sentence boundaries of `ss_tokenize x`, for a text `x` with fewer than eight
sentence delimiters and whatever the memory holds: one sentence more than `x` has
characters `.`, `!`, `?`; every sentence but the last is closed (not empty, its only
delimiter the last character of its last token); the last sentence has no delimiter,
and is empty when `x` ends with a delimiter and whitespace after it, if any. -/
theorem tokenize_sentence_boundaries (junk : junk_words) (x : List Char)
    (hx : x.countP (fun c => is_sentence_end c) < 8) :
    (ss_tokenize junk x).length = 1 + x.countP (fun c => is_sentence_end c) ∧
    ∃ (body : ss_doc_tokens) (last : List (List Char)),
      ss_tokenize junk x = body ++ [last] ∧
      (∀ s ∈ body, closed_sentence s) ∧ (∀ t ∈ last, no_delimiter t) ∧
      (∀ (y : List Char) (d : Char) (w : List Char), x = y ++ d :: w →
        is_sentence_end d = true → (∀ c ∈ w, isspace c = true) → last = []) := by
  rw [tokenize_few_delimiters junk x hx]
  obtain ⟨body, last, he, hl, hb, hla⟩ :=
    tok_loop_sentences x [] [] [] (by intro s h; cases h) (by intro t h; cases h)
      (by intro a ha; cases ha)
  unfold ss_tokenize
  refine ⟨?_, body, last, he, hb, hla, ?_⟩
  · rw [he, List.length_append, hl]
    simp only [List.length_nil, List.length_singleton]
    omega
  · intro y d w hx hd hw
    obtain ⟨done1, cur1, tok1, h1⟩ := tok_loop_append no_junk y (d :: w) [] [] []
    rw [hx, h1] at he
    have hns : isspace d = false := by
      cases h : isspace d
      · rfl
      · rw [isspace_not_sentence_end d h] at hd
        exact absurd hd (by decide)
    have h2 : ∃ done2 : ss_doc_tokens,
        tok_loop no_junk (d :: w) done1 cur1 tok1 = done2 ++ [[]] := by
      unfold tok_loop
      rw [hns, hd]
      simp only [Bool.false_eq_true, if_false, if_true, fresh_words_no_junk]
      split_ifs
      all_goals exact ⟨_, tok_loop_whitespace no_junk w hw _ _⟩
    obtain ⟨done2, h3⟩ := h2
    rw [h3] at he
    exact (List.cons.inj (List.append_inj_right' he rfl).symm).1

/-- C26 on the failing input: the text `a. b. c. d. e. f. g. h.` ends with its eighth
delimiter; the tokenizer returns its eight sentences and, as ninth and last sentence,
the words the count it finds in the memory gives: no word when the memory holds 0, one
word when it holds 1, where the claim says the last sentence is empty.  The number of
sentences is one more than that of the delimiters whatever the memory holds.  (With
fewer than eight delimiters the boundaries are as claimed:
`tokenize_sentence_boundaries`.) -/
theorem tokenize_ninth_sentence_unset :
    eight_delims.countP (fun c => is_sentence_end c) = 8 ∧
    (∀ junk : junk_words, ss_tokenize junk eight_delims = eight_sentences ++ [junk 8]) ∧
    ss_tokenize no_junk eight_delims = eight_sentences ++ [[]] ∧
    ss_tokenize junk_w eight_delims = eight_sentences ++ [["w".toList]] ∧
    (∀ (junk : junk_words) (x : List Char),
      (ss_tokenize junk x).length = 1 + x.countP (fun c => is_sentence_end c)) := by
  refine ⟨by decide, ?_, by decide, by decide, ?_⟩
  · intro junk
    rfl
  · intro junk x
    unfold ss_tokenize
    rw [tok_loop_length]
    simp only [List.length_nil]

/-! ## Connections, sessions and locks -/

/-- The source's `lock_release` removes the first node equal to the pair. -/
theorem lock_release_eq_erase (g_locks : lock_table) (file : List Char) (sidx : Int) :
    lock_release g_locks file sidx = g_locks.erase (file, sidx) := by
  induction g_locks with
  | nil => rfl
  | cons n rest ih =>
    unfold lock_release
    rw [List.erase_cons]
    by_cases h : n.2 = sidx ∧ n.1 = file
    · have hn : n = (file, sidx) := Prod.ext h.2 h.1
      rw [if_pos h]
      simp [hn]
    · have hn : ¬ n = (file, sidx) := by
        intro hn
        apply h
        rw [hn]
        exact ⟨rfl, rfl⟩
      rw [if_neg h, ih]
      simp [hn]

/-- In a table without duplicates, the locks left after a release are the others. -/
theorem mem_lock_release (g_locks : lock_table) (file : List Char) (sidx : Int)
    (n : List Char × Int) (h : g_locks.Nodup) :
    n ∈ lock_release g_locks file sidx ↔ n ≠ (file, sidx) ∧ n ∈ g_locks := by
  rw [lock_release_eq_erase]
  exact h.mem_erase_iff

/-- What BEGIN_WRITE does to the lock table and the session: nothing (an error answer);
or, from an inactive session, no lock and no session (the setup is aborted); or, from an
inactive session, a new lock that was not held, and an active session on it whose
sentence is one of its document. -/
theorem begin_write_cases (junk : junk_words) (st : ss_store) (ws : conn_write_session)
    (file : Option (List Char)) (ticket_ok : Bool) (sidx : Int) (create_ok : Bool) :
    ((handle_begin_write junk st ws file ticket_ok sidx create_ok).1.locks = st.locks ∧
      (handle_begin_write junk st ws file ticket_ok sidx create_ok).2.1 = ws) ∨
    (ws.active = false ∧
      (handle_begin_write junk st ws file ticket_ok sidx create_ok).1.locks = st.locks ∧
      (handle_begin_write junk st ws file ticket_ok sidx create_ok).2.1.active = false) ∨
    (ws.active = false ∧ ∃ f : List Char, (f, sidx) ∉ st.locks ∧
      (handle_begin_write junk st ws file ticket_ok sidx create_ok).1.locks =
        (f, sidx) :: st.locks ∧
      (handle_begin_write junk st ws file ticket_ok sidx create_ok).2.1.active = true ∧
      (handle_begin_write junk st ws file ticket_ok sidx create_ok).2.1.file = f ∧
      (handle_begin_write junk st ws file ticket_ok sidx create_ok).2.1.sentence_idx = sidx ∧
      0 ≤ sidx ∧
      sidx < (handle_begin_write junk st ws file ticket_ok sidx create_ok).2.1.doc.length) := by
  unfold handle_begin_write
  rcases hg : get_string_field file 128 with _ | f
  · exact Or.inl ⟨rfl, rfl⟩
  · have hlen : f.length < 128 := by
      unfold get_string_field at hg
      rcases file with _ | v
      · cases hg
      · simp only at hg
        split_ifs at hg with hv
        cases hg
        omega
    have htake : f.take 127 = f := take_of_fits f hlen
    dsimp only
    by_cases ht : ticket_ok = true
    swap
    · simp only [ht, Bool.not_false, if_true]
      exact Or.inl (by constructor <;> first | rfl | trivial)
    simp only [ht, Bool.not_true, Bool.false_eq_true, if_false]
    by_cases ha : ws.active = true
    · rw [if_pos ha]
      exact Or.inl ⟨rfl, rfl⟩
    rw [if_neg ha]
    have ha' : ws.active = false := by
      cases h : ws.active
      · rfl
      · exact absurd h ha
    by_cases hmem : (f, sidx) ∈ st.locks
    · rw [lock_acquire_held st.locks f sidx hmem]
      simp only [ne_eq, Int.reduceNeg, neg_eq_zero, one_ne_zero, not_false_eq_true, if_true]
      exact Or.inl (by constructor <;> first | rfl | trivial)
    rw [lock_acquire_free st.locks f sidx hmem, htake]
    simp only [ne_eq, not_true_eq_false, if_false]
    have hrel : lock_release ((f, sidx) :: st.locks) f sidx = st.locks := by
      unfold lock_release
      simp
    right
    rcases hr : read_file_into st.files f with _ | content
    · dsimp only
      by_cases h1 : sidx < 0 ∨ sidx ≥ 1
      · rw [if_pos h1]
        exact Or.inl ⟨ha', hrel, rfl⟩
      · rw [if_neg h1]
        refine Or.inr ⟨ha', f, hmem, rfl, rfl, rfl, rfl, by omega, ?_⟩
        simp only [List.length_singleton]
        omega
    · dsimp only
      by_cases h1 : sidx < 0 ∨
          sidx > (if (ss_tokenize junk (c_str content)).length = 0 ∧ sidx = 0 then [[]]
            else ss_tokenize junk (c_str content)).length
      · rw [if_pos h1]
        exact Or.inl ⟨ha', hrel, rfl⟩
      · rw [if_neg h1]
        by_cases h2 : sidx = (if (ss_tokenize junk (c_str content)).length = 0 ∧ sidx = 0 then [[]]
            else ss_tokenize junk (c_str content)).length
        · rw [if_pos h2]
          refine Or.inr ⟨ha', f, hmem, rfl, rfl, rfl, rfl, by omega, ?_⟩
          simp only [List.length_append, List.length_singleton]
          omega
        · rw [if_neg h2]
          refine Or.inr ⟨ha', f, hmem, rfl, rfl, rfl, rfl, by omega, ?_⟩
          dsimp only
          omega

/-- What END_WRITE does to the lock table and the session: without an active session
nothing, answered ERR_BADREQ; with one, the lock of the session is released and the
session is zeroed, whatever the outcome of the commit, answered OK or ERR_INTERNAL. -/
theorem end_write_cases (junk : junk_words) (st : ss_store) (ws : conn_write_session) (io : end_write_io) :
    (ws.active = false →
      handle_end_write junk st ws io = (st, ws, ⟨ss_status.ERR_BADREQ, none⟩)) ∧
    (ws.active = true →
      (handle_end_write junk st ws io).1.locks =
        lock_release st.locks ws.file ws.sentence_idx ∧
      (handle_end_write junk st ws io).2.1 = ws_zero ∧
      ((handle_end_write junk st ws io).2.2.status = ss_status.OK ∨
        (handle_end_write junk st ws io).2.2.status = ss_status.ERR_INTERNAL)) := by
  constructor
  · intro h
    unfold handle_end_write
    simp [h]
  · intro h
    unfold handle_end_write
    simp only [h, Bool.not_true, Bool.false_eq_true, if_false]
    rcases merge_on_commit junk st.files ws with _ | new_text
    · simp
    · dsimp only
      by_cases h1 : io.tmp_open_ok = true
      · by_cases h2 : io.rename_ok = true
        · simp [h1, h2]
        · simp [h1, h2]
      · simp [h1]

/-- An APPLY keeps the number of sentences of the document of the session. -/
theorem handle_apply_doc_length (ws : conn_write_session) (widx : Option Int)
    (content : Option (List Char)) :
    (handle_apply ws widx content).1.doc.length = ws.doc.length := by
  have hlen : ∀ (d : ss_doc_tokens) (s i : Int) (nw : List Char),
      (ss_tokens_replace_or_append d s i nw).2.length = d.length := by
    intro d s i nw
    unfold ss_tokens_replace_or_append
    dsimp only
    split_ifs <;> simp
  unfold handle_apply
  split_ifs
  · rfl
  · split
    · dsimp only
      split_ifs <;> exact hlen _ _ _ _
    · rfl

/-- The invariant does not see a step that keeps the locks and, of every session,
whether it is active and, when it is, its file, its sentence and the number of
sentences of its document. -/
theorem conn_inv_congr (s t : ss_system) (h : conn_inv s)
    (hl : t.store.locks = s.store.locks)
    (ha : ∀ k, (t.conns k).active = (s.conns k).active)
    (hv : ∀ k, (s.conns k).active = true →
      (t.conns k).file = (s.conns k).file ∧
      (t.conns k).sentence_idx = (s.conns k).sentence_idx ∧
      (t.conns k).doc.length = (s.conns k).doc.length) :
    conn_inv t := by
  obtain ⟨hnd, hown, hheld, huniq, hidx⟩ := h
  refine ⟨by rw [hl]; exact hnd, ?_, ?_, ?_, ?_⟩
  · intro n hn
    rw [hl] at hn
    obtain ⟨c, hc, hp⟩ := hown n hn
    refine ⟨c, by rw [ha c]; exact hc, ?_⟩
    rw [(hv c hc).1, (hv c hc).2.1]
    exact hp
  · intro c hc
    rw [ha c] at hc
    rw [hl, (hv c hc).1, (hv c hc).2.1]
    exact hheld c hc
  · intro c k hc hk hp
    rw [ha c] at hc
    rw [ha k] at hk
    rw [(hv c hc).1, (hv c hc).2.1, (hv k hk).1, (hv k hk).2.1] at hp
    exact huniq c k hc hk hp
  · intro c hc
    rw [ha c] at hc
    rw [(hv c hc).2.1, (hv c hc).2.2]
    exact hidx c hc

/-- The invariant after a connection without a session acquired a lock that was free
and began a session on it. -/
theorem conn_inv_acquire (s t : ss_system) (c : Nat) (f : List Char) (i : Int)
    (h : conn_inv s) (hc : (s.conns c).active = false) (hfree : (f, i) ∉ s.store.locks)
    (hl : t.store.locks = (f, i) :: s.store.locks)
    (hk : ∀ k, k ≠ c → t.conns k = s.conns k)
    (hw : (t.conns c).active = true ∧ (t.conns c).file = f ∧ (t.conns c).sentence_idx = i ∧
      0 ≤ i ∧ i < (t.conns c).doc.length) :
    conn_inv t := by
  obtain ⟨hnd, hown, hheld, huniq, hidx⟩ := h
  have hne : ∀ k, (s.conns k).active = true → k ≠ c := by
    intro k hka hkc
    rw [hkc, hc] at hka
    exact absurd hka (by decide)
  refine ⟨?_, ?_, ?_, ?_, ?_⟩
  · rw [hl]
    exact List.nodup_cons.mpr ⟨hfree, hnd⟩
  · intro n hn
    rw [hl] at hn
    rcases List.mem_cons.mp hn with h1 | h1
    · exact ⟨c, hw.1, by rw [hw.2.1, hw.2.2.1, h1]⟩
    · obtain ⟨k, hka, hp⟩ := hown n h1
      refine ⟨k, ?_, ?_⟩
      · rw [hk k (hne k hka)]
        exact hka
      · rw [hk k (hne k hka)]
        exact hp
  · intro k hka
    rw [hl]
    by_cases hkc : k = c
    · rw [hkc, hw.2.1, hw.2.2.1]
      exact List.mem_cons_self _ _
    · rw [hk k hkc] at hka ⊢
      exact List.mem_cons_of_mem _ (hheld k hka)
  · intro a b haa hba hp
    by_cases hac : a = c
    · by_cases hbc : b = c
      · rw [hac, hbc]
      · exfalso
        rw [hk b hbc] at hba hp
        rw [hac, hw.2.1, hw.2.2.1] at hp
        apply hfree
        rw [hp]
        exact hheld b hba
    · by_cases hbc : b = c
      · exfalso
        rw [hk a hac] at haa hp
        rw [hbc, hw.2.1, hw.2.2.1] at hp
        apply hfree
        rw [← hp]
        exact hheld a haa
      · rw [hk a hac] at haa hp
        rw [hk b hbc] at hba hp
        exact huniq a b haa hba hp
  · intro k hka
    by_cases hkc : k = c
    · rw [hkc, hw.2.2.1]
      exact hw.2.2.2
    · rw [hk k hkc] at hka ⊢
      exact hidx k hka

/-- The invariant after a connection with a session released its lock and ended its
session; its pair is no longer in the lock table. -/
theorem conn_inv_release (s t : ss_system) (c : Nat)
    (h : conn_inv s) (hc : (s.conns c).active = true)
    (hl : t.store.locks =
      lock_release s.store.locks (s.conns c).file (s.conns c).sentence_idx)
    (hk : ∀ k, k ≠ c → t.conns k = s.conns k)
    (hw : (t.conns c).active = false) :
    conn_inv t ∧ ((s.conns c).file, (s.conns c).sentence_idx) ∉ t.store.locks := by
  obtain ⟨hnd, hown, hheld, huniq, hidx⟩ := h
  have hmem := mem_lock_release s.store.locks (s.conns c).file (s.conns c).sentence_idx
  have hne : ∀ k, (t.conns k).active = true → k ≠ c := by
    intro k hka hkc
    rw [hkc, hw] at hka
    exact absurd hka (by decide)
  refine ⟨⟨?_, ?_, ?_, ?_, ?_⟩, ?_⟩
  · rw [hl]
    exact hnd.sublist (lock_release_sublist _ _ _)
  · intro n hn
    rw [hl] at hn
    obtain ⟨hn1, hn2⟩ := (hmem n hnd).mp hn
    obtain ⟨k, hka, hp⟩ := hown n hn2
    have hkc : k ≠ c := by
      intro hkc
      rw [hkc] at hp
      exact hn1 hp.symm
    exact ⟨k, by rw [hk k hkc]; exact hka, by rw [hk k hkc]; exact hp⟩
  · intro k hka
    have hkc := hne k hka
    rw [hk k hkc] at hka ⊢
    rw [hl]
    refine (hmem _ hnd).mpr ⟨?_, hheld k hka⟩
    intro hp
    exact hkc (huniq k c hka hc hp)
  · intro a b haa hba hp
    have hac := hne a haa
    have hbc := hne b hba
    rw [hk a hac] at haa hp
    rw [hk b hbc] at hba hp
    exact huniq a b haa hba hp
  · intro k hka
    have hkc := hne k hka
    rw [hk k hkc] at hka ⊢
    exact hidx k hka
  · rw [hl]
    intro hin
    exact ((hmem _ hnd).mp hin).1 rfl

/-- The session of the connection that was replaced. -/
theorem set_conn_same (conns : Nat → conn_write_session) (c : Nat) (w : conn_write_session) :
    set_conn conns c w c = w := by
  unfold set_conn
  rw [if_pos rfl]

/-- The session of another connection. -/
theorem set_conn_other (conns : Nat → conn_write_session) (c k : Nat)
    (w : conn_write_session) (h : k ≠ c) : set_conn conns c w k = conns k := by
  unfold set_conn
  rw [if_neg h]

/-- The invariant does not see the replacement of a session by one that is as active,
and, when active, on the same file and sentence with as many sentences. -/
theorem conn_inv_set_conn (s : ss_system) (store : ss_store) (c : Nat)
    (w : conn_write_session) (h : conn_inv s) (hl : store.locks = s.store.locks)
    (ha : w.active = (s.conns c).active)
    (hv : (s.conns c).active = true → w.file = (s.conns c).file ∧
      w.sentence_idx = (s.conns c).sentence_idx ∧ w.doc.length = (s.conns c).doc.length) :
    conn_inv { store := store, conns := set_conn s.conns c w } := by
  apply conn_inv_congr s _ h hl
  · intro k
    by_cases hk : k = c
    · rw [hk]
      show (set_conn s.conns c w c).active = _
      rw [set_conn_same]
      exact ha
    · show (set_conn s.conns c w k).active = _
      rw [set_conn_other _ _ _ _ hk]
  · intro k hka
    by_cases hk : k = c
    · rw [hk] at hka ⊢
      show (set_conn s.conns c w c).file = _ ∧ (set_conn s.conns c w c).sentence_idx = _ ∧
        (set_conn s.conns c w c).doc.length = _
      rw [set_conn_same]
      exact hv hka
    · show (set_conn s.conns c w k).file = _ ∧ (set_conn s.conns c w k).sentence_idx = _ ∧
        (set_conn s.conns c w k).doc.length = _
      rw [set_conn_other _ _ _ _ hk]
      exact ⟨rfl, rfl, rfl⟩

/-- Every event keeps the invariant. -/
theorem conn_step_inv (s : ss_system) (e : conn_event) (h : conn_inv s) :
    conn_inv (conn_step s e) := by
  cases e with
  | begin_write c file ticket_ok sidx create_ok junk =>
    unfold conn_step
    dsimp only
    rcases begin_write_cases junk s.store (s.conns c) file ticket_ok sidx create_ok with
      ⟨hl, hw⟩ | ⟨ha, hl, hw⟩ | ⟨ha, f, hfree, hl, hw1, hw2, hw3, hw4, hw5⟩
    · apply conn_inv_set_conn s _ c _ h hl
      · rw [hw]
      · intro _
        rw [hw]
        exact ⟨rfl, rfl, rfl⟩
    · apply conn_inv_set_conn s _ c _ h hl
      · rw [hw, ha]
      · intro hc
        rw [ha] at hc
        exact absurd hc (by decide)
    · apply conn_inv_acquire s _ c f sidx h ha hfree hl
      · intro k hk
        exact set_conn_other _ _ _ _ hk
      · show (set_conn s.conns c _ c).active = true ∧ (set_conn s.conns c _ c).file = f ∧
          (set_conn s.conns c _ c).sentence_idx = sidx ∧ 0 ≤ sidx ∧
          sidx < (set_conn s.conns c _ c).doc.length
        rw [set_conn_same]
        exact ⟨hw1, hw2, hw3, hw4, hw5⟩
  | apply c widx content =>
    unfold conn_step
    have hf := handle_apply_frame (s.conns c) widx content
    apply conn_inv_set_conn s _ c _ h rfl hf.1
    intro _
    exact ⟨hf.2.1, hf.2.2.1, handle_apply_doc_length _ _ _⟩
  | end_write c io junk =>
    unfold conn_step
    dsimp only
    by_cases hc : (s.conns c).active = true
    · obtain ⟨hl, hw, _⟩ := (end_write_cases junk s.store (s.conns c) io).2 hc
      refine (conn_inv_release s _ c h hc hl ?_ ?_).1
      · intro k hk
        exact set_conn_other _ _ _ _ hk
      · show (set_conn s.conns c _ c).active = false
        rw [set_conn_same, hw]
        rfl
    · have hc' : (s.conns c).active = false := by
        cases hq : (s.conns c).active
        · rfl
        · exact absurd hq hc
      rw [(end_write_cases junk s.store (s.conns c) io).1 hc']
      exact conn_inv_set_conn s _ c _ h rfl rfl (fun _ => ⟨rfl, rfl, rfl⟩)
  | other c files undo =>
    unfold conn_step
    exact conn_inv_congr s _ h rfl (fun _ => rfl) (fun _ _ => ⟨rfl, rfl, rfl⟩)
  | close c =>
    unfold conn_step
    by_cases hc : (s.conns c).active = true
    · refine (conn_inv_release s _ c h hc ?_ ?_ ?_).1
      · show (conn_close s.store (s.conns c)).locks = _
        unfold conn_close
        rw [if_pos hc]
      · intro k hk
        exact set_conn_other _ _ _ _ hk
      · show (set_conn s.conns c ws_zero c).active = false
        rw [set_conn_same]
        rfl
    · have hc' : (s.conns c).active = false := by
        cases hq : (s.conns c).active
        · rfl
        · exact absurd hq hc
      apply conn_inv_set_conn s _ c _ h
      · unfold conn_close
        rw [if_neg hc]
      · rw [hc']
        rfl
      · intro hq
        exact absurd hq hc

/-- The invariant holds after every sequence of events. -/
theorem ss_run_inv (files undo : List Char → Option (List Char)) (evs : List conn_event) :
    conn_inv (ss_run files undo evs) := by
  have hstart : conn_inv (ss_start files undo) := by
    refine ⟨List.nodup_nil, ?_, ?_, ?_, ?_⟩
    · intro n hn
      cases hn
    · intro c hc
      exact absurd hc (Bool.false_ne_true)
    · intro c k hc
      exact absurd hc (Bool.false_ne_true)
    · intro c hc
      exact absurd hc (Bool.false_ne_true)
  have hfold : ∀ (l : List conn_event) (s : ss_system), conn_inv s →
      conn_inv (l.foldl conn_step s) := by
    intro l
    induction l with
    | nil => intro s hs; exact hs
    | cons e l ih =>
      intro s hs
      exact ih _ (conn_step_inv s e hs)
  exact hfold evs _ hstart

/-- C25: after every sequence of requests and connection ends, every lock of the table
is that of a connection whose session is active; and for a connection with an active
session, END_WRITE, whatever the results of its system calls and whatever the memory
holds for the tokenizer, is answered OK or ERR_INTERNAL and leaves the session inactive
and the pair of its file and sentence index out of the lock table. -/
theorem end_write_always_ends_session (files undo : List Char → Option (List Char))
    (evs : List conn_event) (c : Nat) (io : end_write_io) (junk : junk_words) :
    (∀ n ∈ (ss_run files undo evs).store.locks, ∃ k,
      ((ss_run files undo evs).conns k).active = true ∧
      (((ss_run files undo evs).conns k).file,
        ((ss_run files undo evs).conns k).sentence_idx) = n) ∧
    (((ss_run files undo evs).conns c).active = true →
      ((handle_end_write junk (ss_run files undo evs).store ((ss_run files undo evs).conns c)
          io).2.2.status = ss_status.OK ∨
        (handle_end_write junk (ss_run files undo evs).store ((ss_run files undo evs).conns c)
          io).2.2.status = ss_status.ERR_INTERNAL) ∧
      ((conn_step (ss_run files undo evs) (conn_event.end_write c io junk)).conns c).active =
        false ∧
      (((ss_run files undo evs).conns c).file,
        ((ss_run files undo evs).conns c).sentence_idx) ∉
        (conn_step (ss_run files undo evs) (conn_event.end_write c io junk)).store.locks) := by
  have hinv := ss_run_inv files undo evs
  refine ⟨hinv.2.1, ?_⟩
  intro hc
  obtain ⟨hl, hw, hst⟩ :=
    (end_write_cases junk (ss_run files undo evs).store ((ss_run files undo evs).conns c) io).2 hc
  have hact : ((conn_step (ss_run files undo evs) (conn_event.end_write c io junk)).conns c).active
      = false := by
    show (set_conn _ c _ c).active = false
    rw [set_conn_same, hw]
    rfl
  refine ⟨hst, hact, ?_⟩
  refine (conn_inv_release (ss_run files undo evs) _ c hinv hc ?_ ?_ hact).2
  · exact hl
  · intro k hk
    exact set_conn_other _ _ _ _ hk

/-- A sentence list grown with empty sentences has the sentences it had, and empty
sentences elsewhere. -/
theorem getD_append_replicate (l : ss_doc_tokens) (n j : Nat) :
    (l ++ List.replicate n []).getD j [] = l.getD j [] := by
  rw [List.getD_eq_getElem?_getD, List.getD_eq_getElem?_getD]
  by_cases h : j < l.length
  · rw [List.getElem?_append_left h]
  · rw [List.getElem?_append_right (Nat.le_of_not_lt h),
      List.getElem?_eq_none (Nat.le_of_not_lt h), List.getElem?_replicate]
    split_ifs <;> rfl

/-- The sentence put at an index of a sentence list. -/
theorem getD_set_same (l : ss_doc_tokens) (i : Nat) (a : List (List Char))
    (h : i < l.length) : (l.set i a).getD i [] = a := by
  rw [List.getD_eq_getElem?_getD, List.getElem?_set_self h]
  rfl

/-- The other sentences of a sentence list after one is put. -/
theorem getD_set_other (l : ss_doc_tokens) (i j : Nat) (a : List (List Char))
    (h : j ≠ i) : (l.set i a).getD j [] = l.getD j [] := by
  rw [List.getD_eq_getElem?_getD, List.getD_eq_getElem?_getD,
    List.getElem?_set_ne (Ne.symm h)]

/-- The merge of END_WRITE: after every sequence of requests, for a connection with
an active session whose file can be read, and whose temporary file can be opened and
renamed, END_WRITE is answered OK and commits `ss_tokens_compose` of a sentence list
`merged`: as long as the longer of the list `ss_tokenize` returns for the file read
again and the sentence index plus one; its sentence at the index of the session is that
of the document of the session, and every other sentence is that of the list
`ss_tokenize` returns at the same position (empty past its end). -/
theorem end_write_replaces_one_sentence (files undo : List Char → Option (List Char))
    (evs : List conn_event) (c : Nat) (io : end_write_io) (junk : junk_words)
    (cur : List Char)
    (hact : ((ss_run files undo evs).conns c).active = true)
    (hread : read_file_into (ss_run files undo evs).store.files
      ((ss_run files undo evs).conns c).file = some cur)
    (hio : io.tmp_open_ok = true ∧ io.rename_ok = true) :
    ∃ (i : Nat) (merged : ss_doc_tokens),
      ((ss_run files undo evs).conns c).sentence_idx = i ∧
      i < ((ss_run files undo evs).conns c).doc.length ∧
      merged.length = max (ss_tokenize junk (c_str cur)).length (i + 1) ∧
      merged.getD i [] = ((ss_run files undo evs).conns c).doc.getD i [] ∧
      (∀ j, j ≠ i → merged.getD j [] = (ss_tokenize junk (c_str cur)).getD j []) ∧
      (handle_end_write junk (ss_run files undo evs).store ((ss_run files undo evs).conns c)
        io).2.2 = ⟨ss_status.OK, none⟩ ∧
      (conn_step (ss_run files undo evs) (conn_event.end_write c io junk)).store.files
        ((ss_run files undo evs).conns c).file = some (ss_tokens_compose merged) := by
  obtain ⟨h0, h1⟩ := (ss_run_inv files undo evs).2.2.2.2 c hact
  generalize ss_run files undo evs = s at *
  generalize hws : s.conns c = ws at *
  have hi : ws.sentence_idx = (ws.sentence_idx.toNat : Int) := (Int.toNat_of_nonneg h0).symm
  have hilt : ws.sentence_idx.toNat < ws.doc.length := by omega
  have hmerge : merge_on_commit junk s.store.files ws =
      some (ss_tokens_compose
        ((if ws.sentence_idx ≥ (ss_tokenize junk (c_str cur)).length then
            ss_tokenize junk (c_str cur) ++
              List.replicate (ws.sentence_idx.toNat + 1 - (ss_tokenize junk (c_str cur)).length) []
          else ss_tokenize junk (c_str cur)).set ws.sentence_idx.toNat
          (ws.doc.getD ws.sentence_idx.toNat []))) := by
    unfold merge_on_commit
    rw [hread]
    dsimp only
    rw [if_neg (by omega), if_pos h1]
  refine ⟨ws.sentence_idx.toNat,
    (if ws.sentence_idx ≥ (ss_tokenize junk (c_str cur)).length then
        ss_tokenize junk (c_str cur) ++
          List.replicate (ws.sentence_idx.toNat + 1 - (ss_tokenize junk (c_str cur)).length) []
      else ss_tokenize junk (c_str cur)).set ws.sentence_idx.toNat
      (ws.doc.getD ws.sentence_idx.toNat []), hi, hilt, ?_, ?_, ?_, ?_, ?_⟩
  rotate_left 3
  · unfold handle_end_write
    rw [hmerge]
    simp [hact, hio.1, hio.2]
  · unfold conn_step
    dsimp only
    rw [hws]
    unfold handle_end_write
    rw [hmerge]
    simp only [hact, hio.1, hio.2, Bool.not_true, Bool.false_eq_true, if_false]
    simp only [fs_set, if_true]
  · rw [List.length_set]
    split_ifs with h
    · rw [List.length_append, List.length_replicate]
      omega
    · omega
  · apply getD_set_same
    split_ifs with h
    · rw [List.length_append, List.length_replicate]
      omega
    · omega
  · intro j hj
    rw [getD_set_other _ _ _ _ hj]
    split_ifs with h
    · exact getD_append_replicate _ _ _
    · rfl

/-- A concrete instance of `end_write_replaces_one_sentence`: scenario S2 on the file
`x world.`. -/
theorem end_write_replaces_one_sentence_witness :
    ∃ (i : Nat) (merged : ss_doc_tokens),
      ((ss_run (store_one "f".toList "x world.".toList none).files (fun _ => none)
        s2_events).conns 0).sentence_idx = i ∧
      i < ((ss_run (store_one "f".toList "x world.".toList none).files (fun _ => none)
        s2_events).conns 0).doc.length ∧
      merged.length = max (ss_tokenize no_junk (c_str "x world.".toList)).length (i + 1) ∧
      merged.getD i [] = ((ss_run (store_one "f".toList "x world.".toList none).files
        (fun _ => none) s2_events).conns 0).doc.getD i [] ∧
      (∀ j, j ≠ i → merged.getD j [] = (ss_tokenize no_junk (c_str "x world.".toList)).getD j []) ∧
      (handle_end_write no_junk
        (ss_run (store_one "f".toList "x world.".toList none).files (fun _ => none)
          s2_events).store
        ((ss_run (store_one "f".toList "x world.".toList none).files (fun _ => none)
          s2_events).conns 0) io_ok).2.2 = ⟨ss_status.OK, none⟩ ∧
      (conn_step (ss_run (store_one "f".toList "x world.".toList none).files (fun _ => none)
          s2_events) (conn_event.end_write 0 io_ok no_junk)).store.files
        ((ss_run (store_one "f".toList "x world.".toList none).files (fun _ => none)
          s2_events).conns 0).file = some (ss_tokens_compose merged) :=
  end_write_replaces_one_sentence (store_one "f".toList "x world.".toList none).files
    (fun _ => none) s2_events 0 io_ok no_junk "x world.".toList (by decide) (by decide)
    (by decide)

end SS

/-! ## The JSON helpers -/

namespace Proto

/-- A prefix of a text with a character in it is a prefix of the text before the
character, or has the character. -/
theorem isPrefixOf_append_cons (A : List Char) (d : Char) (R : List Char) :
    ∀ k : List Char, k.isPrefixOf (A ++ d :: R) = true → k.isPrefixOf A = true ∨ d ∈ k := by
  induction A with
  | nil =>
    intro k h
    cases k with
    | nil => exact Or.inl rfl
    | cons c k =>
      simp only [List.nil_append, List.isPrefixOf, Bool.and_eq_true, beq_iff_eq] at h
      right
      rw [h.1]
      exact List.mem_cons_self _ _
  | cons a A ih =>
    intro k h
    cases k with
    | nil => exact Or.inl rfl
    | cons c k =>
      simp only [List.cons_append, List.isPrefixOf, Bool.and_eq_true, beq_iff_eq] at h
      rcases ih k h.2 with h' | h'
      · left
        simp only [List.isPrefixOf, Bool.and_eq_true, beq_iff_eq]
        exact ⟨h.1, h'⟩
      · exact Or.inr (List.mem_cons_of_mem _ h')

/-- A key that does not occur in a text does not occur in it before a character that
the key does not have. -/
theorem strstr_go_skip (k : List Char) (d : Char) (R : List Char) (hk : k ≠ [])
    (hd : d ∉ k) :
    ∀ (T before : List Char), strstr_go k before T = none →
      strstr_go k before (T ++ d :: R) = strstr_go k (before ++ T ++ [d]) R := by
  intro T
  induction T with
  | nil =>
    intro before _
    simp only [List.nil_append, List.append_nil]
    rw [strstr_go]
    have hp : k.isPrefixOf (d :: R) = false := by
      cases hq : k.isPrefixOf (d :: R)
      · rfl
      · rcases isPrefixOf_append_cons [] d R k hq with h | h
        · cases k with
          | nil => exact absurd rfl hk
          | cons c k => simp [List.isPrefixOf] at h
        · exact absurd h hd
    rw [hp]
    simp
  | cons c T ih =>
    intro before hnone
    rw [strstr_go] at hnone
    by_cases hq : k.isPrefixOf (c :: T) = true
    · rw [if_pos hq] at hnone
      cases hnone
    · rw [if_neg hq] at hnone
      simp only [List.cons_append]
      rw [strstr_go]
      have hp : ¬ k.isPrefixOf (c :: (T ++ d :: R)) = true := by
        intro h
        rcases isPrefixOf_append_cons (c :: T) d R k h with h' | h'
        · exact hq h'
        · exact hd h'
      rw [if_neg hp, ih (before ++ [c]) hnone]
      simp

/-- The text of fields in two parts. -/
theorem fields_text_append (pre : List (List Char × json_value)) :
    ∀ (first : Bool) (l : List (List Char × json_value)),
      fields_text first (pre ++ l) =
        fields_text first pre ++ fields_text (first && pre.isEmpty) l := by
  induction pre with
  | nil => intro first l; simp [fields_text]
  | cons x pre ih =>
    intro first l
    obtain ⟨k, v⟩ := x
    cases v with
    | str v =>
      have hi := ih false l
      simp only [List.cons_append, fields_text, List.append_assoc]
      show _ ++ fields_text false (pre ++ l) = _
      rw [hi]
      simp
    | int v =>
      have hi := ih false l
      simp only [List.cons_append, fields_text, List.append_assoc]
      show _ ++ fields_text false (pre ++ l) = _
      rw [hi]
      simp

/-- In a buffer with room the calls write the text of the fields. -/
theorem json_put_fields_fit (dst_sz : Nat) (fields : List (List Char × json_value)) :
    ∀ (dst : List Char) (first : Bool),
      dst.length + (fields_text first fields).length < dst_sz →
      json_put_fields dst_sz dst first fields = dst ++ fields_text first fields := by
  induction fields with
  | nil => intro dst first _; simp [json_put_fields, fields_text]
  | cons x rest ih =>
    intro dst first h
    obtain ⟨k, v⟩ := x
    cases v with
    | str v =>
      simp only [fields_text, List.length_append] at h
      have hput : json_put_string_field dst dst_sz k v first =
          dst ++ string_field_text k v first := by
        unfold json_put_string_field snprintf_at
        rw [List.take_of_length_le (by omega)]
      simp only [json_put_fields, fields_text, hput]
      rw [ih _ false (by simp only [List.length_append]; omega)]
      simp
    | int v =>
      simp only [fields_text, List.length_append] at h
      have hput : json_put_int_field dst dst_sz k v first =
          dst ++ int_field_text k v first := by
        unfold json_put_int_field snprintf_at
        rw [List.take_of_length_le (by omega)]
      simp only [json_put_fields, fields_text, hput]
      rw [ih _ false (by simp only [List.length_append]; omega)]
      simp

/-- A text is a prefix of itself with more after it. -/
theorem isPrefixOf_append_self (k S : List Char) : k.isPrefixOf (k ++ S) = true := by
  induction k with
  | nil => simp [List.isPrefixOf]
  | cons c k ih => simp [List.isPrefixOf, ih]

/-- What `dropWhile` leaves of a text whose first part passes the test and whose next
character does not. -/
theorem dropWhile_append_stop (f : Char → Bool) (v : List Char) (d : Char) (r : List Char)
    (hv : ∀ c ∈ v, f c = true) (hd : f d = false) :
    (v ++ d :: r).dropWhile f = d :: r := by
  induction v with
  | nil => simp [List.dropWhile, hd]
  | cons c v ih =>
    have hc := hv c (List.mem_cons_self _ _)
    simp only [List.cons_append, List.dropWhile, hc]
    exact ih (fun a ha => hv a (List.mem_cons_of_mem _ ha))

/-- What `takeWhile` takes of a text whose first part passes the test and whose next
character does not. -/
theorem takeWhile_append_stop (f : Char → Bool) (v : List Char) (d : Char) (r : List Char)
    (hv : ∀ c ∈ v, f c = true) (hd : f d = false) :
    (v ++ d :: r).takeWhile f = v := by
  induction v with
  | nil => simp [List.takeWhile, hd]
  | cons c v ih =>
    have hc := hv c (List.mem_cons_self _ _)
    have hi := ih (fun a ha => hv a (List.mem_cons_of_mem _ ha))
    simp only [List.cons_append, List.takeWhile, hc]
    exact congrArg (List.cons c) hi

/-- The extraction of a string field from a text in which the key first occurs as the
key of the field. -/
theorem find_key_at (T : List Char) (sep : Char) (k v rest : List Char)
    (hk : k ≠ [] ∧ ∀ c ∈ k, c ≠ '"' ∧ c ≠ ':' ∧ c ≠ sep)
    (hv : '"' ∉ v)
    (hnew : strstr T k = none) :
    find_key (T ++ sep :: '"' :: (k ++ '"' :: ':' :: '"' :: (v ++ '"' :: rest))) k =
      some (v, true) := by
  obtain ⟨hk0, hkc⟩ := hk
  have hstr : strstr (T ++ sep :: '"' :: (k ++ '"' :: ':' :: '"' :: (v ++ '"' :: rest))) k =
      some (T ++ [sep] ++ ['"'], k ++ '"' :: ':' :: '"' :: (v ++ '"' :: rest)) := by
    unfold strstr at hnew ⊢
    rw [strstr_go_skip k sep _ hk0 (fun h => (hkc sep h).2.2 rfl) T [] hnew]
    have h2 := strstr_go_skip k '"' (k ++ '"' :: ':' :: '"' :: (v ++ '"' :: rest)) hk0
      (fun h => (hkc '"' h).1 rfl) [] ([] ++ T ++ [sep])
      (by rw [strstr_go]; rw [if_neg hk0])
    simp only [List.nil_append, List.append_nil] at h2 ⊢
    rw [h2]
    rcases k with _ | ⟨c, k⟩
    · exact absurd rfl hk0
    · simp only [List.cons_append]
      rw [strstr_go]
      have := isPrefixOf_append_self (c :: k) ('"' :: ':' :: '"' :: (v ++ '"' :: rest))
      simp only [List.cons_append] at this
      rw [if_pos this]
  have hcolon : strchr (k ++ '"' :: ':' :: '"' :: (v ++ '"' :: rest)) ':' =
      some (':' :: '"' :: (v ++ '"' :: rest)) := by
    unfold strchr
    have h1 : (k ++ '"' :: ':' :: '"' :: (v ++ '"' :: rest)).dropWhile (fun c => c != ':') =
        ':' :: '"' :: (v ++ '"' :: rest) := by
      have := dropWhile_append_stop (fun c => c != ':') (k ++ ['"']) ':'
        ('"' :: (v ++ '"' :: rest))
        (by
          intro c hc
          rcases List.mem_append.mp hc with h | h
          · simpa using (hkc c h).2.1
          · simp only [List.mem_singleton] at h
            rw [h]
            decide)
        (by decide)
      simpa using this
    rw [h1]
  have hvq : ∀ c ∈ v, (c != '"') = true := by
    intro c hc
    have : c ≠ '"' := fun h => hv (h ▸ hc)
    simpa using this
  have hend : strchr (v ++ '"' :: rest) '"' = some ('"' :: rest) := by
    unfold strchr
    rw [dropWhile_append_stop (fun c => c != '"') v '"' rest hvq (by decide)]
  have hval : (v ++ '"' :: rest).takeWhile (fun c => c != '"') = v :=
    takeWhile_append_stop (fun c => c != '"') v '"' rest hvq (by decide)
  unfold find_key
  rw [hstr]
  have hq : ((T ++ [sep] ++ ['"'] ++
      (k ++ '"' :: ':' :: '"' :: (v ++ '"' :: rest)).take 1).any (fun c => c == '"')) = true := by
    simp
  simp only [hq, Bool.not_true, Bool.false_eq_true, if_false, hcolon]
  have hp : (List.drop 1 (':' :: '"' :: (v ++ '"' :: rest))).dropWhile
      (fun c => c == ' ' || c == '\t') = '"' :: (v ++ '"' :: rest) := by
    simp [List.dropWhile]
  rw [hp]
  simp only [hend, hval]

/-- C30, as stated, fails: in the message built from the fields `ab` = `1` and `a` = `2`
the field `a` is read as `1`, the value of `ab`, whose key holds the text `a`; and in
the message built from `file` = `user:x` and `user` = `bob` the field `user` cannot be
read, while with the value `x` for `file` it is read as `bob`. -/
theorem get_string_field_finds_other_key :
    json_get_string_field
      (json_put_fields 256 [] true [("ab".toList, json_value.str "1".toList),
        ("a".toList, json_value.str "2".toList)]) "a".toList 128 = some "1".toList ∧
    json_get_string_field
      (json_put_fields 256 [] true [("file".toList, json_value.str "user:x".toList),
        ("user".toList, json_value.str "bob".toList)]) "user".toList 128 = none ∧
    json_get_string_field
      (json_put_fields 256 [] true [("file".toList, json_value.str "x".toList),
        ("user".toList, json_value.str "bob".toList)]) "user".toList 128 =
      some "bob".toList := by
  refine ⟨by decide, by decide, by decide⟩

/-- C30, amended: for a message built in a buffer with room for it from fields `pre`,
then the string field `k` = `v`, then fields `post`, whatever follows the message: when
`k` is not empty, has none of the characters `"`, `:`, `,` and `{`, and does not occur
in the message built from `pre`, and `v` has no `"` and fits the buffer of the reader,
`json_get_string_field` for `k` returns `v`. -/
theorem json_get_string_field_put (dst_sz out_sz : Nat)
    (pre post : List (List Char × json_value)) (k v tail : List Char)
    (hk : k ≠ [] ∧ ∀ c ∈ k, c ≠ '"' ∧ c ≠ ':' ∧ c ≠ ',' ∧ c ≠ '{')
    (hv : '"' ∉ v)
    (hfit : (fields_text true (pre ++ (k, json_value.str v) :: post)).length < dst_sz)
    (hout : v.length < out_sz)
    (hnew : strstr (json_put_fields dst_sz [] true pre) k = none) :
    json_get_string_field
      (json_put_fields dst_sz [] true (pre ++ (k, json_value.str v) :: post) ++ tail) k
      out_sz = some v := by
  have hsplit := fields_text_append pre true ((k, json_value.str v) :: post)
  have hlen := hfit
  rw [hsplit] at hlen
  simp only [List.length_append] at hlen
  have hT : json_put_fields dst_sz [] true pre = fields_text true pre := by
    rw [json_put_fields_fit dst_sz pre [] true (by simp only [List.length_nil]; omega)]
    simp
  have hmsg : json_put_fields dst_sz [] true (pre ++ (k, json_value.str v) :: post) =
      fields_text true (pre ++ (k, json_value.str v) :: post) := by
    rw [json_put_fields_fit dst_sz _ [] true (by simp only [List.length_nil]; omega)]
    simp
  rw [hT] at hnew
  rw [hmsg, hsplit]
  have htext : fields_text true pre ++
      fields_text (true && pre.isEmpty) ((k, json_value.str v) :: post) ++ tail =
      fields_text true pre ++ (if pre.isEmpty then '{' else ',') :: '"' ::
        (k ++ '"' :: ':' :: '"' :: (v ++ '"' :: (fields_text false post ++ tail))) := by
    simp [fields_text, string_field_text]
  rw [htext]
  unfold json_get_string_field
  rw [find_key_at (fields_text true pre) (if pre.isEmpty then '{' else ',') k v _
    ⟨hk.1, fun c hc => ⟨(hk.2 c hc).1, (hk.2 c hc).2.1, by
      split_ifs
      · exact (hk.2 c hc).2.2.2
      · exact (hk.2 c hc).2.2.1⟩⟩ hv hnew]
  simp only
  rw [if_neg (by omega)]

/-- A concrete instance of `json_get_string_field_put`: the field `file` of a message
with the fields `type`, `file`, `ticket` and `n`, closed by a brace. -/
theorem json_get_string_field_put_witness :
    json_get_string_field
      (json_put_fields 256 [] true
        ([("type".toList, json_value.str "READ".toList)] ++
          ("file".toList, json_value.str "a.txt".toList) ::
          [("ticket".toList, json_value.str "t".toList), ("n".toList, json_value.int 5)])
        ++ ['}']) "file".toList 128 = some "a.txt".toList :=
  json_get_string_field_put 256 128 [("type".toList, json_value.str "READ".toList)]
    [("ticket".toList, json_value.str "t".toList), ("n".toList, json_value.int 5)]
    "file".toList "a.txt".toList ['}'] (by decide) (by decide) (by decide) (by decide)
    (by decide)

end Proto

/-! ## The naming manager: start, MOVE, the ACL store and its persistence -/

namespace NM

/-- C23 on the failing input: after the three calls of `main` the map of nm_dir.c is
empty whatever the document holds, so `nm_dir_rename` returns 0 and changes nothing for
every pair of names; with the one mapping of `f` to server 1 loaded, the persisted
directory maps `f`, the map does not, and `nm_dir_rename` of `f` to `g` returns 0 and
leaves `f` mapped and `g` not.  With `nm_dir_init` called after the load, the same call
returns 1 and maps `g` to server 1. -/
theorem startup_map_not_seeded :
    (∀ (entries : List (List Char × Int)) (f g : List Char),
      nm_dir_rename (nm_main_startup entries) f g = (0, nm_main_startup entries)) ∧
    nm_state_find_dir (nm_main_startup [("f".toList, 1)]).dir "f".toList = some 1 ∧
    nm_state_find_dir (nm_main_startup [("f".toList, 1)]).dir "g".toList = none ∧
    map_get (nm_main_startup [("f".toList, 1)]).g_buckets "f".toList = none ∧
    (nm_dir_rename (nm_main_startup [("f".toList, 1)]) "f".toList "g".toList).1 = 0 ∧
    nm_state_find_dir
      (nm_dir_rename (nm_main_startup [("f".toList, 1)]) "f".toList "g".toList).2.dir
      "g".toList = none ∧
    nm_state_find_dir
      (nm_dir_rename (nm_main_startup [("f".toList, 1)]) "f".toList "g".toList).2.dir
      "f".toList = some 1 ∧
    (nm_dir_rename
      { g_buckets := nm_dir_init (nm_state_load_dir [] [("f".toList, 1)]) (fun _ => []),
        dir := nm_state_load_dir [] [("f".toList, 1)] } "f".toList "g".toList).1 = 1 ∧
    nm_state_find_dir
      (nm_dir_rename
        { g_buckets := nm_dir_init (nm_state_load_dir [] [("f".toList, 1)]) (fun _ => []),
          dir := nm_state_load_dir [] [("f".toList, 1)] } "f".toList "g".toList).2.dir
      "g".toList = some 1 := by
  refine ⟨?_, by decide, by decide, by decide, by decide, by decide, by decide, by decide,
    by decide⟩
  intro entries f g
  unfold nm_dir_rename
  by_cases h : f = [] ∨ g = []
  · rw [if_pos h]
  · rw [if_neg h]
    have hm : map_get (nm_main_startup entries).g_buckets f = none := rfl
    rw [hm]

/-- C22 on the failing input: MOVE is answered ERR_NOAUTH for no request at all; `alice`
owns `f` and `nm_acl_check` denies WRITE on `f` to `bob` and to `anonymous`, RENAME of
`f` to `g` by `bob` is answered ERR_NOAUTH, and MOVE of `f` to `g`, which names no user,
is answered OK, maps `g` and no longer `f` to the server of `f`, and moves the ACL entry
of `f` to `g`. -/
theorem move_is_not_access_controlled :
    (∀ (st : nm_state) (folders : List (List Char)) (src dst : Option (List Char))
      (ss : ss_reply) (ss_each : Nat → ss_reply),
      (handle_move st folders src dst ss ss_each).2 ≠ nm_status.ERR_NOAUTH) ∧
    nm_acl_check alice_creates.1.acl "f".toList "bob".toList "WRITE".toList = -1 ∧
    nm_acl_check alice_creates.1.acl "f".toList "anonymous".toList "WRITE".toList = -1 ∧
    (handle_rename alice_creates.1 (some "bob".toList) (some "f".toList)
      (some "g".toList) rename_reply.ok).2 = nm_status.ERR_NOAUTH ∧
    move_f_to_g.2 = nm_status.OK ∧
    nm_state_find_dir alice_creates.1.dirs.dir "f".toList = some 2 ∧
    nm_state_find_dir move_f_to_g.1.1.dirs.dir "f".toList = none ∧
    nm_state_find_dir move_f_to_g.1.1.dirs.dir "g".toList = some 2 ∧
    find_acl move_f_to_g.1.1.acl "f".toList = none ∧
    find_acl move_f_to_g.1.1.acl "g".toList =
      some ⟨"g".toList, some "alice".toList, [⟨"alice".toList, 3⟩]⟩ := by
  refine ⟨?_, by decide, by decide, by decide, by decide, by decide, by decide, by decide,
    by decide, by decide⟩
  intro st folders src dst ss ss_each
  unfold handle_move
  dsimp only
  repeat' split
  all_goals simp

set_option maxRecDepth 1000000 in
/-- C21 on the failing input: `alice` creates `f` and `carol` creates `f2`, a minute
later, so the ACL store has the entry of `f` with the owner `alice` and that of `f2`
with the owner `carol`; the document saved has both; loaded into an empty store it gives
one entry
only, that of `f`, with the grants of `f` and the owner `owner`, and no entry for `f2`.
The document of `f` alone also comes back with the owner `owner`. -/
theorem load_loses_owner_and_entries :
    find_acl carol_creates.1.acl "f".toList =
      some ⟨"f".toList, some "alice".toList, [⟨"alice".toList, 3⟩]⟩ ∧
    find_acl carol_creates.1.acl "f2".toList =
      some ⟨"f2".toList, some "carol".toList, [⟨"carol".toList, 3⟩]⟩ ∧
    saved_two_files =
      ("\x7b\n  \"users\":[],\n  \"active\":[],\n  \"directory\":\x7b" ++
       "\"f\":\x7b\"ss_id\":2,\"last_modified_user\":\"alice\"," ++
       "\"last_modified_time\":1700000000,\"last_accessed_user\":\"alice\"," ++
       "\"last_accessed_time\":1700000000\x7d," ++
       "\"f2\":\x7b\"ss_id\":1,\"last_modified_user\":\"carol\"," ++
       "\"last_modified_time\":1700000060,\"last_accessed_user\":\"carol\"," ++
       "\"last_accessed_time\":1700000060\x7d\x7d,\n  \"acls\":\x7b" ++
       "\"f\":\x7b\"owner\":\"alice\",\"grants\":\x7b\"alice\":\"RW\"\x7d\x7d," ++
       "\"f2\":\x7b\"owner\":\"carol\",\"grants\":\x7b\"carol\":\"RW\"\x7d\x7d\x7d," ++
       "\n  \"replicas\":\x7b\"f\":[1],\"f2\":[2]\x7d,\n  \"requests\":\x7b\x7d," ++
       "\n  \"folders\":[],\n  \"trash\":[]\n\x7d\n").toList ∧
    (nm_state_load_acls saved_two_files acl_empty).map (fun s => s.acls) =
      some [⟨"f".toList, some "owner".toList, [⟨"alice".toList, 3⟩]⟩] ∧
    (nm_state_load_acls saved_two_files acl_empty).map
      (fun s => nm_acl_get_owner s "f".toList 128) = some (some "owner".toList) ∧
    (nm_state_load_acls saved_two_files acl_empty).map
      (fun s => find_acl s "f2".toList) = some none ∧
    (nm_state_load_acls saved_one_file acl_empty).map (fun s => s.acls) =
      some [⟨"f".toList, some "owner".toList, [⟨"alice".toList, 3⟩]⟩] := by
  refine ⟨by decide, by decide, by decide, by decide, by decide, by decide, by decide⟩

/-! ### The ACL store refines a map -/

/-- The element at an index after the change of one element. -/
theorem getElem?_modify_at {α : Type} (h : α → α) (l : List α) :
    ∀ (i j : Nat), (modify_at h l i)[j]? = if j = i then (l[j]?).map h else l[j]? := by
  induction l with
  | nil =>
    intro i j
    cases i <;> simp [modify_at]
  | cons a l ih =>
    intro i j
    cases i with
    | zero =>
      cases j with
      | zero => simp [modify_at]
      | succ j => simp [modify_at]
    | succ i =>
      cases j with
      | zero => simp [modify_at]
      | succ j =>
        simp only [modify_at, List.getElem?_cons_succ, ih i j]
        by_cases hji : j = i
        · simp [hji]
        · simp [hji]

/-- The change of one element keeps the length. -/
theorem length_modify_at {α : Type} (h : α → α) (l : List α) :
    ∀ i : Nat, (modify_at h l i).length = l.length := by
  induction l with
  | nil => intro i; cases i <;> rfl
  | cons a l ih =>
    intro i
    cases i with
    | zero => rfl
    | succ i => simp [modify_at, ih i]

/-- The element at an index after the removal of an element by the move of the last
into its place. -/
theorem getElem?_swap_remove {α : Type} (l : List α) (i j : Nat) (hi : i < l.length) :
    (swap_remove l i)[j]? =
      if j + 1 < l.length then (if j = i then l[l.length - 1]? else l[j]?) else none := by
  unfold swap_remove
  rcases hl : l.getLast? with _ | last
  · rw [List.getLast?_eq_getElem?] at hl
    rw [List.getElem?_eq_none_iff] at hl
    omega
  · dsimp only
    rw [List.getLast?_eq_getElem?] at hl
    rw [List.dropLast_eq_take, List.length_set, List.getElem?_take, List.getElem?_set]
    by_cases h1 : j + 1 < l.length
    · have h2 : j < l.length - 1 := by omega
      rw [if_pos h1, if_pos h2]
      by_cases h3 : j = i
      · rw [if_pos h3, if_pos h3.symm, if_pos hi, hl]
      · rw [if_neg h3, if_neg (fun h => h3 h.symm)]
    · have h2 : ¬ j < l.length - 1 := by omega
      rw [if_neg h1, if_neg h2]

/-- The keys of a list are distinct exactly when two positions with a key are one. -/
theorem nodup_map_iff_positions {α β : Type} (key : α → β) (l : List α) :
    (l.map key).Nodup ↔
      ∀ (i j : Nat) (a b : α), l[i]? = some a → l[j]? = some b → key a = key b → i = j := by
  rw [List.nodup_iff_getElem?_ne_getElem?]
  constructor
  · intro h i j a b ha hb hk
    by_contra hne
    have hia : i < l.length := (List.getElem?_eq_some_iff.mp ha).1
    have hjb : j < l.length := (List.getElem?_eq_some_iff.mp hb).1
    rcases Nat.lt_or_gt_of_ne hne with hlt | hgt
    · apply h i j hlt (by rw [List.length_map]; exact hjb)
      rw [List.getElem?_map, List.getElem?_map, ha, hb]
      simp [hk]
    · apply h j i hgt (by rw [List.length_map]; exact hia)
      rw [List.getElem?_map, List.getElem?_map, ha, hb]
      simp [hk]
  · intro h i j hlt hj heq
    rw [List.length_map] at hj
    rw [List.getElem?_map, List.getElem?_map] at heq
    have hi : i < l.length := by omega
    rw [List.getElem?_eq_getElem hi, List.getElem?_eq_getElem hj] at heq
    simp only [Option.map_some', Option.some.injEq] at heq
    have := h i j l[i] l[j] (List.getElem?_eq_getElem hi) (List.getElem?_eq_getElem hj) heq
    omega

/-- The removal of an element by the move of the last into its place keeps the keys
distinct. -/
theorem swap_remove_nodup {α β : Type} (key : α → β) (l : List α) (i : Nat)
    (hi : i < l.length) (h : (l.map key).Nodup) : ((swap_remove l i).map key).Nodup := by
  rw [nodup_map_iff_positions] at h ⊢
  intro a b x y hx hy hk
  rw [getElem?_swap_remove l i a hi] at hx
  rw [getElem?_swap_remove l i b hi] at hy
  by_cases ha : a + 1 < l.length
  · by_cases hb : b + 1 < l.length
    · rw [if_pos ha] at hx
      rw [if_pos hb] at hy
      by_cases hai : a = i
      · by_cases hbi : b = i
        · omega
        · rw [if_pos hai] at hx
          rw [if_neg hbi] at hy
          have := h _ _ x y hx hy hk
          omega
      · by_cases hbi : b = i
        · rw [if_neg hai] at hx
          rw [if_pos hbi] at hy
          have := h _ _ x y hx hy hk
          omega
        · rw [if_neg hai] at hx
          rw [if_neg hbi] at hy
          exact h _ _ x y hx hy hk
    · rw [if_neg hb] at hy
      cases hy
  · rw [if_neg ha] at hx
    cases hx

/-- The index a chain has for a name after the removal of a name. -/
theorem chain_find_remove (c : List acl_hash_node) (f g : List Char)
    (hn : (c.map acl_hash_node.file).Nodup) :
    ((acl_chain_remove c f).find? (fun n => decide (n.file = g))).map (fun n => n.acl_index) =
      if g = f then none
      else (c.find? (fun n => decide (n.file = g))).map (fun n => n.acl_index) := by
  induction c with
  | nil => simp [acl_chain_remove]
  | cons n c ih =>
    simp only [List.map_cons, List.nodup_cons] at hn
    unfold acl_chain_remove
    by_cases hnf : n.file = f
    · rw [if_pos hnf]
      by_cases hg : g = f
      · rw [if_pos hg, hg]
        have hnone : c.find? (fun n => decide (n.file = f)) = none := by
          rw [List.find?_eq_none]
          intro x hx
          simp only [decide_eq_true_eq]
          intro hxf
          apply hn.1
          rw [hnf, ← hxf]
          exact List.mem_map_of_mem _ hx
        rw [hnone]
        rfl
      · rw [if_neg hg]
        have : ¬ n.file = g := fun h => hg (h.symm.trans hnf)
        simp [List.find?_cons, this]
    · rw [if_neg hnf]
      by_cases hng : n.file = g
      · have hg : ¬ g = f := fun h => hnf (hng.trans h)
        rw [if_neg hg]
        simp [List.find?_cons, hng]
      · have := ih hn.2
        simp only [List.find?_cons, hng, decide_False]
        exact this

/-- The index a chain has for a name after the change of the index of a name. -/
theorem chain_find_update (c : List acl_hash_node) (f g : List Char) (i : Nat) :
    ((acl_chain_update c f i).find? (fun n => decide (n.file = g))).map
        (fun n => n.acl_index) =
      if g = f then
        ((c.find? (fun n => decide (n.file = f))).map (fun n => n.acl_index)).map (fun _ => i)
      else (c.find? (fun n => decide (n.file = g))).map (fun n => n.acl_index) := by
  induction c with
  | nil => simp [acl_chain_update]
  | cons n c ih =>
    unfold acl_chain_update
    by_cases hnf : n.file = f
    · rw [if_pos hnf]
      by_cases hg : g = f
      · rw [if_pos hg, hg]
        simp [List.find?_cons, hnf]
      · rw [if_neg hg]
        have : ¬ n.file = g := fun h => hg (h.symm.trans hnf)
        simp [List.find?_cons, this]
    · rw [if_neg hnf]
      by_cases hg : g = f
      · rw [if_pos hg] at ih ⊢
        rw [hg] at ih
        rw [hg]
        simp only [List.find?_cons, hnf, decide_False]
        exact ih
      · rw [if_neg hg] at ih ⊢
        by_cases hng : n.file = g
        · simp [List.find?_cons, hng]
        · simp only [List.find?_cons, hng, decide_False]
          exact ih

/-- The names of a chain after the change of an index. -/
theorem chain_update_names (c : List acl_hash_node) (f : List Char) (i : Nat) :
    (acl_chain_update c f i).map acl_hash_node.file = c.map acl_hash_node.file := by
  induction c with
  | nil => rfl
  | cons n c ih =>
    unfold acl_chain_update
    by_cases hnf : n.file = f
    · rw [if_pos hnf]
      rfl
    · rw [if_neg hnf]
      simp only [List.map_cons, ih]

/-- The chain after the removal of a name is a part of the chain. -/
theorem chain_remove_sublist (c : List acl_hash_node) (f : List Char) :
    (acl_chain_remove c f).Sublist c := by
  induction c with
  | nil => exact List.Sublist.refl _
  | cons n c ih =>
    unfold acl_chain_remove
    by_cases hnf : n.file = f
    · rw [if_pos hnf]
      exact List.sublist_cons_self _ _
    · rw [if_neg hnf]
      exact ih.cons₂ _

/-- The index the map has for a name after `acl_map_insert`. -/
theorem acl_map_find_insert (m : Nat → List acl_hash_node) (f g : List Char) (i : Nat) :
    acl_map_find (acl_map_insert m f i) g =
      if g = f then some i else acl_map_find m g := by
  unfold acl_map_find acl_map_insert
  by_cases hg : g = f
  · rw [if_pos hg, hg]
    simp
  · rw [if_neg hg]
    by_cases hb : hash_djb2 g = hash_djb2 f
    · rw [if_pos hb]
      have : ¬ f = g := fun h => hg h.symm
      simp [List.find?_cons, this]
    · rw [if_neg hb]

/-- The index the map has for a name after `acl_map_remove`. -/
theorem acl_map_find_remove (m : Nat → List acl_hash_node) (f g : List Char)
    (hn : ∀ b, ((m b).map acl_hash_node.file).Nodup) :
    acl_map_find (acl_map_remove m f) g = if g = f then none else acl_map_find m g := by
  unfold acl_map_find acl_map_remove
  by_cases hb : hash_djb2 g = hash_djb2 f
  · rw [if_pos hb, chain_find_remove _ f g (hn _)]
  · rw [if_neg hb]
    have hg : ¬ g = f := fun h => hb (by rw [h])
    rw [if_neg hg]

/-- The index the map has for a name after `acl_map_update_index`. -/
theorem acl_map_find_update (m : Nat → List acl_hash_node) (f g : List Char) (i : Nat) :
    acl_map_find (acl_map_update_index m f i) g =
      if g = f then (acl_map_find m f).map (fun _ => i) else acl_map_find m g := by
  unfold acl_map_find acl_map_update_index
  by_cases hb : hash_djb2 g = hash_djb2 f
  · rw [if_pos hb, chain_find_update _ f g i]
    by_cases hg : g = f
    · rw [if_pos hg, if_pos hg, hg]
    · rw [if_neg hg, if_neg hg]
  · rw [if_neg hb]
    have hg : ¬ g = f := fun h => hb (by rw [h])
    rw [if_neg hg]

/-- A name the map has no index for is in no node of its chain. -/
theorem acl_map_find_none (m : Nat → List acl_hash_node) (f : List Char)
    (h : acl_map_find m f = none) :
    f ∉ (m (hash_djb2 f)).map acl_hash_node.file := by
  unfold acl_map_find at h
  simp only [Option.map_eq_none'] at h
  rw [List.find?_eq_none] at h
  intro hmem
  obtain ⟨n, hn, hf⟩ := List.mem_map.mp hmem
  have := h n hn
  simp [hf] at this

/-- The chains keep their names distinct under `acl_map_insert` of a new name. -/
theorem acl_map_insert_nodup (m : Nat → List acl_hash_node) (f : List Char) (i : Nat)
    (hn : ∀ b, ((m b).map acl_hash_node.file).Nodup) (hf : acl_map_find m f = none) :
    ∀ b, ((acl_map_insert m f i b).map acl_hash_node.file).Nodup := by
  intro b
  unfold acl_map_insert
  by_cases hb : b = hash_djb2 f
  · rw [if_pos hb]
    simp only [List.map_cons, List.nodup_cons]
    rw [hb]
    exact ⟨acl_map_find_none m f hf, hn _⟩
  · rw [if_neg hb]
    exact hn b

/-- The chains keep their names distinct under `acl_map_remove`. -/
theorem acl_map_remove_nodup (m : Nat → List acl_hash_node) (f : List Char)
    (hn : ∀ b, ((m b).map acl_hash_node.file).Nodup) :
    ∀ b, ((acl_map_remove m f b).map acl_hash_node.file).Nodup := by
  intro b
  unfold acl_map_remove
  by_cases hb : b = hash_djb2 f
  · rw [if_pos hb]
    exact (hn b).sublist ((chain_remove_sublist _ f).map _)
  · rw [if_neg hb]
    exact hn b

/-- The chains keep their names distinct under `acl_map_update_index`. -/
theorem acl_map_update_nodup (m : Nat → List acl_hash_node) (f : List Char) (i : Nat)
    (hn : ∀ b, ((m b).map acl_hash_node.file).Nodup) :
    ∀ b, ((acl_map_update_index m f i b).map acl_hash_node.file).Nodup := by
  intro b
  unfold acl_map_update_index
  by_cases hb : b = hash_djb2 f
  · rw [if_pos hb, chain_update_names]
    exact hn b
  · rw [if_neg hb]
    exact hn b

/-- The index `find_acl` uses for a name is that of the entry with the name. -/
theorem find_acl_index_iff (st : acl_state) (h : acl_inv st) (f : List Char) (i : Nat) :
    find_acl_index st f = some i ↔ (st.acls[i]?).map acl_entry.file = some f := by
  unfold find_acl_index
  rcases hm : acl_map_find st.acl_map f with _ | k
  · constructor
    · intro hc
      cases hc
    · intro hc
      rw [(h.1 f i).mpr hc] at hm
      cases hm
  · have hk := (h.1 f k).mp hm
    have hlt : k < st.acls.length := by
      rcases hq : st.acls[k]? with _ | e
      · rw [hq] at hk
        cases hk
      · exact (List.getElem?_eq_some_iff.mp hq).1
    dsimp only
    rw [if_pos hlt]
    constructor
    · intro hc
      cases hc
      exact hk
    · intro hc
      rw [(h.1 f i).mpr hc] at hm
      exact hm.symm

/-- Two entries with one name are one entry. -/
theorem acl_names_distinct (st : acl_state) (h : acl_inv st) (i j : Nat) (a b : acl_entry)
    (ha : st.acls[i]? = some a) (hb : st.acls[j]? = some b) (hab : a.file = b.file) :
    i = j := by
  have h1 := (h.1 a.file i).mpr (by rw [ha]; rfl)
  have h2 := (h.1 a.file j).mpr (by rw [hb, hab]; rfl)
  rw [h1] at h2
  exact Option.some.inj h2

/-- The entry `find_acl` returns for a name is the entry with the name. -/
theorem find_acl_iff (st : acl_state) (h : acl_inv st) (f : List Char) (e : acl_entry) :
    find_acl st f = some e ↔ ∃ i : Nat, st.acls[i]? = some e ∧ e.file = f := by
  unfold find_acl
  rcases hi : find_acl_index st f with _ | k
  · constructor
    · intro hc
      cases hc
    · rintro ⟨i, hie, hf⟩
      have := (find_acl_index_iff st h f i).mpr (by rw [hie]; exact congrArg some hf)
      rw [hi] at this
      cases this
  · have hk := (find_acl_index_iff st h f k).mp hi
    dsimp only
    rw [List.get?_eq_getElem?]
    constructor
    · intro hc
      refine ⟨k, hc, ?_⟩
      rw [hc] at hk
      exact Option.some.inj hk
    · rintro ⟨i, hie, hf⟩
      have := (find_acl_index_iff st h f i).mpr (by rw [hie]; exact congrArg some hf)
      rw [hi] at this
      cases this
      exact hie

/-- The entry at the index `find_acl` uses. -/
theorem find_acl_of_index (st : acl_state) (h : acl_inv st) (f : List Char) (i : Nat)
    (hi : find_acl_index st f = some i) :
    ∃ e, st.acls[i]? = some e ∧ e.file = f ∧ find_acl st f = some e := by
  have hk := (find_acl_index_iff st h f i).mp hi
  rcases hq : st.acls[i]? with _ | e
  · rw [hq] at hk
    cases hk
  · rw [hq] at hk
    have hf : e.file = f := Option.some.inj hk
    exact ⟨e, rfl, hf, (find_acl_iff st h f e).mpr ⟨i, hq, hf⟩⟩

/-- Without an index there is no entry, and the map has no node for the name. -/
theorem find_acl_index_none (st : acl_state) (h : acl_inv st) (f : List Char)
    (hi : find_acl_index st f = none) :
    find_acl st f = none ∧ acl_map_find st.acl_map f = none ∧
      ∀ (i : Nat) (e : acl_entry), st.acls[i]? = some e → e.file ≠ f := by
  refine ⟨by unfold find_acl; rw [hi], ?_, ?_⟩
  · rcases hm : acl_map_find st.acl_map f with _ | k
    · rfl
    · have := (find_acl_index_iff st h f k).mpr ((h.1 f k).mp hm)
      rw [hi] at this
      cases this
  · intro i e hie hf
    have := (find_acl_index_iff st h f i).mpr (by rw [hie]; exact congrArg some hf)
    rw [hi] at this
    cases this

/-- The store after the change of the entry at an index by a function that keeps the
file name: the invariant holds and `find_acl` returns the changed entry for its name and
what it returned for every other name. -/
theorem acl_modify (st : acl_state) (h : acl_inv st) (i : Nat) (e0 : acl_entry)
    (g : acl_entry → acl_entry) (hi : st.acls[i]? = some e0)
    (hfile : ∀ e, (g e).file = e.file)
    (hgr : ((g e0).grants.map acl_user.user).Nodup) :
    acl_inv { st with acls := modify_at g st.acls i } ∧
    ∀ f, find_acl { st with acls := modify_at g st.acls i } f =
      if f = e0.file then some (g e0) else find_acl st f := by
  have hpos : ∀ j, (modify_at g st.acls i)[j]? =
      if j = i then (st.acls[j]?).map g else st.acls[j]? := getElem?_modify_at g st.acls i
  have hinv : acl_inv { st with acls := modify_at g st.acls i } := by
    refine ⟨?_, h.2.1, ?_⟩
    · intro f j
      show acl_map_find st.acl_map f = some j ↔
        ((modify_at g st.acls i)[j]?).map acl_entry.file = some f
      rw [hpos j, h.1 f j]
      by_cases hj : j = i
      · rw [if_pos hj]
        rcases st.acls[j]? with _ | e
        · rfl
        · simp [hfile e]
      · rw [if_neg hj]
    · intro e he
      obtain ⟨j, hj⟩ := List.mem_iff_getElem?.mp he
      have hj' : (modify_at g st.acls i)[j]? = some e := hj
      rw [hpos j] at hj'
      by_cases hji : j = i
      · rw [if_pos hji, hji, hi] at hj'
        cases hj'
        exact hgr
      · rw [if_neg hji] at hj'
        exact h.2.2 e (List.mem_iff_getElem?.mpr ⟨j, hj'⟩)
  refine ⟨hinv, ?_⟩
  intro f
  apply Option.ext
  intro a
  show find_acl _ f = some a ↔ (if f = e0.file then some (g e0) else find_acl st f) = some a
  rw [find_acl_iff _ hinv f a]
  by_cases hf : f = e0.file
  · rw [if_pos hf]
    constructor
    · rintro ⟨j, hj, hja⟩
      have hj' : (modify_at g st.acls i)[j]? = some a := hj
      rw [hpos j] at hj'
      by_cases hji : j = i
      · rw [if_pos hji, hji, hi] at hj'
        exact hj'
      · rw [if_neg hji] at hj'
        exact absurd (acl_names_distinct st h j i a e0 hj' hi (hja.trans hf)) hji
    · intro ha
      cases ha
      refine ⟨i, ?_, by rw [hfile, hf]⟩
      show (modify_at g st.acls i)[i]? = some (g e0)
      rw [hpos i, if_pos rfl, hi]
      rfl
  · rw [if_neg hf, find_acl_iff st h f a]
    constructor
    · rintro ⟨j, hj, hja⟩
      have hj' : (modify_at g st.acls i)[j]? = some a := hj
      rw [hpos j] at hj'
      by_cases hji : j = i
      · rw [if_pos hji, hji, hi] at hj'
        cases hj'
        rw [hfile] at hja
        exact absurd hja.symm hf
      · rw [if_neg hji] at hj'
        exact ⟨j, hj', hja⟩
    · rintro ⟨j, hj, hja⟩
      have hji : j ≠ i := by
        intro hji
        rw [hji, hi] at hj
        cases hj
        exact hf hja.symm
      refine ⟨j, ?_, hja⟩
      show (modify_at g st.acls i)[j]? = some a
      rw [hpos j, if_neg hji]
      exact hj

/-- The element at an index of a list with one more element. -/
theorem getElem?_concat {α : Type} (l : List α) (a : α) (j : Nat) :
    (l ++ [a])[j]? = if j < l.length then l[j]? else if j = l.length then some a else none := by
  by_cases h1 : j < l.length
  · rw [if_pos h1, List.getElem?_append_left h1]
  · rw [if_neg h1]
    by_cases h2 : j = l.length
    · rw [if_pos h2, h2, List.getElem?_concat_length]
    · rw [if_neg h2, List.getElem?_eq_none]
      rw [List.length_append, List.length_singleton]
      omega

/-- The store after `upsert_acl`: the invariant holds, the index returned is that of
the entry of the file, which is the one it had or a new one without owner and grants,
and `find_acl` returns what it returned for every other name. -/
theorem acl_upsert (st : acl_state) (h : acl_inv st) (f : List Char) :
    acl_inv (upsert_acl st f).1 ∧
    (upsert_acl st f).1.acls[(upsert_acl st f).2]? =
      some ((find_acl st f).getD ⟨f, none, []⟩) ∧
    ((find_acl st f).getD ⟨f, none, []⟩).file = f ∧
    ∀ g, find_acl (upsert_acl st f).1 g =
      if g = f then some ((find_acl st f).getD ⟨f, none, []⟩) else find_acl st g := by
  unfold upsert_acl
  rcases hi : find_acl_index st f with _ | i
  · obtain ⟨hnone, hmap, hno⟩ := find_acl_index_none st h f hi
    dsimp only
    rw [hnone]
    simp only [Option.getD_none]
    have hpos := getElem?_concat st.acls (⟨f, none, []⟩ : acl_entry)
    have hinv : acl_inv
        { acls := st.acls ++ [⟨f, none, []⟩],
          acl_map := acl_map_insert st.acl_map f st.acls.length } := by
      refine ⟨?_, acl_map_insert_nodup _ f _ h.2.1 hmap, ?_⟩
      · intro g j
        show acl_map_find (acl_map_insert st.acl_map f st.acls.length) g = some j ↔
          ((st.acls ++ [⟨f, none, []⟩])[j]?).map acl_entry.file = some g
        rw [acl_map_find_insert, hpos j]
        by_cases hg : g = f
        · rw [if_pos hg, hg]
          by_cases h1 : j < st.acls.length
          · rw [if_pos h1]
            constructor
            · intro hc
              cases hc
              omega
            · intro hc
              rcases hq : st.acls[j]? with _ | e
              · rw [hq] at hc
                cases hc
              · rw [hq] at hc
                exact absurd (Option.some.inj hc) (hno j e hq)
          · rw [if_neg h1]
            by_cases h2 : j = st.acls.length
            · rw [if_pos h2, h2]
              simp
            · rw [if_neg h2]
              constructor
              · intro hc
                cases hc
                exact absurd rfl h2
              · intro hc
                cases hc
        · rw [if_neg hg, h.1 g j]
          by_cases h1 : j < st.acls.length
          · rw [if_pos h1]
          · rw [if_neg h1, List.getElem?_eq_none (by omega)]
            by_cases h2 : j = st.acls.length
            · rw [if_pos h2]
              constructor
              · intro hc
                cases hc
              · intro hc
                exact absurd (Option.some.inj hc).symm hg
            · rw [if_neg h2]
      · intro e he
        rcases List.mem_append.mp he with h1 | h1
        · exact h.2.2 e h1
        · simp only [List.mem_singleton] at h1
          rw [h1]
          exact List.nodup_nil
    refine ⟨hinv, List.getElem?_concat_length _ _, trivial, ?_⟩
    intro g
    apply Option.ext
    intro a
    show find_acl _ g = some a ↔
      (if g = f then some (⟨f, none, []⟩ : acl_entry) else find_acl st g) = some a
    rw [find_acl_iff _ hinv g a]
    by_cases hg : g = f
    · rw [if_pos hg]
      constructor
      · rintro ⟨j, hj, hja⟩
        have hj' : (st.acls ++ [⟨f, none, []⟩])[j]? = some a := hj
        rw [hpos j] at hj'
        by_cases h1 : j < st.acls.length
        · rw [if_pos h1] at hj'
          exact absurd (hja.trans hg) (hno j a hj')
        · rw [if_neg h1] at hj'
          by_cases h2 : j = st.acls.length
          · rw [if_pos h2] at hj'
            exact hj'
          · rw [if_neg h2] at hj'
            cases hj'
      · intro ha
        cases ha
        exact ⟨st.acls.length, List.getElem?_concat_length _ _, hg.symm⟩
    · rw [if_neg hg, find_acl_iff st h g a]
      constructor
      · rintro ⟨j, hj, hja⟩
        have hj' : (st.acls ++ [⟨f, none, []⟩])[j]? = some a := hj
        rw [hpos j] at hj'
        by_cases h1 : j < st.acls.length
        · rw [if_pos h1] at hj'
          exact ⟨j, hj', hja⟩
        · rw [if_neg h1] at hj'
          by_cases h2 : j = st.acls.length
          · rw [if_pos h2] at hj'
            cases hj'
            exact absurd hja.symm hg
          · rw [if_neg h2] at hj'
            cases hj'
      · rintro ⟨j, hj, hja⟩
        have h1 : j < st.acls.length := (List.getElem?_eq_some_iff.mp hj).1
        refine ⟨j, ?_, hja⟩
        show (st.acls ++ [⟨f, none, []⟩])[j]? = some a
        rw [hpos j, if_pos h1]
        exact hj
  · obtain ⟨e, hie, hef, hfe⟩ := find_acl_of_index st h f i hi
    dsimp only
    rw [hfe]
    simp only [Option.getD_some]
    refine ⟨h, hie, hef, ?_⟩
    intro g
    by_cases hg : g = f
    · rw [if_pos hg, hg]
      exact hfe
    · rw [if_neg hg]

/-- Among grants of distinct users, the grant found for a user is the one at a position
of the list with the user. -/
theorem find_user_iff (l : List acl_user) (u : List Char) (g : acl_user)
    (hn : (l.map acl_user.user).Nodup) :
    l.find? (fun g => decide (g.user = u)) = some g ↔
      ∃ j : Nat, l[j]? = some g ∧ g.user = u := by
  constructor
  · intro h
    obtain ⟨hm, hu⟩ := find_user_some l u g h
    obtain ⟨j, hj⟩ := List.mem_iff_getElem?.mp hm
    exact ⟨j, hj, hu⟩
  · rintro ⟨j, hj, hu⟩
    exact find_user_of_nodup l u g hn (List.mem_iff_getElem?.mpr ⟨j, hj⟩) hu

/-- The grant found for a user after the loop of `nm_acl_grant`. -/
theorem find_grant_set (l : List acl_user) (u x : List Char) (p : Nat) :
    ((grant_set l u p).find? (fun g => decide (g.user = x))).map (fun g => g.perm) =
      if x = u then some p
      else (l.find? (fun g => decide (g.user = x))).map (fun g => g.perm) := by
  induction l with
  | nil =>
    unfold grant_set
    by_cases hx : x = u
    · rw [if_pos hx, hx]
      simp [List.find?_cons]
    · rw [if_neg hx]
      have : ¬ u = x := fun h => hx h.symm
      simp [List.find?_cons, this]
  | cons a t ih =>
    unfold grant_set
    by_cases ha : a.user = u
    · rw [if_pos ha]
      by_cases hx : x = u
      · rw [if_pos hx, hx]
        simp [List.find?_cons, ha]
      · rw [if_neg hx]
        have : ¬ a.user = x := fun h => hx (h.symm.trans ha)
        simp [List.find?_cons, this]
    · rw [if_neg ha]
      by_cases hax : a.user = x
      · have hx : ¬ x = u := fun h => ha (hax.trans h)
        rw [if_neg hx]
        simp [List.find?_cons, hax]
      · rw [List.find?_cons, List.find?_cons]
        simp only [hax, decide_False]
        exact ih

/-- The grant found for a user after the removal of the grant of a user, among grants
of distinct users. -/
theorem find_swap_remove (l : List acl_user) (u x : List Char) (i : Nat)
    (hn : (l.map acl_user.user).Nodup)
    (hi : l.findIdx? (fun g => decide (g.user = u)) = some i) :
    (swap_remove l i).find? (fun g => decide (g.user = x)) =
      if x = u then none else l.find? (fun g => decide (g.user = x)) := by
  rw [List.findIdx?_eq_some_iff_getElem] at hi
  obtain ⟨hil, hiu, _⟩ := hi
  have hiu' : (l[i]).user = u := by simpa using hiu
  have hie : l[i]? = some l[i] := List.getElem?_eq_getElem hil
  have hn' := swap_remove_nodup acl_user.user l i hil hn
  have hpos := (nodup_map_iff_positions acl_user.user l).mp hn
  apply Option.ext
  intro a
  show (swap_remove l i).find? (fun g => decide (g.user = x)) = some a ↔
    (if x = u then none else l.find? (fun g => decide (g.user = x))) = some a
  rw [find_user_iff _ x a hn']
  by_cases hx : x = u
  · rw [if_pos hx]
    constructor
    · rintro ⟨j, hj, hja⟩
      exfalso
      rw [getElem?_swap_remove l i j hil] at hj
      by_cases h1 : j + 1 < l.length
      · rw [if_pos h1] at hj
        by_cases h2 : j = i
        · rw [if_pos h2] at hj
          have := hpos _ _ a l[i] hj hie (by rw [hja, hx, hiu'])
          omega
        · rw [if_neg h2] at hj
          exact h2 (hpos _ _ a l[i] hj hie (by rw [hja, hx, hiu']))
      · rw [if_neg h1] at hj
        cases hj
    · intro hc
      cases hc
  · rw [if_neg hx, find_user_iff _ x a hn]
    constructor
    · rintro ⟨j, hj, hja⟩
      rw [getElem?_swap_remove l i j hil] at hj
      by_cases h1 : j + 1 < l.length
      · rw [if_pos h1] at hj
        by_cases h2 : j = i
        · rw [if_pos h2] at hj
          exact ⟨_, hj, hja⟩
        · rw [if_neg h2] at hj
          exact ⟨_, hj, hja⟩
      · rw [if_neg h1] at hj
        cases hj
    · rintro ⟨k, hk, hka⟩
      have hkl : k < l.length := (List.getElem?_eq_some_iff.mp hk).1
      have hki : k ≠ i := by
        intro hki
        rw [hki, hie] at hk
        cases hk
        exact hx (hka.symm.trans hiu')
      by_cases hlast : k = l.length - 1
      · refine ⟨i, ?_, hka⟩
        rw [getElem?_swap_remove l i i hil, if_pos (by omega), if_pos rfl, ← hlast]
        exact hk
      · refine ⟨k, ?_, hka⟩
        rw [getElem?_swap_remove l i k hil, if_pos (by omega), if_neg hki]
        exact hk

/-- The entry of a file in the reference map the store stands for. -/
theorem ref_entry_of_view (st : acl_state) (file : List Char) :
    ref_entry_of (acl_view st) file =
      ref_of_entry ((find_acl st file).getD ⟨file, none, []⟩) := by
  unfold ref_entry_of acl_view
  rcases find_acl st file with _ | e
  · rfl
  · rfl

/-- The empty store satisfies the invariant. -/
theorem acl_inv_empty : acl_inv acl_empty := by
  refine ⟨?_, ?_, ?_⟩
  · intro f i
    simp [acl_empty, acl_map_find]
  · intro b
    simp [acl_empty]
  · intro e he
    simp [acl_empty] at he

/-- The call `nm_acl_set_owner` keeps the invariant and is the setting of the owner
on the reference map. -/
theorem acl_sim_set_owner (st : acl_state) (h : acl_inv st) (file owner : List Char) :
    acl_inv (nm_acl_set_owner st file owner).2 ∧
    acl_view (nm_acl_set_owner st file owner).2 =
      ref_step (acl_view st) (acl_op.set_owner file owner) := by
  unfold nm_acl_set_owner
  simp only [ref_step]
  by_cases hf : file = []
  · rw [if_pos hf, if_pos hf]
    exact ⟨h, rfl⟩
  · rw [if_neg hf, if_neg hf]
    dsimp only
    obtain ⟨hu1, hu2, hu3, hu4⟩ := acl_upsert st h file
    have hmem : (find_acl st file).getD ⟨file, none, []⟩ ∈ (upsert_acl st file).1.acls :=
      List.mem_iff_getElem?.mpr ⟨_, hu2⟩
    have hnd := hu1.2.2 _ hmem
    obtain ⟨hm1, hm2⟩ := acl_modify (upsert_acl st file).1 hu1 (upsert_acl st file).2 _
      (fun e => { e with owner := if owner = [] then none else some owner }) hu2
      (fun _ => rfl) hnd
    refine ⟨hm1, ?_⟩
    funext f
    rw [ref_entry_of_view]
    show (find_acl _ f).map ref_of_entry = _
    rw [hm2 f, hu3, hu4 f]
    by_cases hff : f = file
    · rw [if_pos hff, if_pos hff]
      rfl
    · rw [if_neg hff, if_neg hff, if_neg hff]
      rfl

/-- The call `nm_acl_grant` keeps the invariant and is the grant on the reference
map. -/
theorem acl_sim_grant (st : acl_state) (h : acl_inv st) (file user : List Char) (perm : Nat) :
    acl_inv (nm_acl_grant st file user perm).2 ∧
    acl_view (nm_acl_grant st file user perm).2 =
      ref_step (acl_view st) (acl_op.grant file user perm) := by
  unfold nm_acl_grant
  simp only [ref_step]
  by_cases hf : file = [] ∨ user = []
  · rw [if_pos hf, if_pos hf]
    exact ⟨h, rfl⟩
  · rw [if_neg hf, if_neg hf]
    dsimp only
    obtain ⟨hu1, hu2, hu3, hu4⟩ := acl_upsert st h file
    have hmem : (find_acl st file).getD ⟨file, none, []⟩ ∈ (upsert_acl st file).1.acls :=
      List.mem_iff_getElem?.mpr ⟨_, hu2⟩
    have hnd := hu1.2.2 _ hmem
    obtain ⟨hm1, hm2⟩ := acl_modify (upsert_acl st file).1 hu1 (upsert_acl st file).2 _
      (fun e => { e with grants := grant_set e.grants user perm }) hu2
      (fun _ => rfl) (grant_set_nodup _ user perm hnd)
    refine ⟨hm1, ?_⟩
    funext f
    rw [ref_entry_of_view]
    show (find_acl _ f).map ref_of_entry = _
    rw [hm2 f, hu3, hu4 f]
    by_cases hff : f = file
    · rw [if_pos hff, if_pos hff]
      show some (ref_of_entry _) = some _
      congr 1
      unfold ref_of_entry
      dsimp only
      congr 1
      funext u
      exact find_grant_set _ user u perm
    · rw [if_neg hff, if_neg hff, if_neg hff]
      rfl

/-- A name without an index has no entry. -/
theorem find_acl_none_of_index (st : acl_state) (f : List Char)
    (hi : find_acl_index st f = none) : find_acl st f = none := by
  unfold find_acl
  rw [hi]

/-- A name without an entry has no index. -/
theorem find_acl_index_of_none (st : acl_state) (h : acl_inv st) (f : List Char)
    (hn : find_acl st f = none) : find_acl_index st f = none := by
  rcases hi : find_acl_index st f with _ | i
  · rfl
  · obtain ⟨e, _, _, he⟩ := find_acl_of_index st h f i hi
    rw [hn] at he
    cases he

/-- The call `nm_acl_revoke` keeps the invariant and is the revoke on the reference
map. -/
theorem acl_sim_revoke (st : acl_state) (h : acl_inv st) (file user : List Char) :
    acl_inv (nm_acl_revoke st file user).2 ∧
    acl_view (nm_acl_revoke st file user).2 =
      ref_step (acl_view st) (acl_op.revoke file user) := by
  unfold nm_acl_revoke
  simp only [ref_step]
  by_cases hf : file = [] ∨ user = []
  · rw [if_pos hf, if_pos hf]
    exact ⟨h, rfl⟩
  · rw [if_neg hf, if_neg hf]
    rcases hi : find_acl_index st file with _ | index
    · have hn := find_acl_none_of_index st file hi
      rw [hn]
      refine ⟨h, ?_⟩
      funext f
      by_cases hff : f = file
      · rw [if_pos hff, hff]
        show (find_acl st file).map ref_of_entry = ((find_acl st file).map ref_of_entry).map _
        rw [hn]
        rfl
      · rw [if_neg hff]
    · obtain ⟨e, hie, hef, hfe⟩ := find_acl_of_index st h file index hi
      rw [hfe]
      dsimp only
      have hnd := h.2.2 e (List.mem_iff_getElem?.mpr ⟨_, hie⟩)
      rcases hg : e.grants.findIdx? (fun g => decide (g.user = user)) with _ | i
      · simp only [hg]
        refine ⟨h, ?_⟩
        funext f
        by_cases hff : f = file
        · rw [if_pos hff, hff]
          show (find_acl st file).map ref_of_entry = ((find_acl st file).map ref_of_entry).map _
          rw [hfe]
          show some (ref_of_entry e) = some _
          congr 1
          unfold ref_of_entry
          dsimp only
          congr 1
          funext u
          by_cases hu : u = user
          · rw [if_pos hu, hu]
            rw [List.findIdx?_eq_none_iff] at hg
            have : e.grants.find? (fun g => decide (g.user = user)) = none := by
              rw [List.find?_eq_none]
              intro x hx
              rw [hg x hx]
              simp
            rw [this]
            rfl
          · rw [if_neg hu]
        · rw [if_neg hff]
      · have hil : i < e.grants.length := by
          rw [List.findIdx?_eq_some_iff_getElem] at hg
          exact hg.1
        simp only [hg]
        obtain ⟨hm1, hm2⟩ := acl_modify st h index e
          (fun e => { e with grants := swap_remove e.grants i }) hie
          (fun _ => rfl) (swap_remove_nodup acl_user.user e.grants i hil hnd)
        refine ⟨hm1, ?_⟩
        funext f
        show (find_acl _ f).map ref_of_entry = _
        rw [hm2 f, hef]
        by_cases hff : f = file
        · rw [if_pos hff, if_pos hff]
          show _ = ((find_acl st file).map ref_of_entry).map _
          rw [hfe]
          show some (ref_of_entry _) = some _
          congr 1
          unfold ref_of_entry
          dsimp only
          congr 1
          funext u
          rw [find_swap_remove e.grants user u i hnd hg]
          by_cases hu : u = user
          · rw [if_pos hu, if_pos hu]
            rfl
          · rw [if_neg hu, if_neg hu]
        · rw [if_neg hff, if_neg hff]
          rfl

/-- The store after the removal of the entry at an index by the move of the last entry
into its place, with a map that lost the name of the entry and has the index for the
name of the moved one: the invariant holds and only the removed name lost its
entry. -/
theorem acl_delete_at (st : acl_state) (h : acl_inv st) (file : List Char) (index : Nat)
    (e : acl_entry) (hi : st.acls[index]? = some e) (hf : e.file = file)
    (acls1 : List acl_entry) (m1 : Nat → List acl_hash_node)
    (hpos : ∀ j : Nat, acls1[j]? =
      if j + 1 < st.acls.length then
        (if j = index then st.acls[st.acls.length - 1]? else st.acls[j]?)
      else none)
    (hmap : ∀ g : List Char, acl_map_find m1 g =
      if g = file then none
      else if index ≠ st.acls.length - 1 ∧
          (st.acls[st.acls.length - 1]?).map acl_entry.file = some g then some index
      else acl_map_find st.acl_map g)
    (hnd : ∀ b, ((m1 b).map acl_hash_node.file).Nodup) :
    acl_inv { acls := acls1, acl_map := m1 } ∧
    ∀ g, find_acl { acls := acls1, acl_map := m1 } g =
      if g = file then none else find_acl st g := by
  have hil : index < st.acls.length := (List.getElem?_eq_some_iff.mp hi).1
  have hfrom : ∀ (j : Nat) (a : acl_entry), acls1[j]? = some a →
      j + 1 < st.acls.length ∧
      ((j = index ∧ st.acls[st.acls.length - 1]? = some a) ∨
       (j ≠ index ∧ st.acls[j]? = some a)) := by
    intro j a hj
    rw [hpos j] at hj
    by_cases h1 : j + 1 < st.acls.length
    · rw [if_pos h1] at hj
      refine ⟨h1, ?_⟩
      by_cases h2 : j = index
      · rw [if_pos h2] at hj
        exact Or.inl ⟨h2, hj⟩
      · rw [if_neg h2] at hj
        exact Or.inr ⟨h2, hj⟩
    · rw [if_neg h1] at hj
      cases hj
  have hnofile : ∀ (j : Nat) (a : acl_entry), acls1[j]? = some a → a.file ≠ file := by
    intro j a hj haf
    obtain ⟨h1, h2 | h2⟩ := hfrom j a hj
    · have := acl_names_distinct st h _ _ a e h2.2 hi (haf.trans hf.symm)
      omega
    · exact h2.1 (acl_names_distinct st h _ _ a e h2.2 hi (haf.trans hf.symm))
  have hinv : acl_inv { acls := acls1, acl_map := m1 } := by
    refine ⟨?_, hnd, ?_⟩
    · intro g j
      show acl_map_find m1 g = some j ↔ (acls1[j]?).map acl_entry.file = some g
      rw [hmap g]
      by_cases hg : g = file
      · rw [if_pos hg]
        constructor
        · intro hc
          cases hc
        · intro hc
          rcases hq : acls1[j]? with _ | a
          · rw [hq] at hc
            cases hc
          · rw [hq] at hc
            exact absurd ((Option.some.inj hc).trans hg) (hnofile j a hq)
      · rw [if_neg hg]
        by_cases hc : index ≠ st.acls.length - 1 ∧
            (st.acls[st.acls.length - 1]?).map acl_entry.file = some g
        · rw [if_pos hc]
          constructor
          · intro hj
            cases hj
            rw [hpos index, if_pos (by omega), if_pos rfl]
            exact hc.2
          · intro hj
            rcases hq : acls1[j]? with _ | a
            · rw [hq] at hj
              cases hj
            · rw [hq] at hj
              have haf : a.file = g := Option.some.inj hj
              obtain ⟨h1, h2 | h2⟩ := hfrom j a hq
              · rw [h2.1]
              · exfalso
                rcases hl : st.acls[st.acls.length - 1]? with _ | b
                · rw [hl] at hc
                  cases hc.2
                · rw [hl] at hc
                  have hbf : b.file = g := Option.some.inj hc.2
                  have := acl_names_distinct st h _ _ a b h2.2 hl (haf.trans hbf.symm)
                  omega
        · rw [if_neg hc, h.1 g j]
          constructor
          · intro hj
            rcases hq : st.acls[j]? with _ | a
            · rw [hq] at hj
              cases hj
            · rw [hq] at hj
              have haf : a.file = g := Option.some.inj hj
              have hjl : j < st.acls.length := (List.getElem?_eq_some_iff.mp hq).1
              have hji : j ≠ index := by
                intro hji
                rw [hji, hi] at hq
                cases hq
                exact hg (haf.symm.trans hf)
              have hjn : j + 1 < st.acls.length := by
                by_contra hjn
                have hjlast : j = st.acls.length - 1 := by omega
                apply hc
                refine ⟨by omega, ?_⟩
                rw [← hjlast, hq]
                exact congrArg some haf
              rw [hpos j, if_pos hjn, if_neg hji, hq]
              exact congrArg some haf
          · intro hj
            rcases hq : acls1[j]? with _ | a
            · rw [hq] at hj
              cases hj
            · rw [hq] at hj
              have haf : a.file = g := Option.some.inj hj
              obtain ⟨h1, h2 | h2⟩ := hfrom j a hq
              · exfalso
                apply hc
                refine ⟨by omega, ?_⟩
                rw [h2.2]
                exact congrArg some haf
              · rw [h2.2]
                exact congrArg some haf
    · intro a ha
      obtain ⟨j, hj⟩ := List.mem_iff_getElem?.mp ha
      have hj' : acls1[j]? = some a := hj
      obtain ⟨_, h2 | h2⟩ := hfrom j a hj'
      · exact h.2.2 a (List.mem_iff_getElem?.mpr ⟨_, h2.2⟩)
      · exact h.2.2 a (List.mem_iff_getElem?.mpr ⟨_, h2.2⟩)
  refine ⟨hinv, ?_⟩
  intro g
  apply Option.ext
  intro a
  show find_acl _ g = some a ↔ (if g = file then none else find_acl st g) = some a
  rw [find_acl_iff _ hinv g a]
  by_cases hg : g = file
  · rw [if_pos hg]
    constructor
    · rintro ⟨j, hj, hja⟩
      exact absurd (hja.trans hg) (hnofile j a hj)
    · intro hc
      cases hc
  · rw [if_neg hg, find_acl_iff st h g a]
    constructor
    · rintro ⟨j, hj, hja⟩
      have hj' : acls1[j]? = some a := hj
      obtain ⟨_, h2 | h2⟩ := hfrom j a hj'
      · exact ⟨_, h2.2, hja⟩
      · exact ⟨_, h2.2, hja⟩
    · rintro ⟨k, hk, hka⟩
      have hkl : k < st.acls.length := (List.getElem?_eq_some_iff.mp hk).1
      have hki : k ≠ index := by
        intro hki
        rw [hki, hi] at hk
        cases hk
        exact hg (hka.symm.trans hf)
      by_cases hlast : k = st.acls.length - 1
      · refine ⟨index, ?_, hka⟩
        show acls1[index]? = some a
        rw [hpos index, if_pos (by omega), if_pos rfl, ← hlast]
        exact hk
      · refine ⟨k, ?_, hka⟩
        show acls1[k]? = some a
        rw [hpos k, if_pos (by omega), if_neg hki]
        exact hk

/-- The call `nm_acl_delete` keeps the invariant and is the removal of the entry on the
reference map. -/
theorem acl_sim_delete (st : acl_state) (h : acl_inv st) (file : List Char) :
    acl_inv (nm_acl_delete st file).2 ∧
    acl_view (nm_acl_delete st file).2 =
      ref_step (acl_view st) (acl_op.delete file) := by
  unfold nm_acl_delete
  simp only [ref_step]
  by_cases hf : file = []
  · rw [if_pos hf, if_pos hf]
    exact ⟨h, rfl⟩
  · rw [if_neg hf, if_neg hf]
    have hsame : find_acl_index st file = none →
        acl_view st = fun f => if f = file then none else acl_view st f := by
      intro hn
      funext f
      by_cases hff : f = file
      · rw [if_pos hff, hff]
        show (find_acl st file).map ref_of_entry = none
        rw [find_acl_none_of_index st file hn]
        rfl
      · rw [if_neg hff]
    have hview : ∀ st1 : acl_state,
        (∀ g, find_acl st1 g = if g = file then none else find_acl st g) →
        acl_view st1 = fun f => if f = file then none else acl_view st f := by
      intro st1 hfind
      funext f
      show (find_acl st1 f).map ref_of_entry = _
      rw [hfind f]
      by_cases hff : f = file
      · rw [if_pos hff, if_pos hff]
        rfl
      · rw [if_neg hff, if_neg hff]
        rfl
    rcases hm : acl_map_find st.acl_map file with _ | index
    · have hidx : find_acl_index st file = none := by
        unfold find_acl_index
        rw [hm]
      exact ⟨h, hsame hidx⟩
    · dsimp only
      by_cases hge : index ≥ st.acls.length
      · rw [if_pos hge]
        have hidx : find_acl_index st file = none := by
          unfold find_acl_index
          rw [hm]
          dsimp only
          rw [if_neg (by omega)]
        exact ⟨h, hsame hidx⟩
      · rw [if_neg hge]
        have hil : index < st.acls.length := by omega
        have hmf := (h.1 file index).mp hm
        rcases hie : st.acls[index]? with _ | e
        · rw [hie] at hmf
          cases hmf
        · rw [hie] at hmf
          have hef : e.file = file := Option.some.inj hmf
          by_cases hlast : index ≠ st.acls.length - 1
          · rw [if_pos hlast]
            rcases hl : st.acls.getLast? with _ | last
            · exfalso
              rw [List.getLast?_eq_getElem?, List.getElem?_eq_none_iff] at hl
              omega
            · dsimp only
              have hll : st.acls[st.acls.length - 1]? = some last := by
                rw [← List.getLast?_eq_getElem?]
                exact hl
              have hsw : swap_remove st.acls index = (st.acls.set index last).dropLast := by
                unfold swap_remove
                rw [hl]
              have hlf : ¬ last.file = file := by
                intro hc
                have := acl_names_distinct st h _ _ last e hll hie (hc.trans hef.symm)
                omega
              have hlm : acl_map_find st.acl_map last.file = some (st.acls.length - 1) :=
                (h.1 last.file _).mpr (by rw [hll]; rfl)
              obtain ⟨hd1, hd2⟩ := acl_delete_at st h file index e hie hef
                ((st.acls.set index last).dropLast)
                (acl_map_update_index (acl_map_remove st.acl_map file) last.file index)
                (by
                  intro j
                  rw [← hsw]
                  exact getElem?_swap_remove st.acls index j hil)
                (by
                  intro g
                  rw [acl_map_find_update, acl_map_find_remove _ file last.file h.2.1,
                    acl_map_find_remove _ file g h.2.1, if_neg hlf, hlm]
                  by_cases hg : g = file
                  · have hgl : ¬ g = last.file := fun hc => hlf (hc.symm.trans hg)
                    rw [if_neg hgl, if_pos hg, if_pos hg]
                  · rw [if_neg hg, if_neg hg]
                    by_cases hgl : g = last.file
                    · rw [if_pos hgl, if_pos ⟨hlast, by rw [hll, hgl]; rfl⟩]
                      rfl
                    · rw [if_neg hgl, if_neg]
                      rintro ⟨_, hc⟩
                      rw [hll] at hc
                      exact hgl (Option.some.inj hc).symm)
                (acl_map_update_nodup _ _ _ (acl_map_remove_nodup _ _ h.2.1))
              exact ⟨hd1, hview _ hd2⟩
          · rw [if_neg hlast]
            have hlast' : index = st.acls.length - 1 := by omega
            obtain ⟨hd1, hd2⟩ := acl_delete_at st h file index e hie hef
              st.acls.dropLast (acl_map_remove st.acl_map file)
              (by
                intro j
                rw [List.dropLast_eq_take, List.getElem?_take]
                by_cases h1 : j + 1 < st.acls.length
                · rw [if_pos h1, if_pos (by omega), if_neg (by omega)]
                · rw [if_neg h1, if_neg (by omega)])
              (by
                intro g
                rw [acl_map_find_remove _ file g h.2.1]
                by_cases hg : g = file
                · rw [if_pos hg, if_pos hg]
                · rw [if_neg hg, if_neg hg, if_neg (fun hc => hc.1 hlast')])
              (acl_map_remove_nodup _ _ h.2.1)
            exact ⟨hd1, hview _ hd2⟩

/-- The call `nm_acl_rename` keeps the invariant and is the move of the entry on the
reference map. -/
theorem acl_sim_rename (st : acl_state) (h : acl_inv st) (old_file new_file : List Char) :
    acl_inv (nm_acl_rename st old_file new_file).2 ∧
    acl_view (nm_acl_rename st old_file new_file).2 =
      ref_step (acl_view st) (acl_op.rename old_file new_file) := by
  unfold nm_acl_rename
  simp only [ref_step]
  by_cases hf : old_file = [] ∨ new_file = []
  · rw [if_pos hf, if_pos hf]
    exact ⟨h, rfl⟩
  · rw [if_neg hf, if_neg hf]
    have hvo : acl_view st old_file = (find_acl st old_file).map ref_of_entry := rfl
    have hvn : acl_view st new_file = (find_acl st new_file).map ref_of_entry := rfl
    rw [hvo, hvn]
    rcases ho : find_acl st old_file with _ | e
    · exact ⟨h, rfl⟩
    · rcases hn : find_acl st new_file with _ | e2
      · dsimp only
        obtain ⟨i, hie, hef⟩ := (find_acl_iff st h old_file e).mp ho
        have hmo : acl_map_find st.acl_map old_file = some i :=
          (h.1 old_file i).mpr (by rw [hie]; exact congrArg some hef)
        rw [hmo]
        dsimp only
        obtain ⟨_, hmn, hno⟩ :=
          find_acl_index_none st h new_file (find_acl_index_of_none st h new_file hn)
        have hne : ¬ new_file = old_file := by
          intro hc
          rw [hc, ho] at hn
          cases hn
        have hpos := getElem?_modify_at (fun e : acl_entry => { e with file := new_file })
          st.acls i
        have hmapf : ∀ g, acl_map_find
            (acl_map_insert (acl_map_remove st.acl_map old_file) new_file i) g =
            if g = new_file then some i else if g = old_file then none
            else acl_map_find st.acl_map g := by
          intro g
          rw [acl_map_find_insert, acl_map_find_remove _ _ _ h.2.1]
        have hinv : acl_inv
            { acls := modify_at (fun e : acl_entry => { e with file := new_file }) st.acls i,
              acl_map := acl_map_insert (acl_map_remove st.acl_map old_file) new_file i } := by
          refine ⟨?_, ?_, ?_⟩
          · intro g j
            show acl_map_find _ g = some j ↔
              ((modify_at (fun e : acl_entry => { e with file := new_file })
                st.acls i)[j]?).map acl_entry.file = some g
            rw [hmapf g, hpos j]
            by_cases hgn : g = new_file
            · rw [if_pos hgn]
              constructor
              · intro hc
                cases hc
                rw [if_pos rfl, hie, hgn]
                rfl
              · intro hc
                by_cases hji : j = i
                · rw [hji]
                · rw [if_neg hji] at hc
                  rcases hq : st.acls[j]? with _ | a
                  · rw [hq] at hc
                    cases hc
                  · rw [hq] at hc
                    exact absurd ((Option.some.inj hc).trans hgn) (hno j a hq)
            · rw [if_neg hgn]
              by_cases hgo : g = old_file
              · rw [if_pos hgo]
                constructor
                · intro hc
                  cases hc
                · intro hc
                  exfalso
                  by_cases hji : j = i
                  · rw [if_pos hji, hji, hie] at hc
                    exact hgn (Option.some.inj hc).symm
                  · rw [if_neg hji] at hc
                    have := (h.1 g j).mpr hc
                    rw [hgo, hmo] at this
                    exact hji (Option.some.inj this).symm
              · rw [if_neg hgo, h.1 g j]
                by_cases hji : j = i
                · rw [if_pos hji, hji, hie]
                  constructor
                  · intro hc
                    exact absurd ((Option.some.inj hc).symm.trans hef) hgo
                  · intro hc
                    exact absurd (Option.some.inj hc).symm hgn
                · rw [if_neg hji]
          · refine acl_map_insert_nodup _ new_file i (acl_map_remove_nodup _ old_file h.2.1) ?_
            rw [acl_map_find_remove _ _ _ h.2.1, if_neg hne]
            exact hmn
          · intro a ha
            obtain ⟨j, hj⟩ := List.mem_iff_getElem?.mp ha
            have hj' : (modify_at (fun e : acl_entry => { e with file := new_file })
                st.acls i)[j]? = some a := hj
            rw [hpos j] at hj'
            by_cases hji : j = i
            · rw [if_pos hji, hji, hie] at hj'
              cases hj'
              exact h.2.2 e (List.mem_iff_getElem?.mpr ⟨_, hie⟩)
            · rw [if_neg hji] at hj'
              exact h.2.2 a (List.mem_iff_getElem?.mpr ⟨_, hj'⟩)
        have hfind : ∀ g, find_acl
            { acls := modify_at (fun e : acl_entry => { e with file := new_file }) st.acls i,
              acl_map := acl_map_insert (acl_map_remove st.acl_map old_file) new_file i } g =
            if g = new_file then some { e with file := new_file }
            else if g = old_file then none else find_acl st g := by
          intro g
          apply Option.ext
          intro a
          show find_acl _ g = some a ↔ (if g = new_file then some { e with file := new_file }
            else if g = old_file then none else find_acl st g) = some a
          rw [find_acl_iff _ hinv g a]
          have hfrom : ∀ j : Nat,
              (modify_at (fun e : acl_entry => { e with file := new_file })
                st.acls i)[j]? = some a →
              (j = i ∧ a = { e with file := new_file }) ∨ (j ≠ i ∧ st.acls[j]? = some a) := by
            intro j hj
            rw [hpos j] at hj
            by_cases hji : j = i
            · rw [if_pos hji, hji, hie] at hj
              exact Or.inl ⟨hji, (Option.some.inj hj).symm⟩
            · rw [if_neg hji] at hj
              exact Or.inr ⟨hji, hj⟩
          by_cases hgn : g = new_file
          · rw [if_pos hgn]
            constructor
            · rintro ⟨j, hj, hja⟩
              rcases hfrom j hj with h1 | h1
              · rw [h1.2]
              · exact absurd (hja.trans hgn) (hno j a h1.2)
            · intro hc
              cases hc
              refine ⟨i, ?_, hgn.symm⟩
              show (modify_at (fun e : acl_entry => { e with file := new_file })
                st.acls i)[i]? = _
              rw [hpos i, if_pos rfl, hie]
              rfl
          · rw [if_neg hgn]
            by_cases hgo : g = old_file
            · rw [if_pos hgo]
              constructor
              · rintro ⟨j, hj, hja⟩
                exfalso
                rcases hfrom j hj with h1 | h1
                · rw [h1.2] at hja
                  exact hgn hja.symm
                · exact h1.1 (acl_names_distinct st h _ _ a e h1.2 hie
                    (hja.trans (hgo.trans hef.symm)))
              · intro hc
                cases hc
            · rw [if_neg hgo, find_acl_iff st h g a]
              constructor
              · rintro ⟨j, hj, hja⟩
                rcases hfrom j hj with h1 | h1
                · rw [h1.2] at hja
                  exact absurd hja.symm hgn
                · exact ⟨j, h1.2, hja⟩
              · rintro ⟨k, hk, hka⟩
                have hki : k ≠ i := by
                  intro hki
                  rw [hki, hie] at hk
                  cases hk
                  exact hgo (hka.symm.trans hef)
                refine ⟨k, ?_, hka⟩
                show (modify_at (fun e : acl_entry => { e with file := new_file })
                  st.acls i)[k]? = _
                rw [hpos k, if_neg hki]
                exact hk
        refine ⟨hinv, ?_⟩
        funext f
        show (find_acl _ f).map ref_of_entry = _
        rw [hfind f]
        by_cases hfn : f = new_file
        · rw [if_pos hfn]
          simp only [Option.map_some', Option.map_none', if_pos hfn]
          rfl
        · rw [if_neg hfn]
          simp only [Option.map_some', Option.map_none', if_neg hfn]
          by_cases hfo : f = old_file
          · rw [if_pos hfo, if_pos hfo]
            rfl
          · rw [if_neg hfo, if_neg hfo]
            rfl
      · exact ⟨h, rfl⟩

/-- The check of an op on the store is the check on the reference map the store
stands for. -/
theorem acl_check_view (st : acl_state) (file user op : List Char) :
    nm_acl_check st file user op = ref_check (acl_view st) file user op := by
  unfold nm_acl_check ref_check
  have hv : acl_view st file = (find_acl st file).map ref_of_entry := rfl
  rw [hv]
  rcases find_acl st file with _ | e
  · rfl
  · simp only [Option.map_some', ref_of_entry]
    by_cases ho : e.owner = some user
    · rw [if_pos ho, if_pos ho]
    · rw [if_neg ho, if_neg ho]
      cases h1 : e.grants.find? (fun g => decide (g.user = user)) <;>
        cases h2 : e.grants.find? (fun g => decide (g.user = "anonymous".toList)) <;>
        simp [h1, h2]

/-- The owner read from the store is the owner in the reference map the store stands
for. -/
theorem acl_get_owner_view (st : acl_state) (file : List Char) (owner_out_sz : Nat) :
    nm_acl_get_owner st file owner_out_sz = ref_get_owner (acl_view st) file owner_out_sz := by
  unfold nm_acl_get_owner ref_get_owner
  have hv : acl_view st file = (find_acl st file).map ref_of_entry := rfl
  rw [hv]
  rcases find_acl st file with _ | e
  · rfl
  · simp only [Option.map_some', ref_of_entry]
    rcases e.owner with _ | o
    · rfl
    · rfl

/-- A call keeps the invariant of the store and is the same call on the reference
map. -/
theorem acl_sim (st : acl_state) (h : acl_inv st) (op : acl_op) :
    acl_inv (acl_step st op) ∧ acl_view (acl_step st op) = ref_step (acl_view st) op := by
  cases op with
  | set_owner file owner => exact acl_sim_set_owner st h file owner
  | grant file user perm => exact acl_sim_grant st h file user perm
  | revoke file user => exact acl_sim_revoke st h file user
  | delete file => exact acl_sim_delete st h file
  | rename old_file new_file => exact acl_sim_rename st h old_file new_file

/-- A sequence of calls keeps the invariant of the store and is the same sequence on the
reference map. -/
theorem acl_sim_run (ops : List acl_op) (st : acl_state) (h : acl_inv st) :
    acl_inv (ops.foldl acl_step st) ∧
    acl_view (ops.foldl acl_step st) = ops.foldl ref_step (acl_view st) := by
  induction ops generalizing st with
  | nil => exact ⟨h, rfl⟩
  | cons op rest ih =>
    obtain ⟨h1, h2⟩ := acl_sim st h op
    have := ih (acl_step st op) h1
    rw [h2] at this
    exact this

/-- The empty store stands for the empty reference map. -/
theorem acl_view_empty : acl_view acl_empty = fun _ => none := by
  funext f
  rfl

/-- C29: after every sequence of `nm_acl_set_owner`, `nm_acl_grant`, `nm_acl_revoke`,
`nm_acl_delete` and `nm_acl_rename` calls from the empty store, `nm_acl_check` and
`nm_acl_get_owner` return what they return on a reference map from a file name to an
owner and a permission per user that took the same calls; the hash map has, for the
name of every entry of the array, the index of the entry; and no entry has two grants
of a user. -/
theorem acl_store_refines_map (ops : List acl_op) (file user op : List Char)
    (owner_out_sz : Nat) :
    nm_acl_check (acl_run ops) file user op = ref_check (ref_run ops) file user op ∧
    nm_acl_get_owner (acl_run ops) file owner_out_sz =
      ref_get_owner (ref_run ops) file owner_out_sz ∧
    (∀ (i : Nat) (e : acl_entry), (acl_run ops).acls[i]? = some e →
      acl_map_find (acl_run ops).acl_map e.file = some i ∧
      find_acl (acl_run ops) e.file = some e) ∧
    (∀ e ∈ (acl_run ops).acls, (e.grants.map acl_user.user).Nodup) := by
  obtain ⟨hinv0, hview⟩ := acl_sim_run ops acl_empty acl_inv_empty
  rw [acl_view_empty] at hview
  have hrun : acl_view (acl_run ops) = ref_run ops := hview
  have hinv : acl_inv (acl_run ops) := hinv0
  refine ⟨?_, ?_, ?_, hinv.2.2⟩
  · rw [acl_check_view, hrun]
  · rw [acl_get_owner_view, hrun]
  · intro i e hie
    exact ⟨(hinv.1 e.file i).mpr (by rw [hie]; rfl),
      (find_acl_iff _ hinv e.file e).mpr ⟨i, hie, rfl⟩⟩

end NM
